import Mathlib

/-!
# QXml: the event parser, its node tree and its offset queries

A shallow embedding of `src/src/qxml/xmleventparser.cpp` and
`src/include/qxml/xmleventparser.h`.

* A `QString` is a list of characters, an `int` is an `Int`.
* Objects created with `new` live in `XmlEventParser.heap`; a pointer is the
  index of the object in that list and `nullptr` is `none`.
* A `QTextCursor` is represented by the integer its `position()` reports:
  `-1` for a default-constructed cursor, the clamped offset for a cursor
  made by `createCursor`.
* The event source (xmlwrapp's `event_parser`, outside the repository) is
  represented by the list of events it reports for a text.
-/

namespace QXml

/-- A `QString`, as the list of its characters. -/
abbrev QString := List Char

/-! ## Qt string primitives -/

/-- First index `i` with `from ≤ i` at which `str` occurs in `text`, scanning
`fuel` candidate positions; `-1` when there is none. -/
def findFrom (text str : QString) : Nat → Nat → Int
  | _, 0 => -1
  | i, fuel + 1 =>
    if str.isPrefixOf (text.drop i) then (i : Int) else findFrom text str (i + 1) fuel

/-- `QString::indexOf(const QString&, int from)`: a negative `from` counts
from the end of the text, a needle that cannot fit gives `-1`, an empty
needle is found at `from`. -/
def indexOf (text str : QString) (frm : Int) : Int :=
  let l : Int := text.length
  let sl : Int := str.length
  let frm := if frm < 0 then frm + l else frm
  if frm < 0 ∨ sl + frm > l then -1
  else if sl = 0 then frm
  else findFrom text str frm.toNat (text.length + 1 - str.length - frm.toNat)

/-- `QString::indexOf(QChar, int from)`. -/
def indexOfChar (text : QString) (c : Char) (frm : Int) : Int :=
  let l : Int := text.length
  let frm := if frm < 0 then max (frm + l) 0 else frm
  if frm < l then findFrom text [c] frm.toNat (text.length - frm.toNat) else -1

/-- Characters of `SMLibraries/utilities/characters.h`. -/
structure Characters where
  /-- The line feed. -/
  NEWLINE : Char
  /-- The blank. -/
  SPACE : Char
  /-- The equals sign. -/
  ASSIGNMENT : Char

/-- Modelled from the spec: the header `SMLibraries/utilities/characters.h`
is not part of the sources; the spec names the newline, the space that pads a
serialised tag and the `=` of an attribute assignment. -/
def chars : Characters := { NEWLINE := '\n', SPACE := ' ', ASSIGNMENT := '=' }

/-! ## The node types -/

/-- `XmlEventParser::IsInNodeType`. -/
inductive IsInNodeType
  | NotInNode
  | IsInNode
  | IsInAttributeName
  | IsInAttributeValue
  | IsInName
  | IsInText
  | IsInComment
  | IsInPITarget
  | IsInPIData
deriving DecidableEq

/-- `Node::Type`. -/
inductive NodeType
  | Base
  | XmlDeclaration
  | Text
  | Start
  | End
  | CData
  | Instruction
  | Comment
deriving DecidableEq

/-- `struct XmlAttribute`. A cursor field holds the cursor's position. -/
structure XmlAttribute where
  name : QString := []
  nameStartCursor : Int := -1
  value : QString := []
  valueStartCursor : Int := -1
  assignCursor : Int := -1
deriving DecidableEq

/-- `Node::MismatchedNodes`. -/
def MismatchedNodes : Nat := 1

/-- `struct Node` with the members of every derived struct (`NameNode`,
`XmlDeclarationNode`, `StartNode`, `EndNode`, `TextNode`, `CDataNode`,
`CommentNode`, `ProcessingInstruction`); `type` says which one the object is.
`closer` and `attributeIndex` have no initialiser in the source and start
here as `none` and `-1`. -/
structure Node where
  -- Node
  parent : Option Nat := none
  children : List Nat := []
  startCursor : Int := -1
  endCursor : Int := -1
  type : NodeType := NodeType.Base
  errors : Nat := 0
  newLines : List Int := []
  -- NameNode
  nameStartCursor : Int := -1
  name : QString := []
  -- StartNode
  attributeIndex : Int := -1
  attributes : List XmlAttribute := []
  closer : Option Nat := none
  -- TextNode
  textStartCursor : Int := -1
  text : QString := []
  -- CDataNode and ProcessingInstruction
  dataStartCursor : Int := -1
  data : QString := []
  -- CommentNode
  commentStartCursor : Int := -1
  comment : QString := []
  -- ProcessingInstruction
  targetStartCursor : Int := -1
  target : QString := []
  -- XmlDeclarationNode
  versionCursor : Int := -1
  versionAssign : Int := -1
  versionValueCursor : Int := -1
  version : QString := []
  encodingCursor : Int := -1
  encodingAssign : Int := -1
  encodingValueCursor : Int := -1
  encoding : QString := []
  standaloneCursor : Int := -1
  standaloneAssign : Int := -1
  standaloneValueCursor : Int := -1
  standalone : QString := []

instance : Inhabited Node := ⟨{}⟩

/-- `XmlAttribute::nameStart`. -/
def XmlAttribute.nameStart (a : XmlAttribute) : Int := a.nameStartCursor
/-- `XmlAttribute::nameLength`. -/
def XmlAttribute.nameLength (a : XmlAttribute) : Int := a.name.length
/-- `XmlAttribute::valueStart`. -/
def XmlAttribute.valueStart (a : XmlAttribute) : Int := a.valueStartCursor
/-- `XmlAttribute::valueLength`. -/
def XmlAttribute.valueLength (a : XmlAttribute) : Int := a.value.length
/-- `XmlAttribute::hasValue`. -/
def XmlAttribute.hasValue (a : XmlAttribute) : Bool := !a.value.isEmpty

/-- `XmlAttribute::isIn`. -/
def XmlAttribute.isIn (a : XmlAttribute) (cursorPos : Int) : IsInNodeType :=
  if cursorPos ≥ a.nameStart ∧ cursorPos < a.nameStart + a.name.length then
    IsInNodeType.IsInAttributeName
  else if cursorPos ≥ a.valueStart ∧ cursorPos < a.valueStart + a.value.length then
    IsInNodeType.IsInAttributeValue
  else IsInNodeType.NotInNode

/-- `Node::start`. -/
def Node.start (n : Node) : Int := n.startCursor
/-- `Node::end`. -/
def Node.end (n : Node) : Int := n.endCursor
/-- `Node::length`. -/
def Node.length (n : Node) : Int := n.end - n.start
/-- `NameNode::nameStart`. -/
def Node.nameStart (n : Node) : Int := n.nameStartCursor
/-- `NameNode::nameLength`. -/
def Node.nameLength (n : Node) : Int := n.name.length
/-- `TextNode::textLength`. -/
def Node.textLength (n : Node) : Int := n.text.length
/-- `CommentNode::commentStart`. -/
def Node.commentStart (n : Node) : Int := n.commentStartCursor
/-- `CommentNode::commentLength`. -/
def Node.commentLength (n : Node) : Int := n.comment.length
/-- `CDataNode::dataStart` and `ProcessingInstruction::dataStart`. -/
def Node.dataStart (n : Node) : Int := n.dataStartCursor
/-- `CDataNode::dataLength` and `ProcessingInstruction::dataLength`. -/
def Node.dataLength (n : Node) : Int := n.data.length
/-- `ProcessingInstruction::targetStart`. -/
def Node.targetStart (n : Node) : Int := n.targetStartCursor
/-- `ProcessingInstruction::targetLength`. -/
def Node.targetLength (n : Node) : Int := n.target.length

/-- `Node::contains`. -/
def Node.contains (n : Node) (position : Int) : Bool :=
  if position ≥ n.start ∧ position < n.end then true else false

/-- `Node::isIn`, the base-class test. -/
def Node.baseIsIn (n : Node) (cursorPos : Int) : IsInNodeType :=
  if cursorPos ≥ n.start ∧ cursorPos < n.end then IsInNodeType.IsInNode
  else IsInNodeType.NotInNode

/-- `NameNode::isIn`. -/
def Node.nameIsIn (n : Node) (cursorPos : Int) : IsInNodeType :=
  if n.baseIsIn cursorPos = IsInNodeType.IsInNode then
    if cursorPos ≥ n.nameStart ∧ cursorPos < n.nameStart + n.name.length then
      IsInNodeType.IsInName
    else IsInNodeType.IsInNode
  else IsInNodeType.NotInNode

/-- The attribute loop of `StartNode::isIn`: the index of the first attribute
whose own `isIn` reports a name or value hit, counted from `i`. -/
def attributeHit (cursorPos : Int) : List XmlAttribute → Int → Option Int
  | [], _ => none
  | d :: rest, i =>
    let attResult := d.isIn cursorPos
    if attResult = IsInNodeType.IsInAttributeName ∨
        attResult = IsInNodeType.IsInAttributeValue then some i
    else attributeHit cursorPos rest (i + 1)

/-- `StartNode::isIn`: the classification it returns and the node with
`attributeIndex` as the call leaves it. -/
def Node.startIsIn (n : Node) (cursorPos : Int) : IsInNodeType × Node :=
  let result := n.nameIsIn cursorPos
  if result = IsInNodeType.IsInNode then
    match attributeHit cursorPos n.attributes 0 with
    | some i => (result, { n with attributeIndex := i })
    | none => (result, { n with attributeIndex := -1 })
  else if result = IsInNodeType.IsInName then (result, n)
  else (IsInNodeType.NotInNode, n)

/-- `TextNode::isIn`. -/
def Node.textIsIn (n : Node) (cursorPos : Int) : IsInNodeType :=
  if n.baseIsIn cursorPos = IsInNodeType.IsInNode then
    if cursorPos ≥ n.start ∧ cursorPos < n.start + n.text.length then
      IsInNodeType.IsInText
    else IsInNodeType.IsInNode
  else IsInNodeType.NotInNode

/-- `CommentNode::isIn`. -/
def Node.commentIsIn (n : Node) (cursorPos : Int) : IsInNodeType :=
  if n.baseIsIn cursorPos = IsInNodeType.IsInNode then
    if cursorPos ≥ n.commentStart ∧ cursorPos < n.commentStart + n.comment.length then
      IsInNodeType.IsInComment
    else IsInNodeType.IsInNode
  else IsInNodeType.NotInNode

/-- `ProcessingInstruction::isIn`. -/
def Node.instructionIsIn (n : Node) (cursorPos : Int) : IsInNodeType :=
  let result := n.baseIsIn cursorPos
  if result = IsInNodeType.IsInNode then
    if cursorPos ≥ n.targetStart ∧ cursorPos < n.targetStart + n.target.length then
      IsInNodeType.IsInPITarget
    else if cursorPos ≥ n.dataStart ∧ cursorPos < n.dataStart + n.data.length then
      IsInNodeType.IsInPIData
    else result
  else IsInNodeType.NotInNode

/-- `CDataNode::isIn`. -/
def Node.cdataIsIn (n : Node) (cursorPos : Int) : IsInNodeType :=
  if n.baseIsIn cursorPos = IsInNodeType.IsInNode then
    if cursorPos ≥ n.dataStart ∧ cursorPos < n.dataStart + n.data.length then
      IsInNodeType.IsInComment
    else IsInNodeType.IsInNode
  else IsInNodeType.NotInNode

/-- The virtual call `node->isIn(cursorPos)`, dispatched on the node's type:
`StartNode`, `TextNode`, `CommentNode`, `CDataNode` and
`ProcessingInstruction` override it, `EndNode` and `XmlDeclarationNode`
inherit `NameNode::isIn`. -/
def Node.isIn (n : Node) (cursorPos : Int) : IsInNodeType :=
  match n.type with
  | NodeType.Base => n.baseIsIn cursorPos
  | NodeType.XmlDeclaration => n.nameIsIn cursorPos
  | NodeType.Text => n.textIsIn cursorPos
  | NodeType.Start => (n.startIsIn cursorPos).1
  | NodeType.End => n.nameIsIn cursorPos
  | NodeType.CData => n.cdataIsIn cursorPos
  | NodeType.Instruction => n.instructionIsIn cursorPos
  | NodeType.Comment => n.commentIsIn cursorPos

/-! ## The parser object -/

/-- A signal emitted by the parser. -/
inductive Signal
  | sendError (message : QString)
  | sendWarning (message : QString)
  | finished
deriving DecidableEq

/-- `class XmlEventParser`. `m_document` is the number of characters of the
`QTextDocument` the parser was built on (cursor positions run from `0` to that
number); `heap` holds every node created with `new`; `m_errors` lists the
entries of the `QMultiMap` in iteration order (the handlers insert under one
key only, and among equal keys the newest entry comes first); `emitted` is
the signals sent so far, oldest first. -/
structure XmlEventParser where
  m_document : Nat
  heap : List Node := []
  m_errors : List (QString × Nat) := []
  m_rootNode : Option Nat := none
  m_parentNode : Option Nat := none
  m_nodes : List Nat := []
  m_haltOnError : Bool := true
  m_downloadCorrect : Bool := false
  emitted : List Signal := []

/-- `XmlEventParser::XmlEventParser(document)`. -/
def XmlEventParser.new (document : Nat) : XmlEventParser := { m_document := document }

/-- The object a pointer refers to. -/
def deref (heap : List Node) (ptr : Nat) : Node := heap.getD ptr default

/-- Write through a pointer: replace the object at `ptr` by `f` of it. -/
def update : List Node → Nat → (Node → Node) → List Node
  | [], _, _ => []
  | n :: heap, 0, f => f n :: heap
  | n :: heap, ptr + 1, f => n :: update heap ptr f

/-- The object `ptr` refers to in the parser's heap. -/
def XmlEventParser.node (p : XmlEventParser) (ptr : Nat) : Node := deref p.heap ptr

/-- `XmlEventParser::isHaltOnError`. -/
def XmlEventParser.isHaltOnError (p : XmlEventParser) : Bool := p.m_haltOnError
/-- `XmlEventParser::setHaltOnError`. -/
def XmlEventParser.setHaltOnError (p : XmlEventParser) (HaltOnError : Bool) : XmlEventParser :=
  { p with m_haltOnError := HaltOnError }
/-- `XmlEventParser::errors`. -/
def XmlEventParser.errors (p : XmlEventParser) : List (QString × Nat) := p.m_errors
/-- `XmlEventParser::rootNode`. -/
def XmlEventParser.rootNode (p : XmlEventParser) : Option Nat := p.m_rootNode
/-- `XmlEventParser::nodes`. -/
def XmlEventParser.nodes (p : XmlEventParser) : List Nat := p.m_nodes

/-- The loop of `XmlEventParser::nodeForPosition` over the flat list. -/
def nodeForPositionLoop (heap : List Node) (position : Int) : List Nat → Option Nat
  | [] => none
  | node :: rest =>
    if (deref heap node).contains position then some node
    else nodeForPositionLoop heap position rest

/-- `XmlEventParser::nodeForPosition`. -/
def XmlEventParser.nodeForPosition (p : XmlEventParser) (position : Int) : Option Nat :=
  nodeForPositionLoop p.heap position p.m_nodes

/-! ## The event handlers -/

/-- The attribute objects `start_element` creates from the event's pairs. -/
def makeAttributes (attrs : List (QString × QString)) : List XmlAttribute :=
  attrs.map fun kv =>
    let attr : XmlAttribute := { name := kv.1 }
    if !kv.2.isEmpty then { attr with value := kv.2 } else attr

/-- `XmlEventParser::start_element`. The result is `none` when the handler
dereferences a null `m_parentNode`. -/
def XmlEventParser.start_element (p : XmlEventParser) (name : QString)
    (attrs : List (QString × QString)) : Option (Bool × XmlEventParser) :=
  let node : Node := { type := NodeType.Start, name := name, attributes := makeAttributes attrs }
  let ptr := p.heap.length
  match p.m_rootNode with
  | none =>
    some (true, { p with
      heap := p.heap ++ [node]
      m_rootNode := some ptr
      m_parentNode := some ptr
      m_nodes := p.m_nodes ++ [ptr] })
  | some _ =>
    match p.m_parentNode with
    | none => none
    | some parent =>
      some (true, { p with
        heap := update (p.heap ++ [{ node with parent := some parent }]) parent
          (fun n => { n with children := n.children ++ [ptr] })
        m_parentNode := some ptr
        m_nodes := p.m_nodes ++ [ptr] })

/-- The text of the mismatch error, `tr("End node does not match start node")`. -/
def mismatchMessage : QString := "End node does not match start node".toList

/-- `XmlEventParser::end_element`. -/
def XmlEventParser.end_element (p : XmlEventParser) (name : QString) : Bool × XmlEventParser :=
  match p.m_parentNode with
  | none => (true, p)
  | some parentPtr =>
    let node : Node := { type := NodeType.End, name := name }
    let ptr := p.heap.length
    let parent := p.node parentPtr
    if parent.type = NodeType.Start then
      if node.name ≠ parent.name then
        let p1 : XmlEventParser := { p with
          heap := p.heap ++ [{ node with errors := node.errors ||| MismatchedNodes }]
          m_errors := (mismatchMessage, ptr) :: p.m_errors
          emitted := p.emitted ++ [Signal.sendError mismatchMessage] }
        if p.m_haltOnError then (false, p1) else (true, p1)
      else
        (true, { p with
          heap := update (p.heap ++ [node]) parentPtr (fun n => { n with closer := some ptr })
          m_parentNode := parent.parent
          m_nodes := p.m_nodes ++ [ptr] })
    else
      (true, { p with
        heap := p.heap ++ [node]
        m_parentNode := parent.parent
        m_nodes := p.m_nodes ++ [ptr] })

/-- The common body of `text`, `cdata`, `processing_instruction` and
`comment`: the new node gets `m_parentNode` as parent, joins that node's
children when there is one, and is appended to the flat list. -/
def XmlEventParser.addLeaf (p : XmlEventParser) (node : Node) : Bool × XmlEventParser :=
  let ptr := p.heap.length
  let heap := p.heap ++ [{ node with parent := p.m_parentNode }]
  match p.m_parentNode with
  | some parent =>
    (true, { p with
      heap := update heap parent (fun n => { n with children := n.children ++ [ptr] })
      m_nodes := p.m_nodes ++ [ptr] })
  | none => (true, { p with heap := heap, m_nodes := p.m_nodes ++ [ptr] })

/-- `XmlEventParser::text`. -/
def XmlEventParser.text (p : XmlEventParser) (contents : QString) : Bool × XmlEventParser :=
  p.addLeaf { type := NodeType.Text, text := contents }

/-- `XmlEventParser::cdata`. -/
def XmlEventParser.cdata (p : XmlEventParser) (contents : QString) : Bool × XmlEventParser :=
  p.addLeaf { type := NodeType.CData, data := contents }

/-- `XmlEventParser::processing_instruction`. -/
def XmlEventParser.processing_instruction (p : XmlEventParser) (target data : QString) :
    Bool × XmlEventParser :=
  p.addLeaf { type := NodeType.Instruction, target := target, data := data }

/-- `XmlEventParser::comment`. -/
def XmlEventParser.comment (p : XmlEventParser) (contents : QString) : Bool × XmlEventParser :=
  p.addLeaf { type := NodeType.Comment, comment := contents }

/-- `XmlEventParser::warning`. -/
def XmlEventParser.warning (p : XmlEventParser) (message : QString) : Bool × XmlEventParser :=
  (true, { p with emitted := p.emitted ++ [Signal.sendWarning message] })

/-! ## The event source -/

/-- A callback of xmlwrapp's `event_parser`, with its arguments. -/
inductive Event
  | start_element (name : QString) (attrs : List (QString × QString))
  | end_element (name : QString)
  | text (contents : QString)
  | cdata (contents : QString)
  | processing_instruction (target data : QString)
  | comment (contents : QString)
  | warning (message : QString)
deriving DecidableEq

/-- The handler the event source calls for an event. -/
def XmlEventParser.handle (p : XmlEventParser) : Event → Option (Bool × XmlEventParser)
  | Event.start_element name attrs => p.start_element name attrs
  | Event.end_element name => some (p.end_element name)
  | Event.text contents => some (p.text contents)
  | Event.cdata contents => some (p.cdata contents)
  | Event.processing_instruction target data => some (p.processing_instruction target data)
  | Event.comment contents => some (p.comment contents)
  | Event.warning message => some (p.warning message)

/-- Modelled from the spec: the event source (`parse_chunk` of xmlwrapp's
`event_parser`, not part of the sources) reports the events in document
order and stops at the first handler that returns false. The result is
whether every handler returned true, and the parser as the handlers left
it; `none` when a handler dereferenced a null pointer. -/
def XmlEventParser.runEvents (p : XmlEventParser) : List Event → Option (Bool × XmlEventParser)
  | [] => some (true, p)
  | e :: rest =>
    match p.handle e with
    | none => none
    | some (true, p1) => p1.runEvents rest
    | some (false, p1) => some (false, p1)

/-! ## Position recovery -/

/-- `XmlEventParser::createCursor`: a cursor on `m_document` starts at
position `0` and `movePosition(Right, MoveAnchor, position)` moves it right
`position` times, stopping at the end of the document; a count that is not
positive moves nothing. The result is the position of the cursor. -/
def XmlEventParser.createCursor (p : XmlEventParser) (position : Int) : Int :=
  if position ≤ 0 then 0 else min position p.m_document

/-- `text.at(i) == c`; an index outside the text matches nothing. -/
def charAt (text : QString) (i : Int) (c : Char) : Bool :=
  if i < 0 then false else text[i.toNat]? == some c

/-- The loop of `reverseSearchForChar` from index `i` down to `0`. -/
def reverseSearchLoop (c : Char) (text : QString) : Nat → Int
  | 0 => if charAt text 0 c then 0 else -1
  | i + 1 => if charAt text (i + 1 : Nat) c then ((i + 1 : Nat) : Int) else reverseSearchLoop c text i

/-- `XmlEventParser::reverseSearchForChar`. -/
def reverseSearchForChar (c : Char) (text : QString) (searchFrom : Int) : Int :=
  if searchFrom < 0 then -1 else reverseSearchLoop c text searchFrom.toNat

/-- The newline scan that ends every case of `calculateNodePositions`:
the offsets `i` with `start ≤ i < stop` at which the text has a newline, in
ascending order. -/
def scanNewLines (text : QString) (start stop : Int) : List Int :=
  ((List.range (stop - start).toNat).map fun k => start + (k : Int)).filter
    fun i => charAt text i chars.NEWLINE

/-- The attribute loop of the `Start` case of `calculateNodePositions`: the
attributes with their cursors set, and the search position after the loop. -/
def positionAttributes (p : XmlEventParser) (text : QString) :
    List XmlAttribute → Int → List XmlAttribute × Int
  | [], pos => ([], pos)
  | attr :: rest, pos =>
    let pos := indexOf text attr.name pos
    let attr := { attr with nameStartCursor := p.createCursor pos }
    let pos := pos + attr.nameLength
    let pos := indexOfChar text '=' pos
    let attr := { attr with assignCursor := p.createCursor pos }
    if attr.hasValue then
      let pos := indexOf text attr.value 0
      let attr := { attr with valueStartCursor := p.createCursor pos }
      let pos := pos + attr.valueLength
      let r := positionAttributes p text rest pos
      (attr :: r.1, r.2)
    else
      let r := positionAttributes p text rest pos
      (attr :: r.1, r.2)

/-- One pass of the loop body of `calculateNodePositions`: the node with its
cursors and newlines set, and the search position after it. -/
def positionNode (p : XmlEventParser) (text : QString) (node : Node) (pos : Int) : Node × Int :=
  match node.type with
  | NodeType.Start =>
    let pos := indexOf text node.name pos
    let node := { node with nameStartCursor := p.createCursor pos }
    let node := { node with startCursor := p.createCursor (reverseSearchForChar '<' text pos) }
    let pos := pos + node.nameLength
    let r := positionAttributes p text node.attributes pos
    let node := { node with attributes := r.1 }
    let pos := indexOfChar text '>' r.2
    let pos := pos + 1
    let node := { node with endCursor := p.createCursor pos }
    ({ node with newLines := node.newLines ++ scanNewLines text node.start node.end }, pos)
  | NodeType.End =>
    let pos := indexOf text node.name pos
    let node := { node with nameStartCursor := p.createCursor pos }
    let node := { node with startCursor := p.createCursor (reverseSearchForChar '<' text pos) }
    let pos := pos + node.nameLength
    let pos := indexOfChar text '>' pos
    let pos := pos + 1
    let node := { node with endCursor := p.createCursor pos }
    ({ node with newLines := node.newLines ++ scanNewLines text node.start node.end }, pos)
  | NodeType.Text =>
    let pos := indexOf text node.text pos
    let node := { node with startCursor := p.createCursor pos }
    let pos := pos + node.textLength
    let node := { node with endCursor := p.createCursor pos }
    ({ node with newLines := node.newLines ++ scanNewLines text node.start node.end }, pos)
  | NodeType.Comment =>
    let pos := indexOf text node.comment pos
    let node := { node with startCursor := p.createCursor (pos - 4) }
    let node := { node with commentStartCursor := p.createCursor pos }
    let pos := pos + (node.commentLength + 3)
    let node := { node with endCursor := p.createCursor pos }
    ({ node with newLines := node.newLines ++ scanNewLines text node.start node.end }, pos)
  | NodeType.CData =>
    let pos := indexOf text node.data pos
    let node := { node with startCursor := p.createCursor (pos - 9) }
    let node := { node with dataStartCursor := p.createCursor pos }
    let pos := pos + (node.dataLength + 4)
    let node := { node with endCursor := p.createCursor pos }
    ({ node with newLines := node.newLines ++ scanNewLines text node.start node.end }, pos)
  | NodeType.Instruction =>
    let pos := indexOf text node.target pos
    let node := { node with targetStartCursor := p.createCursor pos }
    let node := { node with startCursor := p.createCursor (reverseSearchForChar '<' text pos) }
    let pos := pos + node.targetLength
    let pos := indexOf text node.data pos
    let node := { node with dataStartCursor := p.createCursor pos }
    let pos := pos + node.dataLength
    let pos := indexOf text ['>'] pos
    let node := { node with endCursor := p.createCursor (pos + 1) }
    ({ node with newLines := node.newLines ++ scanNewLines text node.start node.end }, pos)
  | _ => (node, pos)

/-- The loop of `calculateNodePositions` over the flat list, writing each
node back through its pointer. -/
def positionNodes (p : XmlEventParser) (text : QString) :
    List Nat → List Node → Int → List Node × Int
  | [], heap, pos => (heap, pos)
  | ptr :: rest, heap, pos =>
    let r := positionNode p text (deref heap ptr) pos
    positionNodes p text rest (update heap ptr fun _ => r.1) r.2

/-- `XmlEventParser::calculateNodePositions`. -/
def XmlEventParser.calculateNodePositions (p : XmlEventParser) (text : QString) : XmlEventParser :=
  if text.isEmpty then p
  else { p with heap := (positionNodes p text p.m_nodes p.heap 0).1 }

/-! ## The XML declaration

The `QRegularExpression` patterns of the parser, all with
`CaseInsensitiveOption` (compared here on the ASCII letters; `MultilineOption`
has no effect on patterns without `^` and `$`). -/

/-- One element of a pattern. -/
inductive Piece
  /-- A literal character. -/
  | lit (c : Char)
  /-- A character class `[...]`. -/
  | cls (cs : List Char)
  /-- The repetition `[^c]*`. -/
  | starNot (c : Char)
  /-- An alternation of literal words `(w1|w2)`. -/
  | alt (ws : List QString)

/-- Caseless comparison of two characters. -/
def ciEq (a b : Char) : Bool := a.toLower == b.toLower

/-- Whether `w` is a caseless prefix of `t`. -/
def ciPrefix : QString → QString → Bool
  | [], _ => true
  | _ :: _, [] => false
  | a :: w, b :: t => ciEq a b && ciPrefix w t

/-- The first of the candidate lengths `k, k-1, …, 0` that `f` accepts. -/
def firstDown (f : Nat → Option Nat) : Nat → Option Nat
  | 0 => f 0
  | k + 1 => match f (k + 1) with
    | some r => some r
    | none => firstDown f k

/-- Length of the match of the pattern at the head of `t`, if it matches
there: greedy repetition with backtracking, alternatives tried in order. -/
def matchPieces : List Piece → QString → Option Nat
  | [], _ => some 0
  | Piece.lit c :: ps, t =>
    match t with
    | [] => none
    | x :: t1 => if ciEq c x then (matchPieces ps t1).map (· + 1) else none
  | Piece.cls cs :: ps, t =>
    match t with
    | [] => none
    | x :: t1 => if cs.any (ciEq · x) then (matchPieces ps t1).map (· + 1) else none
  | Piece.starNot c :: ps, t =>
    firstDown (fun j => (matchPieces ps (t.drop j)).map (· + j)) (t.takeWhile (· != c)).length
  | Piece.alt ws :: ps, t =>
    ws.findSome? fun w =>
      if ciPrefix w t then (matchPieces ps (t.drop w.length)).map (· + w.length) else none

/-- The leftmost match at or after index `i`, trying `fuel` start positions:
its start and its length. -/
def searchPieces (ps : List Piece) (subject : QString) : Nat → Nat → Option (Nat × Nat)
  | _, 0 => none
  | i, fuel + 1 =>
    match matchPieces ps (subject.drop i) with
    | some len => some (i, len)
    | none => searchPieces ps subject (i + 1) fuel

/-- `QRegularExpression::match(subject, offset)`: `capturedStart(0)` and the
length of `captured(0)` of the first match at or after `offset`, `none` when
`hasMatch()` is false. A negative offset counts from the end of the subject;
an offset outside the subject matches nothing. -/
def reMatch (ps : List Piece) (subject : QString) (offset : Int) : Option (Nat × Nat) :=
  let offset := if offset < 0 then offset + subject.length else offset
  if offset < 0 ∨ offset > subject.length then none
  else searchPieces ps subject offset.toNat (subject.length + 1 - offset.toNat)

/-- The pattern of a literal word. -/
def word (w : String) : List Piece := w.toList.map Piece.lit

/-- The quote class `["']`. -/
def quote : Piece := Piece.cls [Char.ofNat 34, Char.ofNat 39]

/-- `XMLDECL_REGEX`, `<\?xml[^?]*\?>`. -/
def XMLDECL_REGEX : List Piece := word "<?xml" ++ [Piece.starNot '?'] ++ word "?>"
/-- `XML_REGEX`, `\?xml`. -/
def XML_REGEX : List Piece := word "?xml"
/-- `VERSION_REGEX`. -/
def VERSION_REGEX : List Piece := word "version"
/-- `ASSIGN_REGEX`. -/
def ASSIGN_REGEX : List Piece := word "="
/-- `VERSION_VALUE_REGEX`, `["']1\.[01]["']`. -/
def VERSION_VALUE_REGEX : List Piece := [quote] ++ word "1." ++ [Piece.cls ['0', '1'], quote]
/-- `ENCODING_REGEX`. -/
def ENCODING_REGEX : List Piece := word "encoding"
/-- `ENCODING_VALUE_REGEX`, `["']utf-[8|16]["']`. -/
def ENCODING_VALUE_REGEX : List Piece :=
  [quote] ++ word "utf-" ++ [Piece.cls ['8', '|', '1', '6'], quote]
/-- `STANDALONE_REGEX`. -/
def STANDALONE_REGEX : List Piece := word "standalone"
/-- `STANDALONE_VALUE_REGEX`, `["'](yes|no)["']`. -/
def STANDALONE_VALUE_REGEX : List Piece :=
  [quote, Piece.alt ["yes".toList, "no".toList], quote]

/-- `captured(0)` of a match. -/
def captured (subject : QString) (m : Nat × Nat) : QString := (subject.drop m.1).take m.2

/-- `XmlDeclarationNode::hasVersion`. -/
def Node.hasVersion (n : Node) : Bool := !n.version.isEmpty
/-- `XmlDeclarationNode::hasEncoding`. -/
def Node.hasEncoding (n : Node) : Bool := !n.encoding.isEmpty
/-- `XmlDeclarationNode::versionStart`. -/
def Node.versionStart (n : Node) : Int := n.versionCursor
/-- `XmlDeclarationNode::versionAssignStart`. -/
def Node.versionAssignStart (n : Node) : Int := n.versionAssign
/-- `XmlDeclarationNode::versionValueStart`. -/
def Node.versionValueStart (n : Node) : Int := n.versionValueCursor
/-- `XmlDeclarationNode::encodingStart`. -/
def Node.encodingStart (n : Node) : Int := n.encodingCursor
/-- `XmlDeclarationNode::encodingAssignStart`. -/
def Node.encodingAssignStart (n : Node) : Int := n.encodingAssign
/-- `XmlDeclarationNode::encodingValueStart`. -/
def Node.encodingValueStart (n : Node) : Int := n.encodingValueCursor
/-- `XmlDeclarationNode::standaloneStart`. -/
def Node.standaloneStart (n : Node) : Int := n.standaloneCursor
/-- `XmlDeclarationNode::standaloneAssignStart`. -/
def Node.standaloneAssignStart (n : Node) : Int := n.standaloneAssign
/-- `XmlDeclarationNode::standaloneValueStart`. -/
def Node.standaloneValueStart (n : Node) : Int := n.standaloneValueCursor

/-- The declaration node `getXmlDeclaration` fills in for a prologue
`xmltext` matched at offset `pos`. -/
def declarationNode (p : XmlEventParser) (xmltext : QString) (pos : Int) : Node :=
  let xml : Node := { type := NodeType.XmlDeclaration }
  let xml := match reMatch XML_REGEX xmltext 0 with
    | some m => { xml with nameStartCursor := p.createCursor (pos + m.1) }
    | none => xml
  let xml := { xml with startCursor := p.createCursor pos }
  let xml := { xml with endCursor := p.createCursor (pos + xmltext.length) }
  let xml := match reMatch VERSION_REGEX xmltext 0 with
    | some m => { xml with versionCursor := p.createCursor (pos + m.1) }
    | none => xml
  let xml := match reMatch ASSIGN_REGEX xmltext xml.versionStart with
    | some m => { xml with versionAssign := p.createCursor (pos + m.1) }
    | none => xml
  let xml := match reMatch VERSION_VALUE_REGEX xmltext xml.versionAssignStart with
    | some m => { xml with
        versionValueCursor := p.createCursor (pos + m.1), version := captured xmltext m }
    | none => xml
  let xml := match reMatch ENCODING_REGEX xmltext 0 with
    | some m => { xml with encodingCursor := p.createCursor (pos + m.1) }
    | none => xml
  let xml := match reMatch ASSIGN_REGEX xmltext xml.encodingStart with
    | some m => { xml with encodingAssign := p.createCursor (pos + m.1) }
    | none => xml
  let xml := match reMatch ENCODING_VALUE_REGEX xmltext xml.encodingAssignStart with
    | some m => { xml with
        encodingValueCursor := p.createCursor (pos + m.1), encoding := captured xmltext m }
    | none => xml
  let xml := match reMatch STANDALONE_REGEX xmltext 0 with
    | some m => { xml with standaloneCursor := p.createCursor (pos + m.1) }
    | none => xml
  let xml := match reMatch ASSIGN_REGEX xmltext xml.standaloneStart with
    | some m => { xml with standaloneAssign := p.createCursor (pos + m.1) }
    | none => xml
  match reMatch STANDALONE_VALUE_REGEX xmltext xml.standaloneAssignStart with
    | some m => { xml with
        standaloneValueCursor := p.createCursor (pos + m.1), standalone := captured xmltext m }
    | none => xml

/-- `XmlEventParser::getXmlDeclaration`. -/
def XmlEventParser.getXmlDeclaration (p : XmlEventParser) (text : QString) : XmlEventParser :=
  match reMatch XMLDECL_REGEX text 0 with
  | some m =>
    let xml := declarationNode p (captured text m) m.1
    { p with heap := p.heap ++ [xml], m_nodes := p.heap.length :: p.m_nodes }
  | none => p

/-! ## Parsing a text -/

/-- `XmlEventParser::parseString`. `events` is what the event source
reports while `parse_chunk` consumes the text, and `finishOk` what
`parse_finish` has to say about the document itself; the parse succeeds when
no handler stopped it and the source accepted the document. The result is
`none` when a handler dereferenced a null pointer. -/
def XmlEventParser.parseString (p : XmlEventParser) (text : QString) (events : List Event)
    (finishOk : Bool) : Option (Bool × XmlEventParser) :=
  match p.runEvents events with
  | none => none
  | some (handled, p1) =>
    let success := handled && finishOk
    if !success then some (false, p1)
    else some (true, (p1.getXmlDeclaration text).calculateNodePositions text)

/-! ## Serialising a node -/

/-- `Node::addSpaces`. -/
def addSpaces (n : Int) (s : QString) : QString := s ++ List.replicate n.toNat chars.SPACE

/-- `TextNode::toString`. -/
def Node.textToString (n : Node) : QString := n.text

/-- One pass of the loop of `EndNode::toString` at index `i`. -/
def endToStringStep (n : Node) (s : QString) (i : Int) : QString :=
  if i < s.length then s
  else if i = n.nameStart then s ++ n.name
  else if n.newLines.contains i then s ++ [chars.NEWLINE]
  else s ++ [chars.SPACE]

/-- `EndNode::toString`. -/
def Node.endToString (n : Node) : QString :=
  let s : QString := "</".toList
  let s := ((List.range (n.end - 1 - (n.start + 2)).toNat).map fun k =>
    n.start + 2 + (k : Int)).foldl (endToStringStep n) s
  s ++ ">".toList

/-- The attribute loop inside `StartNode::toString` at index `i`: the string
and the index as the `break` leaves them. -/
def startToStringAttributes : List XmlAttribute → Int → QString → QString × Int
  | [], i, s => (s, i)
  | att :: rest, i, s =>
    if i = att.nameStart then (s ++ att.name, i + att.name.length)
    else if i = att.assignCursor then (s ++ [chars.ASSIGNMENT], i)
    else if !att.value.isEmpty ∧ i = att.valueStart then (s ++ att.value, i + att.value.length)
    else startToStringAttributes rest i s

/-- The `for` loop of `StartNode::toString` from index `i`; every pass moves
`i` forward, so `fuel` passes suffice when `fuel` is the distance to
`end() - 1`. -/
def startToStringLoop (n : Node) : Nat → Int → QString → QString
  | 0, _, s => s
  | fuel + 1, i, s =>
    if i < n.end - 1 then
      if i < s.length then startToStringLoop n fuel (i + 1) s
      else if i = n.nameStart then
        startToStringLoop n fuel (i + n.name.length + 1) (s ++ n.name)
      else if n.newLines.contains i then
        startToStringLoop n fuel (i + 1) (s ++ [chars.NEWLINE])
      else
        let r := startToStringAttributes n.attributes i s
        startToStringLoop n fuel (r.2 + 1) (r.1 ++ [chars.SPACE])
    else s

/-- `StartNode::toString`. -/
def Node.startToString (n : Node) : QString :=
  let s : QString := "<".toList
  let s := startToStringLoop n (n.end - 1 - (n.start + 1)).toNat (n.start + 1) s
  let s := addSpaces (n.length - s.length - 1) s
  s ++ ">".toList

/-- `CommentNode::toString`. -/
def Node.commentToString (n : Node) : QString :=
  let s : QString := "<!--".toList
  let s := addSpaces (n.commentStart - n.start - 4) s
  let s := s ++ n.comment
  let s := addSpaces (n.length - s.length - 4) s
  s ++ "-->".toList

/-- `ProcessingInstruction::toString`. -/
def Node.instructionToString (n : Node) : QString :=
  let s : QString := "<?".toList
  let s := addSpaces (n.targetStart - n.start - 2) s
  let s := s ++ n.target
  let s := addSpaces (n.dataStart - n.targetStart - n.target.length) s
  let s := s ++ n.data
  let s := addSpaces (n.length - s.length - 2) s
  s ++ "?>".toList

/-- `CDataNode::toString`. -/
def Node.cdataToString (n : Node) : QString :=
  let s : QString := "<!CDATA[".toList
  let s := addSpaces (n.dataStart - n.start - 8) s
  let s := s ++ n.data
  let s := addSpaces (n.length - s.length - 3) s
  s ++ "]]>".toList

/-- `XmlDeclarationNode::toString`. -/
def Node.declarationToString (_n : Node) : QString := []

/-- The virtual call `node->toString()`; `Node` itself declares it pure
virtual, so no object has type `Base`. -/
def Node.toString (n : Node) : QString :=
  match n.type with
  | NodeType.Base => []
  | NodeType.XmlDeclaration => n.declarationToString
  | NodeType.Text => n.textToString
  | NodeType.Start => n.startToString
  | NodeType.End => n.endToString
  | NodeType.CData => n.cdataToString
  | NodeType.Instruction => n.instructionToString
  | NodeType.Comment => n.commentToString

/-- The concatenation of `toString()` over the flat node list, in order. -/
def XmlEventParser.serialise (p : XmlEventParser) : QString :=
  (p.m_nodes.map fun ptr => (p.node ptr).toString).flatten

/-! ## Well-formed event sequences and what the tree builder maintains -/

/-- Whether the event creates a node. -/
def Event.isStructural : Event → Bool
  | Event.warning _ => false
  | _ => true

/-- The event a node stands for, read back from its type and content. -/
def Node.event (n : Node) : Option Event :=
  match n.type with
  | NodeType.Start =>
    some (Event.start_element n.name (n.attributes.map fun a => (a.name, a.value)))
  | NodeType.End => some (Event.end_element n.name)
  | NodeType.Text => some (Event.text n.text)
  | NodeType.CData => some (Event.cdata n.data)
  | NodeType.Instruction => some (Event.processing_instruction n.target n.data)
  | NodeType.Comment => some (Event.comment n.comment)
  | _ => none

/-- Whether an event sequence is balanced and single-rooted, read from a
point at which the elements named in `stack` are open (innermost first) and
`rootSeen` says whether a top-level element has been opened already. -/
def wellFormedFrom : List QString → Bool → List Event → Bool
  | stack, rootSeen, [] => stack.isEmpty && rootSeen
  | stack, rootSeen, Event.start_element name _ :: rest =>
    if stack.isEmpty && rootSeen then false else wellFormedFrom (name :: stack) true rest
  | stack, rootSeen, Event.end_element name :: rest =>
    match stack with
    | [] => false
    | top :: stack1 => name == top && wellFormedFrom stack1 rootSeen rest
  | stack, rootSeen, Event.text _ :: rest => wellFormedFrom stack rootSeen rest
  | stack, rootSeen, Event.cdata _ :: rest => wellFormedFrom stack rootSeen rest
  | stack, rootSeen, Event.processing_instruction _ _ :: rest => wellFormedFrom stack rootSeen rest
  | stack, rootSeen, Event.comment _ :: rest => wellFormedFrom stack rootSeen rest
  | stack, rootSeen, Event.warning _ :: rest => wellFormedFrom stack rootSeen rest

/-- A well-formed event sequence: every end matches the innermost open start,
nothing stays open, and there is exactly one top-level element. -/
def wellFormed (events : List Event) : Bool := wellFormedFrom [] false events

/-- The elements that are open: `cur` is the innermost one, each entry of
the list gives the pointer and the name of a `Start` node, and each node's
parent is the next entry. -/
def Chain (h : List Node) : Option Nat → List (Nat × QString) → Prop
  | cur, [] => cur = none
  | cur, (i, nm) :: rest =>
    cur = some i ∧ ∃ nd : Node, h[i]? = some nd ∧ nd.type = NodeType.Start ∧ nd.name = nm ∧
      Chain h nd.parent rest

/-- The node has a closer, the closer is an `End` node, and the names agree. -/
def ClosedBy (h : List Node) (nd : Node) : Prop :=
  ∃ (k : Nat) (nk : Node), nd.closer = some k ∧ h[k]? = some nk ∧ nk.type = NodeType.End ∧ nk.name = nd.name

/-- Every object of `h` is still there in `h'` with its type, name and parent,
and with at least the children it had. -/
def Keeps (h h' : List Node) : Prop :=
  ∀ (i : Nat) (nd : Node), h[i]? = some nd → ∃ nd' : Node, h'[i]? = some nd' ∧ nd'.type = nd.type ∧
    nd'.name = nd.name ∧ nd'.parent = nd.parent ∧ nd.children ⊆ nd'.children

/-- What holds of the parser between two events of a well-formed sequence,
with `st` the open elements (innermost first) and `rs` whether a top-level
element has been opened. -/
structure Inv (st : List (Nat × QString)) (rs : Bool) (p : XmlEventParser) : Prop where
  nodes : p.m_nodes = List.range p.heap.length
  root : p.m_rootNode.isSome = rs
  rootStack : st ≠ [] → rs = true
  chain : Chain p.heap p.m_parentNode st
  closed : ∀ (i : Nat) (nd : Node), p.heap[i]? = some nd → nd.type = NodeType.Start →
    (∃ nm, (i, nm) ∈ st) ∨ ClosedBy p.heap nd
  parents : ∀ (c : Nat) (nd : Node) (q : Nat), p.heap[c]? = some nd → nd.parent = some q →
    q < c ∧ ∃ nq : Node, p.heap[q]? = some nq ∧ nq.type = NodeType.Start ∧ c ∈ nq.children

/-! ## The documents of the scenarios -/

/-- The document `<a x="1">hi<b/></a>`. -/
def scenarioText : QString := "<a x=\"1\">hi<b/></a>".toList

/-- The events of `<a x="1">hi<b/></a>`. -/
def scenarioEvents : List Event :=
  [Event.start_element "a".toList [("x".toList, "1".toList)],
   Event.text "hi".toList,
   Event.start_element "b".toList [],
   Event.end_element "b".toList,
   Event.end_element "a".toList]

/-- The parse of `<a x="1">hi<b/></a>` by a fresh parser on a document that
holds the same text. -/
def scenarioParse : Option (Bool × XmlEventParser) :=
  (XmlEventParser.new scenarioText.length).parseString scenarioText scenarioEvents true

/-- The document `<?xml version="1.0" encoding="UTF-8"?><r/>`. -/
def declarationText : QString := "<?xml version=\"1.0\" encoding=\"UTF-8\"?><r/>".toList

/-- The events of `<?xml version="1.0" encoding="UTF-8"?><r/>`: the event
source reports the element, not the declaration. -/
def declarationEvents : List Event :=
  [Event.start_element "r".toList [], Event.end_element "r".toList]

/-- The parse of `<?xml version="1.0" encoding="UTF-8"?><r/>`. -/
def declarationParse : Option (Bool × XmlEventParser) :=
  (XmlEventParser.new declarationText.length).parseString declarationText declarationEvents true

/-- The document `<a>hi</a>`. -/
def simpleText : QString := "<a>hi</a>".toList

/-- The events of `<a>hi</a>`. -/
def simpleEvents : List Event :=
  [Event.start_element "a".toList [], Event.text "hi".toList, Event.end_element "a".toList]

/-- The parse of `<a>hi</a>`. -/
def simpleParse : Option (Bool × XmlEventParser) :=
  (XmlEventParser.new simpleText.length).parseString simpleText simpleEvents true

/-- The document `<a x="1"></a>`. -/
def attributeText : QString := "<a x=\"1\"></a>".toList

/-- The events of `<a x="1"></a>`. -/
def attributeEvents : List Event :=
  [Event.start_element "a".toList [("x".toList, "1".toList)], Event.end_element "a".toList]

/-- The parse of `<a x="1"></a>`. -/
def attributeParse : Option (Bool × XmlEventParser) :=
  (XmlEventParser.new attributeText.length).parseString attributeText attributeEvents true

/-- The document `<a><c></c><b x="a"></b></a>`. -/
def repeatText : QString := "<a><c></c><b x=\"a\"></b></a>".toList

/-- The events of `<a><c></c><b x="a"></b></a>`. -/
def repeatEvents : List Event :=
  [Event.start_element "a".toList [],
   Event.start_element "c".toList [],
   Event.end_element "c".toList,
   Event.start_element "b".toList [("x".toList, "a".toList)],
   Event.end_element "b".toList,
   Event.end_element "a".toList]

/-- The parse of `<a><c></c><b x="a"></b></a>`. -/
def repeatParse : Option (Bool × XmlEventParser) :=
  (XmlEventParser.new repeatText.length).parseString repeatText repeatEvents true

/-- Type, start, name start and end of every node of the flat list. -/
def XmlEventParser.spans (p : XmlEventParser) : List (NodeType × Int × Int × Int) :=
  p.m_nodes.map fun ptr => ((p.node ptr).type, (p.node ptr).start, (p.node ptr).nameStart,
    (p.node ptr).end)

/-! ## Error flags, trimming and further scenarios -/

/-- `QFlags::testFlag`. -/
def testFlag (flags flag : Nat) : Bool :=
  (flags &&& flag) == flag && (flag != 0 || flags == flag)

/-- `QChar::isSpace` on the ASCII characters: tab, line feed, vertical tab,
form feed, carriage return and blank. -/
def isSpace (c : Char) : Bool :=
  c == ' ' || c == '\t' || c == '\n' || c == Char.ofNat 11 || c == Char.ofNat 12 || c == '\r'

/-- `QString::trimmed`: the string without the whitespace at its start and
at its end. -/
def trimmed (s : QString) : QString :=
  ((s.dropWhile isSpace).reverse.dropWhile isSpace).reverse

/-- `TextNode::isWhitespace`. -/
def Node.textIsWhitespace (n : Node) : Bool := (trimmed n.text).isEmpty

/-- `CommentNode::isWhitespace`. -/
def Node.commentIsWhitespace (n : Node) : Bool := (trimmed n.comment).isEmpty

/-- Whether the event opens an element. -/
def Event.isStart : Event → Bool
  | Event.start_element _ _ => true
  | _ => false

/-- The names of the end-element events that do not match the innermost open
element, in event order, when no mismatch stops the pass: `stack` holds the
names of the open elements (innermost first); a start opens its element, an
end that matches the innermost open element closes it, an end that does not
match is a mismatch and closes nothing, an end with nothing open is passed
over. -/
def mismatchedEnds : List QString → List Event → List QString
  | _, [] => []
  | stack, Event.start_element name _ :: rest => mismatchedEnds (name :: stack) rest
  | stack, Event.end_element name :: rest =>
    match stack with
    | [] => mismatchedEnds [] rest
    | top :: stack1 =>
      if name = top then mismatchedEnds stack1 rest else name :: mismatchedEnds stack rest
  | stack, Event.text _ :: rest => mismatchedEnds stack rest
  | stack, Event.cdata _ :: rest => mismatchedEnds stack rest
  | stack, Event.processing_instruction _ _ :: rest => mismatchedEnds stack rest
  | stack, Event.comment _ :: rest => mismatchedEnds stack rest
  | stack, Event.warning _ :: rest => mismatchedEnds stack rest

/-- The events of `<a><b></c></a>`: start a, start b, end c, end a. -/
def mismatchEvents : List Event :=
  [Event.start_element "a".toList [], Event.start_element "b".toList [],
   Event.end_element "c".toList, Event.end_element "a".toList]

/-- The events of `<a><b></c></a>` run by a fresh parser, halt-on-error as
constructed. -/
def mismatchHalting : Option (Bool × XmlEventParser) :=
  (XmlEventParser.new 14).runEvents mismatchEvents

/-- The events of `<a><b></c></a>` run by a fresh parser after
`setHaltOnError(false)`. -/
def mismatchContinuing : Option (Bool × XmlEventParser) :=
  ((XmlEventParser.new 14).setHaltOnError false).runEvents mismatchEvents

/-- The document `<?xml-stylesheet href="s.xsl"?><r/>`. -/
def stylesheetText : QString := "<?xml-stylesheet href=\"s.xsl\"?><r/>".toList

/-- The events of `<?xml-stylesheet href="s.xsl"?><r/>`. -/
def stylesheetEvents : List Event :=
  [Event.processing_instruction "xml-stylesheet".toList "href=\"s.xsl\"".toList,
   Event.start_element "r".toList [], Event.end_element "r".toList]

/-- The parse of `<?xml-stylesheet href="s.xsl"?><r/>`. -/
def stylesheetParse : Option (Bool × XmlEventParser) :=
  (XmlEventParser.new stylesheetText.length).parseString stylesheetText stylesheetEvents true

/-- The document `<!-- note --><r/>`. -/
def commentText : QString := "<!-- note --><r/>".toList

/-- The events of `<!-- note --><r/>`: the content of the comment is what
stands between `<!--` and `-->`, blanks included. -/
def commentEvents : List Event :=
  [Event.comment " note ".toList, Event.start_element "r".toList [],
   Event.end_element "r".toList]

/-- The parse of `<!-- note --><r/>`. -/
def commentParse : Option (Bool × XmlEventParser) :=
  (XmlEventParser.new commentText.length).parseString commentText commentEvents true

/-- Whether the event is a text, CDATA, processing-instruction or comment
event. -/
def Event.isLeaf : Event → Bool
  | Event.text _ => true
  | Event.cdata _ => true
  | Event.processing_instruction _ _ => true
  | Event.comment _ => true
  | _ => false

/-- A parser in which the element `a` is open: a fresh parser after the
event start a. -/
def openedParser : XmlEventParser :=
  (((XmlEventParser.new 0).start_element "a".toList []).map Prod.snd).getD (XmlEventParser.new 0)

/-- What the error registry is checked against: the type and the name of a
node and whether it carries the `MismatchedNodes` flag. -/
def Node.errorView (n : Node) : NodeType × QString × Bool :=
  (n.type, n.name, testFlag n.errors MismatchedNodes)

/-- The registry `errs` over the heap `h` holds, newest first, one entry per
name of `acc`, each under the mismatch message and pointing to a flagged
`End` node of that name; no pointer is registered twice; and a node of the
heap is flagged exactly when it is registered. -/
def Registered (acc : List QString) (h : List Node) (errs : List (QString × Nat)) : Prop :=
  errs.map (fun e => (e.1, (h[e.2]?).map Node.errorView)) =
      acc.map (fun nm => (mismatchMessage, some (NodeType.End, nm, true))) ∧
    (errs.map Prod.snd).Nodup ∧
    ∀ (i : Nat) (nd : Node), h[i]? = some nd →
      (testFlag nd.errors MismatchedNodes = true ↔ i ∈ errs.map Prod.snd)

/-- Every object of `h` is still there in `h'` with its type, name and
error flags. -/
def KeepsErrors (h h' : List Node) : Prop :=
  ∀ (i : Nat) (nd : Node), h[i]? = some nd →
    ∃ nd' : Node, h'[i]? = some nd' ∧ nd'.errorView = nd.errorView

/-- What holds of a parser with halt-on-error disabled between two events:
`st` lists the open elements (innermost first) and `acc` the names of the
mismatched ends so far, newest first. -/
structure ErrInv (st : List (Nat × QString)) (acc : List QString) (p : XmlEventParser) :
    Prop where
  halt : p.m_haltOnError = false
  rootStack : p.m_rootNode = none → st = []
  chain : Chain p.heap p.m_parentNode st
  reg : Registered acc p.heap p.m_errors

/-- A `QFile` as the parser sees it: whether the file exists, whether
`open(QFile::ReadWrite)` succeeds, and the text `QTextStream::readAll` gives. -/
structure QFile where
  fileExists : Bool
  opens : Bool
  contents : QString

/-- `XmlEventParser::parseFile(QFile&)`. `events` and `finishOk` are what the
event source reports for the contents of the file. -/
def XmlEventParser.parseFile (p : XmlEventParser) (file : QFile) (events : List Event)
    (finishOk : Bool) : Option (Bool × XmlEventParser) :=
  if file.fileExists then
    if file.opens then
      match p.parseString file.contents events finishOk with
      | none => none
      | some (_, p1) => some (false, p1)
    else some (false, p)
  else some (false, p)

/-- `XmlEventParser::parseFile(const QString&)`. `fs` is the file system:
the file a name refers to. -/
def XmlEventParser.parseFileName (p : XmlEventParser) (fs : QString → QFile)
    (filename : QString) (events : List Event) (finishOk : Bool) :
    Option (Bool × XmlEventParser) :=
  let file := fs filename
  if file.fileExists then
    if file.opens then
      match p.parseString file.contents events finishOk with
      | none => none
      | some (_, p1) => some (true, p1)
    else some (true, p)
  else some (true, p)

/-- `XmlHighlighter::FormatSize`. -/
structure FormatSize where
  start : Int := -1
  length : Int := 0
deriving DecidableEq

/-- `XmlHighlighter::isFormatable`: the value returned and `result` as the
call leaves it. -/
def isFormatable (start length blockStart textLength : Int) (result : FormatSize) :
    Bool × FormatSize :=
  let stop := start + length
  let textend := blockStart + textLength
  if stop < blockStart ∨ start > textend then (false, result)
  else
    let result :=
      if start < 0 then { result with start := blockStart }
      else
        let result := { result with start := start - blockStart }
        { result with start := if result.start < 0 then 0 else result.start }
    let result :=
      if stop > textend then { result with length := start + length - textLength }
      else { result with length := length }
    (true, result)

/-- The values the attribute loop of `calculateNodePositions` assigns to
`pos`, in the order of the assignments. -/
def attributeCursorValues (text : QString) : List XmlAttribute → Int → List Int
  | [], _ => []
  | attr :: rest, pos =>
    let pos1 := indexOf text attr.name pos
    let pos2 := pos1 + attr.nameLength
    let pos3 := indexOfChar text '=' pos2
    if attr.hasValue then
      let pos4 := indexOf text attr.value 0
      let pos5 := pos4 + attr.valueLength
      [pos1, pos2, pos3, pos4, pos5] ++ attributeCursorValues text rest pos5
    else
      [pos1, pos2, pos3] ++ attributeCursorValues text rest pos3

/-- The values one pass of the loop body of `calculateNodePositions` assigns
to `pos`, in the order of the assignments. -/
def nodeCursorValues (text : QString) (node : Node) (pos : Int) : List Int :=
  match node.type with
  | NodeType.Start =>
    let pos1 := indexOf text node.name pos
    let pos2 := pos1 + node.nameLength
    let attrs := attributeCursorValues text node.attributes pos2
    let pos3 := indexOfChar text '>' (attrs.getLastD pos2)
    [pos1, pos2] ++ attrs ++ [pos3, pos3 + 1]
  | NodeType.End =>
    let pos1 := indexOf text node.name pos
    let pos2 := pos1 + node.nameLength
    let pos3 := indexOfChar text '>' pos2
    [pos1, pos2, pos3, pos3 + 1]
  | NodeType.Text =>
    let pos1 := indexOf text node.text pos
    [pos1, pos1 + node.textLength]
  | NodeType.Comment =>
    let pos1 := indexOf text node.comment pos
    [pos1, pos1 + (node.commentLength + 3)]
  | NodeType.CData =>
    let pos1 := indexOf text node.data pos
    [pos1, pos1 + (node.dataLength + 4)]
  | NodeType.Instruction =>
    let pos1 := indexOf text node.target pos
    let pos2 := pos1 + node.targetLength
    let pos3 := indexOf text node.data pos2
    let pos4 := pos3 + node.dataLength
    [pos1, pos2, pos3, pos4, indexOf text ['>'] pos4]
  | _ => []

/-- The values the loop of `calculateNodePositions` assigns to `pos` over the
flat list, in the order of the assignments. -/
def cursorValuesLoop (p : XmlEventParser) (text : QString) :
    List Nat → List Node → Int → List Int
  | [], _, _ => []
  | ptr :: rest, heap, pos =>
    let r := positionNode p text (deref heap ptr) pos
    nodeCursorValues text (deref heap ptr) pos ++
      cursorValuesLoop p text rest (update heap ptr fun _ => r.1) r.2

/-- Every value `pos` takes during `calculateNodePositions`, the initial `0`
first. -/
def XmlEventParser.cursorValues (p : XmlEventParser) (text : QString) : List Int :=
  if text.isEmpty then [] else 0 :: cursorValuesLoop p text p.m_nodes p.heap 0

/-- The parser as `parseString` has it when position recovery begins: after
the events and `getXmlDeclaration`. -/
def treeBeforePositions (document : Nat) (text : QString) (events : List Event) :
    XmlEventParser :=
  ((((XmlEventParser.new document).runEvents events).map Prod.snd).getD
    (XmlEventParser.new document)).getXmlDeclaration text

/-- From the spec: the offset lies in the name span or in the value span of
the attribute. -/
def XmlAttribute.spansContain (a : XmlAttribute) (position : Int) : Bool :=
  (decide (a.nameStart ≤ position ∧ position < a.nameStart + a.nameLength)) ||
    (decide (a.valueStart ≤ position ∧ position < a.valueStart + a.valueLength))

/-- The text `<a><![CDATA[x]]></a>`. -/
def cdataText : QString := "<a><![CDATA[x]]></a>".toList

/-- The events the event source reports for `cdataText`. -/
def cdataEvents : List Event :=
  [Event.start_element "a".toList [], Event.cdata "x".toList, Event.end_element "a".toList]

/-- The parse of `cdataText` by a fresh parser on a document with that text. -/
def cdataParse : Option (Bool × XmlEventParser) :=
  (XmlEventParser.new cdataText.length).parseString cdataText cdataEvents true

/-- The text `<a1 x="1"></a1>`. -/
def digitText : QString := "<a1 x=\"1\"></a1>".toList

/-- The events the event source reports for `digitText`. -/
def digitEvents : List Event :=
  [Event.start_element "a1".toList [("x".toList, "1".toList)],
   Event.end_element "a1".toList]

/-- The parse of `digitText` by a fresh parser on a document with that text. -/
def digitParse : Option (Bool × XmlEventParser) :=
  (XmlEventParser.new digitText.length).parseString digitText digitEvents true

/-- A node list as the handlers build it: no node has newlines recorded yet,
no pointer occurs twice in the flat list, and every pointer of the flat list
refers to a node. -/
def FreshHeap (heap : List Node) (nodes : List Nat) : Prop :=
  (∀ x ∈ heap.map (fun n => n.newLines), x = []) ∧ nodes.Nodup ∧
    ∀ ptr ∈ nodes, ptr < heap.length

/-- The text of a document with an element whose tag and text run over
several lines. -/
def linesText : QString := "<a\n x=\"1\">\nhi</a>".toList

/-- The events the event source reports for `linesText`. -/
def linesEvents : List Event :=
  [Event.start_element "a".toList [("x".toList, "1".toList)], Event.text "\nhi".toList,
   Event.end_element "a".toList]

/-- The parse of `linesText` by a fresh parser on a document with that text. -/
def linesParse : Option (Bool × XmlEventParser) :=
  (XmlEventParser.new linesText.length).parseString linesText linesEvents true

/-- The text `<a b="1" c="b"></a>`, in which the value of `c` also occurs as
the name of `b`. -/
def pairText : QString := "<a b=\"1\" c=\"b\"></a>".toList

/-- The events the event source reports for `pairText`. -/
def pairEvents : List Event :=
  [Event.start_element "a".toList [("b".toList, "1".toList), ("c".toList, "b".toList)],
   Event.end_element "a".toList]

/-- The parse of `pairText` by a fresh parser on a document with that text. -/
def pairParse : Option (Bool × XmlEventParser) :=
  (XmlEventParser.new pairText.length).parseString pairText pairEvents true

/-! ## Reads of the reverse search and further scenarios -/

/-- The indices at which the loop of `reverseSearchForChar` reads the text
from index `i` down, in the order of the reads: the loop stops after the
read that finds the character. -/
def reverseSearchReadsLoop (c : Char) (text : QString) : Nat → List Nat
  | 0 => [0]
  | i + 1 => if charAt text (i + 1 : Nat) c then [i + 1] else (i + 1) :: reverseSearchReadsLoop c text i

/-- The indices `reverseSearchForChar` passes to `text.at`, in the order of
the reads. -/
def reverseSearchReads (c : Char) (text : QString) (searchFrom : Int) : List Nat :=
  if searchFrom < 0 then [] else reverseSearchReadsLoop c text searchFrom.toNat

/-- The text `<ab></ab>`. -/
def twoLetterText : QString := "<ab></ab>".toList

/-- The events the event source reports for `twoLetterText`. -/
def twoLetterEvents : List Event :=
  [Event.start_element "ab".toList [], Event.end_element "ab".toList]

/-- The parse of `twoLetterText` by a fresh parser on a document with that
text. -/
def twoLetterParse : Option (Bool × XmlEventParser) :=
  (XmlEventParser.new twoLetterText.length).parseString twoLetterText twoLetterEvents true

/-- The text `<?xml version="1.0" encoding="UTF-16"?><r/>`. -/
def utf16Text : QString := "<?xml version=\"1.0\" encoding=\"UTF-16\"?><r/>".toList

/-- The parse of `utf16Text` by a fresh parser on a document with that text. -/
def utf16Parse : Option (Bool × XmlEventParser) :=
  (XmlEventParser.new utf16Text.length).parseString utf16Text declarationEvents true

/-- The text `<?xml version="1.0" encoding="ISO-8859-1"?><r/>`. -/
def latin1Text : QString := "<?xml version=\"1.0\" encoding=\"ISO-8859-1\"?><r/>".toList

/-- The parse of `latin1Text` by a fresh parser on a document with that text. -/
def latin1Parse : Option (Bool × XmlEventParser) :=
  (XmlEventParser.new latin1Text.length).parseString latin1Text declarationEvents true

/-- The text `<?xml version="1.0" encoding="utf-|"?><r/>`. -/
def barText : QString := "<?xml version=\"1.0\" encoding=\"utf-|\"?><r/>".toList

/-- The parse of `barText` by a fresh parser on a document with that text. -/
def barParse : Option (Bool × XmlEventParser) :=
  (XmlEventParser.new barText.length).parseString barText declarationEvents true

/-- A parser in which `a` and, inside it, `b` are open: a fresh parser after
the events start a, start b. -/
def nestedParser : XmlEventParser :=
  (((XmlEventParser.new 14).runEvents
    [Event.start_element "a".toList [], Event.start_element "b".toList []]).map Prod.snd).getD
    (XmlEventParser.new 14)

/-- From the spec: the attribute has none of its offsets assigned. -/
def XmlAttribute.unpositioned (a : XmlAttribute) : Bool :=
  a.nameStartCursor == -1 && a.valueStartCursor == -1 && a.assignCursor == -1

/-- From the spec: the node is as a handler builds it, before declaration
extraction and position recovery: it is not an XmlDeclaration node, its
cursors and those of its attributes are the default (null) cursor, and no
newline is recorded. -/
def Node.unpositioned (n : Node) : Bool :=
  n.startCursor == -1 && n.endCursor == -1 && n.nameStartCursor == -1 &&
    n.textStartCursor == -1 && n.dataStartCursor == -1 && n.commentStartCursor == -1 &&
    n.targetStartCursor == -1 && n.newLines.isEmpty &&
    n.attributes.all XmlAttribute.unpositioned && (n.type != NodeType.XmlDeclaration)

/-- Every object of the heap satisfies `g`. -/
def HeapAll (g : Node → Bool) (heap : List Node) : Prop := ∀ x ∈ heap.map g, x = true

/-- From the spec: the text is a quote character, `utf-` in any case, one
character of the set {8, |, 1, 6} and a quote character. -/
def encodingValueForm : QString → Bool
  | [q1, u, t, f, d, c, q2] =>
    [Char.ofNat 34, Char.ofNat 39].any (ciEq · q1) && ciEq 'u' u && ciEq 't' t && ciEq 'f' f &&
      ciEq '-' d && ['8', '|', '1', '6'].any (ciEq · c) &&
      [Char.ofNat 34, Char.ofNat 39].any (ciEq · q2)
  | _ => false

/-- What the links of the tree satisfy between two events, whatever the
events were. For every object: its parent was created before it, its children
after it, its children are in the order of their creation and are nodes of
the flat list `ms`, and an End node has no parent; an object names a node as
parent exactly when that node lists it as a child; the root, when there is
one, is a Start node without a parent. -/
def LinkedHeap (h : List Node) (ms : List Nat) (root : Option Nat) : Prop :=
  (∀ (i : Nat) (nd : Node), h[i]? = some nd →
    (∀ q, nd.parent = some q → q < i) ∧
    (∀ c ∈ nd.children, i < c ∧ c < h.length ∧ c ∈ ms) ∧
    nd.children.Pairwise (fun a b => a < b) ∧
    (nd.type = NodeType.End → nd.parent = none)) ∧
  (∀ (i q : Nat) (nd pa : Node), h[i]? = some nd → h[q]? = some pa →
    (nd.parent = some q ↔ i ∈ pa.children)) ∧
  (∀ r, root = some r →
    ∃ nd : Node, h[r]? = some nd ∧ nd.parent = none ∧ nd.type = NodeType.Start)

/-- What holds of the parser between two events, whatever the events were:
the links of the heap are consistent, the current parent refers to an
object, and the flat list is in the order in which its nodes were created. -/
structure Linked (p : XmlEventParser) : Prop where
  heap : LinkedHeap p.heap p.m_nodes p.m_rootNode
  parentLive : ∀ q, p.m_parentNode = some q → q < p.heap.length
  nodes : p.m_nodes.Pairwise (fun a b => a < b) ∧ ∀ x ∈ p.m_nodes, x < p.heap.length

/-- The events of `<a x="1">hi<b/></a>` run by a fresh parser. -/
def scenarioRun : Option (Bool × XmlEventParser) :=
  (XmlEventParser.new scenarioText.length).runEvents scenarioEvents

/-! ## Declarations the patterns recognise -/

/-- An XML declaration with a version and an encoding, laid out as
`<?xml` S `version` S `=` S QvQ S `encoding` S `=` S PeP S `?>`: the white
space S between its parts, the two quote characters Q and P, and the two
values v and e without their quotes. -/
structure DeclarationLayout where
  /-- The white space between `<?xml` and `version`. -/
  beforeVersion : QString
  /-- The white space between `version` and `=`. -/
  beforeVersionAssign : QString
  /-- The white space between `=` and the quoted version. -/
  afterVersionAssign : QString
  /-- The quote character around the version. -/
  versionQuote : Char
  /-- The version, without quotes. -/
  version : QString
  /-- The white space between the quoted version and `encoding`. -/
  beforeEncoding : QString
  /-- The white space between `encoding` and `=`. -/
  beforeEncodingAssign : QString
  /-- The white space between `=` and the quoted encoding. -/
  afterEncodingAssign : QString
  /-- The quote character around the encoding. -/
  encodingQuote : Char
  /-- The encoding, without quotes. -/
  encoding : QString
  /-- The white space between the quoted encoding and `?>`. -/
  beforeEnd : QString

/-- The version of the declaration as the text has it, in its quotes. -/
def DeclarationLayout.quotedVersion (d : DeclarationLayout) : QString :=
  [d.versionQuote] ++ d.version ++ [d.versionQuote]

/-- The encoding of the declaration as the text has it, in its quotes. -/
def DeclarationLayout.quotedEncoding (d : DeclarationLayout) : QString :=
  [d.encodingQuote] ++ d.encoding ++ [d.encodingQuote]

/-- What stands between `<?xml` and `?>`. -/
def DeclarationLayout.body (d : DeclarationLayout) : QString :=
  d.beforeVersion ++ ("version".toList ++ (d.beforeVersionAssign ++ ("=".toList ++
    (d.afterVersionAssign ++ (d.quotedVersion ++ (d.beforeEncoding ++ ("encoding".toList ++
    (d.beforeEncodingAssign ++ ("=".toList ++ (d.afterEncodingAssign ++ (d.quotedEncoding ++
    d.beforeEnd)))))))))))

/-- The text of the declaration. -/
def DeclarationLayout.text (d : DeclarationLayout) : QString :=
  "<?xml".toList ++ (d.body ++ "?>".toList)

/-- The leftmost match of the pattern in `t`, its start counted from the head
of `t`: what `searchPieces` finds from an index on, with `t` the subject from
that index. -/
def searchFrom (ps : List Piece) : QString → Option (Nat × Nat)
  | [] => (matchPieces ps []).map fun len => (0, len)
  | c :: t =>
    match matchPieces ps (c :: t) with
    | some len => some (0, len)
    | none => (searchFrom ps t).map fun m => (m.1 + 1, m.2)

theorem length_update (h : List Node) (i : Nat) (f : Node → Node) :
    (update h i f).length = h.length := by
  induction h generalizing i with
  | nil => rfl
  | cons n h ih => cases i <;> simp [update, ih]

theorem getElem?_update (h : List Node) (i : Nat) (f : Node → Node) (j : Nat) :
    (update h i f)[j]? = if j = i then (h[j]?).map f else h[j]? := by
  induction h generalizing i j with
  | nil => simp [update]
  | cons n h ih =>
    cases i with
    | zero => cases j <;> simp [update]
    | succ i => cases j <;> simp [update, ih]

theorem map_update {β : Type} (g : Node → β) (h : List Node) (i : Nat) (f : Node → Node)
    (hg : ∀ n, g (f n) = g n) : (update h i f).map g = h.map g := by
  induction h generalizing i with
  | nil => rfl
  | cons n h ih => cases i <;> simp [update, ih, hg]


theorem step_old (h : List Node) (nd : Node) (i : Nat) (f : Node → Node) (j : Nat) (a : Node)
    (ha : h[j]? = some a) :
    (update (h ++ [nd]) i f)[j]? = some (if j = i then f a else a) := by
  have hj : j < h.length := (List.getElem?_eq_some.mp ha).1
  rw [getElem?_update, List.getElem?_append_left hj, ha]
  split <;> rfl

theorem step_new (h : List Node) (nd : Node) (i : Nat) (f : Node → Node) (hi : i < h.length) :
    (update (h ++ [nd]) i f)[h.length]? = some nd := by
  rw [getElem?_update, if_neg (by omega)]
  simp

theorem step_cases (h : List Node) (nd : Node) (i : Nat) (f : Node → Node) (hi : i < h.length)
    (j : Nat) (x : Node) (hx : (update (h ++ [nd]) i f)[j]? = some x) :
    (∃ a, h[j]? = some a ∧ x = if j = i then f a else a) ∨ (j = h.length ∧ x = nd) := by
  have hj : j < h.length + 1 := by
    have := (List.getElem?_eq_some.mp hx).1
    simpa [length_update] using this
  rcases Nat.lt_succ_iff_lt_or_eq.mp hj with hlt | heq
  · left
    have ha : h[j]? = some h[j] := List.getElem?_eq_getElem hlt
    refine ⟨h[j], ha, ?_⟩
    rw [step_old h nd i f j _ ha] at hx
    exact (Option.some.inj hx).symm
  · right
    subst heq
    rw [step_new h nd i f hi] at hx
    exact ⟨rfl, (Option.some.inj hx).symm⟩

theorem append_cases (h : List Node) (nd : Node) (j : Nat) (x : Node)
    (hx : (h ++ [nd])[j]? = some x) : h[j]? = some x ∨ (j = h.length ∧ x = nd) := by
  have hj : j < h.length + 1 := by
    have := (List.getElem?_eq_some.mp hx).1
    simpa using this
  rcases Nat.lt_succ_iff_lt_or_eq.mp hj with hlt | heq
  · left
    rwa [List.getElem?_append_left hlt] at hx
  · right
    subst heq
    simp at hx
    exact ⟨rfl, hx.symm⟩

theorem keeps_append (h : List Node) (nd : Node) : Keeps h (h ++ [nd]) := by
  intro i a ha
  have hi : i < h.length := (List.getElem?_eq_some.mp ha).1
  exact ⟨a, by rw [List.getElem?_append_left hi, ha], rfl, rfl, rfl, fun _ hx => hx⟩

theorem keeps_step (h : List Node) (nd : Node) (i : Nat) (f : Node → Node)
    (hf : ∀ a, (f a).type = a.type ∧ (f a).name = a.name ∧ (f a).parent = a.parent ∧
      a.children ⊆ (f a).children) : Keeps h (update (h ++ [nd]) i f) := by
  intro j a ha
  refine ⟨_, step_old h nd i f j a ha, ?_⟩
  split
  · exact hf a
  · exact ⟨rfl, rfl, rfl, fun _ hx => hx⟩

theorem chain_keeps {h h' : List Node} (hk : Keeps h h') :
    ∀ (st : List (Nat × QString)) (cur : Option Nat), Chain h cur st → Chain h' cur st := by
  intro st
  induction st with
  | nil => intro cur hc; exact hc
  | cons e rest ih =>
    intro cur hc
    obtain ⟨i, nm⟩ := e
    obtain ⟨hcur, nd, hnd, hty, hnm, hrest⟩ := hc
    obtain ⟨nd', hnd', hty', hnm', hpar', -⟩ := hk i nd hnd
    exact ⟨hcur, nd', hnd', hty'.trans hty, hnm'.trans hnm, hpar' ▸ ih _ hrest⟩

theorem closed_keeps {h h' : List Node} (hk : Keeps h h') {a a' : Node}
    (hc : a'.closer = a.closer) (hn : a'.name = a.name) (hcl : ClosedBy h a) :
    ClosedBy h' a' := by
  obtain ⟨k, nk, hck, hk1, hty, hnm⟩ := hcl
  obtain ⟨nk', hk', hty', hnm', -, -⟩ := hk k nk hk1
  exact ⟨k, nk', hc.trans hck, hk', hty'.trans hty, (hnm'.trans hnm).trans hn.symm⟩

theorem inv_new (document : Nat) : Inv [] false (XmlEventParser.new document) where
  nodes := rfl
  root := rfl
  rootStack := fun h => absurd rfl h
  chain := rfl
  closed := by intro i nd h; simp [XmlEventParser.new] at h
  parents := by intro c nd q h; simp [XmlEventParser.new] at h


theorem parents_keeps {h h' : List Node} (hk : Keeps h h')
    (hp : ∀ (c : Nat) (nd : Node) (q : Nat), h[c]? = some nd → nd.parent = some q →
      q < c ∧ ∃ nq : Node, h[q]? = some nq ∧ nq.type = NodeType.Start ∧ c ∈ nq.children)
    (c : Nat) (a a' : Node) (q : Nat) (ha : h[c]? = some a) (hpar : a'.parent = a.parent)
    (hq : a'.parent = some q) :
    q < c ∧ ∃ nq : Node, h'[q]? = some nq ∧ nq.type = NodeType.Start ∧ c ∈ nq.children := by
  obtain ⟨hlt, nq, hnq, hty, hmem⟩ := hp c a q ha (hpar ▸ hq)
  obtain ⟨nq', hnq', hty', -, -, hsub⟩ := hk q nq hnq
  exact ⟨hlt, nq', hnq', hty'.trans hty, hsub hmem⟩

theorem inv_addLeaf {st : List (Nat × QString)} {rs : Bool} {p : XmlEventParser}
    (hinv : Inv st rs p) (node : Node) (hty : node.type ≠ NodeType.Start) :
    (p.addLeaf node).1 = true ∧ Inv st rs (p.addLeaf node).2 ∧
      (p.addLeaf node).2.heap.map Node.event = p.heap.map Node.event ++ [node.event] := by
  cases st with
  | nil =>
    have hpn : p.m_parentNode = none := hinv.chain
    have hk := keeps_append p.heap { node with parent := p.m_parentNode }
    simp only [XmlEventParser.addLeaf, hpn] at hk ⊢
    refine ⟨trivial, ⟨?_, hinv.root, hinv.rootStack, rfl, ?_, ?_⟩, ?_⟩
    · simp [hinv.nodes, List.range_succ]
    · intro i nd hnd hs
      rcases append_cases _ _ _ _ hnd with hold | ⟨-, hnew⟩
      · rcases hinv.closed i nd hold hs with hm | hc
        · exact Or.inl hm
        · exact Or.inr (closed_keeps hk rfl rfl hc)
      · subst hnew; exact absurd hs hty
    · intro c nd q hnd hq
      rcases append_cases _ _ _ _ hnd with hold | ⟨-, hnew⟩
      · exact parents_keeps hk hinv.parents c nd nd q hold rfl hq
      · subst hnew; simp at hq
    · simp [Node.event]
  | cons e rest =>
    obtain ⟨i, nm⟩ := e
    obtain ⟨hpn, ndi, hndi, htyi, hnmi, hrest⟩ := hinv.chain
    have hi : i < p.heap.length := (List.getElem?_eq_some.mp hndi).1
    have hk := keeps_step p.heap { node with parent := p.m_parentNode } i
      (fun n => { n with children := n.children ++ [p.heap.length] })
      (fun a => ⟨rfl, rfl, rfl, fun x hx => List.mem_append_left _ hx⟩)
    simp only [XmlEventParser.addLeaf, hpn] at hk ⊢
    refine ⟨trivial, ⟨?_, hinv.root, hinv.rootStack, ?_, ?_, ?_⟩, ?_⟩
    · simp [hinv.nodes, List.range_succ, length_update]
    · exact chain_keeps hk _ _ (hpn ▸ hinv.chain)
    · intro j x hx hs
      rcases step_cases _ _ _ _ hi _ _ hx with ⟨a, ha, hxa⟩ | ⟨-, hnew⟩
      · have h1 : x.type = a.type := by subst hxa; split <;> rfl
        have h2 : x.closer = a.closer := by subst hxa; split <;> rfl
        have h3 : x.name = a.name := by subst hxa; split <;> rfl
        rcases hinv.closed j a ha (h1 ▸ hs) with hm | hc
        · exact Or.inl hm
        · exact Or.inr (closed_keeps hk h2 h3 hc)
      · subst hnew; exact absurd hs hty
    · intro c x q hx hq
      rcases step_cases _ _ _ _ hi _ _ hx with ⟨a, ha, hxa⟩ | ⟨hc, hnew⟩
      · have h1 : x.parent = a.parent := by subst hxa; split <;> rfl
        exact parents_keeps hk hinv.parents c a x q ha h1 hq
      · subst hnew
        simp only [Option.some.injEq] at hq
        subst hq hc
        refine ⟨hi, _, step_old _ _ _ _ _ _ hndi, ?_, ?_⟩
        · simp [htyi]
        · simp
    · rw [map_update]
      · simp [Node.event]
      · intro n; rfl


theorem makeAttributes_pairs (attrs : List (QString × QString)) :
    (makeAttributes attrs).map (fun a => (a.name, a.value)) = attrs := by
  induction attrs with
  | nil => rfl
  | cons kv rest ih =>
    obtain ⟨k, v⟩ := kv
    simp only [makeAttributes, List.map_cons, List.map_map] at ih ⊢
    rw [ih]
    cases v <;> simp

theorem deref_of_get {h : List Node} {i : Nat} {a : Node} (ha : h[i]? = some a) :
    deref h i = a := by
  simp [deref, List.getD, ha]

theorem inv_start {st : List (Nat × QString)} {rs : Bool} {p : XmlEventParser}
    (hinv : Inv st rs p) (name : QString) (attrs : List (QString × QString))
    (hok : ¬ (st = [] ∧ rs = true)) :
    ∃ p1, p.start_element name attrs = some (true, p1) ∧
      Inv ((p.heap.length, name) :: st) true p1 ∧
      p1.heap.map Node.event =
        p.heap.map Node.event ++ [some (Event.start_element name attrs)] := by
  cases st with
  | nil =>
    have hrs : rs = false := by
      cases rs
      · rfl
      · exact absurd ⟨rfl, rfl⟩ hok
    have hroot : p.m_rootNode = none := by
      have := hinv.root
      rw [hrs] at this
      cases hr : p.m_rootNode
      · rfl
      · rw [hr] at this; simp at this
    have hk := keeps_append p.heap
      { type := NodeType.Start, name := name, attributes := makeAttributes attrs }
    simp only [XmlEventParser.start_element, hroot]
    refine ⟨_, rfl, ⟨?_, rfl, fun _ => rfl, ?_, ?_, ?_⟩, ?_⟩
    · simp [hinv.nodes, List.range_succ]
    · exact ⟨rfl, { type := NodeType.Start, name := name, attributes := makeAttributes attrs },
        by simp, rfl, rfl, rfl⟩
    · intro i nd hnd hs
      rcases append_cases _ _ _ _ hnd with hold | ⟨hi, hnew⟩
      · rcases hinv.closed i nd hold hs with ⟨nm, hm⟩ | hc
        · simp at hm
        · exact Or.inr (closed_keeps hk rfl rfl hc)
      · subst hi; exact Or.inl ⟨name, List.mem_cons_self _ _⟩
    · intro c nd q hnd hq
      rcases append_cases _ _ _ _ hnd with hold | ⟨-, hnew⟩
      · exact parents_keeps hk hinv.parents c nd nd q hold rfl hq
      · subst hnew; simp at hq
    · simp [Node.event, makeAttributes_pairs]
  | cons e rest =>
    obtain ⟨i, nm⟩ := e
    obtain ⟨hpn, ndi, hndi, htyi, hnmi, hrest⟩ := hinv.chain
    have hi : i < p.heap.length := (List.getElem?_eq_some.mp hndi).1
    have hrs : rs = true := hinv.rootStack (by simp)
    obtain ⟨r, hroot⟩ : ∃ r, p.m_rootNode = some r := by
      have := hinv.root
      rw [hrs] at this
      cases hr : p.m_rootNode
      · rw [hr] at this; simp at this
      · exact ⟨_, rfl⟩
    have hk := keeps_step p.heap
      { type := NodeType.Start, name := name, attributes := makeAttributes attrs,
        parent := some i } i
      (fun n => { n with children := n.children ++ [p.heap.length] })
      (fun a => ⟨rfl, rfl, rfl, fun x hx => List.mem_append_left _ hx⟩)
    simp only [XmlEventParser.start_element, hroot, hpn]
    refine ⟨_, rfl, ⟨?_, ?_, fun _ => rfl, ?_, ?_, ?_⟩, ?_⟩
    · simp [hinv.nodes, List.range_succ, length_update]
    · simp [hroot]
    · exact ⟨rfl, _, step_new _ _ _ _ hi, rfl, rfl, chain_keeps hk _ _ (hpn ▸ hinv.chain)⟩
    · intro j x hx hs
      rcases step_cases _ _ _ _ hi _ _ hx with ⟨a, ha, hxa⟩ | ⟨hj, hnew⟩
      · have h1 : x.type = a.type := by subst hxa; split <;> rfl
        have h2 : x.closer = a.closer := by subst hxa; split <;> rfl
        have h3 : x.name = a.name := by subst hxa; split <;> rfl
        rcases hinv.closed j a ha (h1 ▸ hs) with ⟨nm1, hm⟩ | hc
        · exact Or.inl ⟨nm1, List.mem_cons_of_mem _ hm⟩
        · exact Or.inr (closed_keeps hk h2 h3 hc)
      · subst hj; exact Or.inl ⟨name, List.mem_cons_self _ _⟩
    · intro c x q hx hq
      rcases step_cases _ _ _ _ hi _ _ hx with ⟨a, ha, hxa⟩ | ⟨hc, hnew⟩
      · have h1 : x.parent = a.parent := by subst hxa; split <;> rfl
        exact parents_keeps hk hinv.parents c a x q ha h1 hq
      · subst hnew
        simp only [Option.some.injEq] at hq
        subst hq hc
        refine ⟨hi, _, step_old _ _ _ _ _ _ hndi, ?_, ?_⟩
        · simp [htyi]
        · simp
    · rw [map_update]
      · simp [Node.event, makeAttributes_pairs]
      · intro n; rfl

theorem inv_end {rest : List (Nat × QString)} {i : Nat} {nm : QString} {rs : Bool}
    {p : XmlEventParser} (hinv : Inv ((i, nm) :: rest) rs p) :
    ∃ p1, p.end_element nm = (true, p1) ∧ Inv rest rs p1 ∧
      p1.heap.map Node.event = p.heap.map Node.event ++ [some (Event.end_element nm)] := by
  obtain ⟨hpn, ndi, hndi, htyi, hnmi, hrest⟩ := hinv.chain
  have hi : i < p.heap.length := (List.getElem?_eq_some.mp hndi).1
  have hrs : rs = true := hinv.rootStack (by simp)
  have hk := keeps_step p.heap { type := NodeType.End, name := nm } i
    (fun n => { n with closer := some p.heap.length })
    (fun a => ⟨rfl, rfl, rfl, fun x hx => hx⟩)
  simp only [XmlEventParser.end_element, hpn, XmlEventParser.node, deref_of_get hndi, htyi,
    hnmi, if_true, ne_eq, not_true_eq_false, if_false]
  refine ⟨_, rfl, ⟨?_, hinv.root, fun _ => hrs, chain_keeps hk _ _ hrest, ?_, ?_⟩, ?_⟩
  · simp [hinv.nodes, List.range_succ, length_update]
  · intro j x hx hs
    rcases step_cases _ _ _ _ hi _ _ hx with ⟨a, ha, hxa⟩ | ⟨hj, hnew⟩
    · by_cases hji : j = i
      · subst hji
        rw [hndi] at ha
        obtain rfl := Option.some.inj ha
        rw [if_pos rfl] at hxa
        subst hxa
        exact Or.inr ⟨_, _, rfl, step_new _ _ _ _ hi, rfl, hnmi.symm⟩
      · rw [if_neg hji] at hxa
        subst hxa
        rcases hinv.closed j x ha hs with ⟨nm1, hm⟩ | hc
        · rcases List.mem_cons.mp hm with heq | hm1
          · exact absurd (congrArg Prod.fst heq) hji
          · exact Or.inl ⟨nm1, hm1⟩
        · exact Or.inr (closed_keeps hk rfl rfl hc)
    · subst hnew; simp at hs
  · intro c x q hx hq
    rcases step_cases _ _ _ _ hi _ _ hx with ⟨a, ha, hxa⟩ | ⟨hc, hnew⟩
    · have h1 : x.parent = a.parent := by subst hxa; split <;> rfl
      exact parents_keeps hk hinv.parents c a x q ha h1 hq
    · subst hnew; simp at hq
  · rw [map_update]
    · simp [Node.event]
    · intro n; rfl


theorem inv_warning {st : List (Nat × QString)} {rs : Bool} {p : XmlEventParser}
    (hinv : Inv st rs p) (message : QString) : Inv st rs (p.warning message).2 :=
  ⟨hinv.nodes, hinv.root, hinv.rootStack, hinv.chain, hinv.closed, hinv.parents⟩

theorem run_wellFormed : ∀ (evs : List Event) (st : List (Nat × QString)) (rs : Bool)
    (p : XmlEventParser), Inv st rs p → wellFormedFrom (st.map Prod.snd) rs evs = true →
    ∃ p1, p.runEvents evs = some (true, p1) ∧ Inv [] true p1 ∧
      p1.heap.map Node.event =
        p.heap.map Node.event ++ (evs.filter Event.isStructural).map some := by
  intro evs
  induction evs with
  | nil =>
    intro st rs p hinv hwf
    cases st with
    | nil =>
      simp only [List.map_nil, wellFormedFrom, List.isEmpty_nil, Bool.true_and] at hwf
      subst hwf
      exact ⟨p, rfl, hinv, by simp⟩
    | cons e rest => simp [wellFormedFrom] at hwf
  | cons e rest ih =>
    intro st rs p hinv hwf
    have hleaf : ∀ node : Node, node.type ≠ NodeType.Start →
        p.handle e = some (p.addLeaf node) → e.isStructural = true → some e = node.event →
        wellFormedFrom (st.map Prod.snd) rs rest = true →
        ∃ p1, p.runEvents (e :: rest) = some (true, p1) ∧ Inv [] true p1 ∧
          p1.heap.map Node.event =
            p.heap.map Node.event ++ ((e :: rest).filter Event.isStructural).map some := by
      intro node hty hh hs he hwf1
      obtain ⟨hb, hinv1, hev1⟩ := inv_addLeaf hinv node hty
      obtain ⟨p1, hrun, hinv2, hev2⟩ := ih st rs _ hinv1 hwf1
      refine ⟨p1, ?_, hinv2, ?_⟩
      · rw [XmlEventParser.runEvents, hh]
        have : p.addLeaf node = (true, (p.addLeaf node).2) := by rw [← hb]
        rw [this]
        exact hrun
      · rw [hev2, hev1, List.filter_cons_of_pos hs, List.map_cons, ← he]
        simp
    cases e with
    | start_element name attrs =>
      simp only [wellFormedFrom] at hwf
      have hok : ¬ (st = [] ∧ rs = true) := by
        rintro ⟨h1, h2⟩
        subst h1 h2
        simp at hwf
      have hwf1 : wellFormedFrom (name :: st.map Prod.snd) true rest = true := by
        split at hwf
        · exact absurd hwf (by simp)
        · exact hwf
      obtain ⟨p1, hstep, hinv1, hev1⟩ := inv_start hinv name attrs hok
      obtain ⟨p2, hrun, hinv2, hev2⟩ := ih _ true p1 hinv1 (by simpa using hwf1)
      refine ⟨p2, ?_, hinv2, ?_⟩
      · rw [XmlEventParser.runEvents, XmlEventParser.handle, hstep]
        exact hrun
      · rw [hev2, hev1]
        simp [Event.isStructural]
    | end_element name =>
      cases st with
      | nil => simp [wellFormedFrom] at hwf
      | cons top st1 =>
        obtain ⟨i, nm⟩ := top
        simp only [List.map_cons, wellFormedFrom, Bool.and_eq_true, beq_iff_eq] at hwf
        obtain ⟨hname, hwf1⟩ := hwf
        subst hname
        obtain ⟨p1, hstep, hinv1, hev1⟩ := inv_end hinv
        obtain ⟨p2, hrun, hinv2, hev2⟩ := ih _ rs p1 hinv1 hwf1
        refine ⟨p2, ?_, hinv2, ?_⟩
        · rw [XmlEventParser.runEvents, XmlEventParser.handle, hstep]
          exact hrun
        · rw [hev2, hev1]
          simp [Event.isStructural]
    | text contents =>
      exact hleaf { type := NodeType.Text, text := contents } (by simp) rfl rfl rfl
        (by simpa [wellFormedFrom] using hwf)
    | cdata contents =>
      exact hleaf { type := NodeType.CData, data := contents } (by simp) rfl rfl rfl
        (by simpa [wellFormedFrom] using hwf)
    | processing_instruction target data =>
      exact hleaf { type := NodeType.Instruction, target := target, data := data } (by simp)
        rfl rfl rfl (by simpa [wellFormedFrom] using hwf)
    | comment contents =>
      exact hleaf { type := NodeType.Comment, comment := contents } (by simp) rfl rfl rfl
        (by simpa [wellFormedFrom] using hwf)
    | warning message =>
      obtain ⟨p1, hrun, hinv1, hev1⟩ := ih st rs _ (inv_warning hinv message)
        (by simpa [wellFormedFrom] using hwf)
      refine ⟨p1, ?_, hinv1, ?_⟩
      · rw [XmlEventParser.runEvents, XmlEventParser.handle]
        exact hrun
      · rw [hev1]
        simp [Event.isStructural, XmlEventParser.warning]


/-! ## Lemmas on the offset query -/

theorem contains_iff (n : Node) (position : Int) :
    n.contains position = true ↔ n.start ≤ position ∧ position < n.end := by
  unfold Node.contains
  split <;> simp_all

theorem loop_some (heap : List Node) (position : Int) (nodes : List Nat) (n : Nat) :
    nodeForPositionLoop heap position nodes = some n ↔
      ∃ i : Nat, nodes[i]? = some n ∧ (deref heap n).contains position = true ∧
        ∀ (j : Nat) (m : Nat), j < i → nodes[j]? = some m →
          (deref heap m).contains position = false := by
  induction nodes with
  | nil => simp [nodeForPositionLoop]
  | cons a rest ih =>
    unfold nodeForPositionLoop
    by_cases hc : (deref heap a).contains position = true
    · rw [if_pos hc]
      constructor
      · intro h
        obtain rfl := Option.some.inj h
        exact ⟨0, by simp, hc, fun j m hj => absurd hj (Nat.not_lt_zero j)⟩
      · rintro ⟨i, hi, hcn, hfirst⟩
        cases i with
        | zero => simpa using hi
        | succ i =>
          have := hfirst 0 a (Nat.succ_pos i) (by simp)
          rw [hc] at this
          exact absurd this (by simp)
    · rw [if_neg hc, ih]
      have hc' : (deref heap a).contains position = false := by simpa using hc
      constructor
      · rintro ⟨i, hi, hcn, hfirst⟩
        refine ⟨i + 1, by simpa using hi, hcn, ?_⟩
        intro j m hj hm
        cases j with
        | zero =>
          obtain rfl : a = m := by simpa using hm
          exact hc'
        | succ j => exact hfirst j m (by omega) (by simpa using hm)
      · rintro ⟨i, hi, hcn, hfirst⟩
        cases i with
        | zero =>
          obtain rfl : a = n := by simpa using hi
          rw [hcn] at hc'
          exact absurd hc' (by simp)
        | succ i =>
          refine ⟨i, by simpa using hi, hcn, ?_⟩
          intro j m hj hm
          exact hfirst (j + 1) m (by omega) (by simpa using hm)

theorem loop_none (heap : List Node) (position : Int) (nodes : List Nat) :
    nodeForPositionLoop heap position nodes = none ↔
      ∀ n ∈ nodes, (deref heap n).contains position = false := by
  induction nodes with
  | nil => simp [nodeForPositionLoop]
  | cons a rest ih =>
    unfold nodeForPositionLoop
    by_cases hc : (deref heap a).contains position = true
    · rw [if_pos hc]
      simp [hc]
    · rw [if_neg hc, ih]
      simp at hc
      simp [hc]


/-! ## What a parse keeps of the parser it starts from -/

theorem handle_retains (p p1 : XmlEventParser) (e : Event) (b : Bool)
    (h : p.handle e = some (b, p1)) :
    (∃ suf, p1.m_nodes = p.m_nodes ++ suf) ∧
      ∀ r, p.m_rootNode = some r → p1.m_rootNode = some r := by
  cases e with
  | start_element name attrs =>
    simp only [XmlEventParser.handle, XmlEventParser.start_element] at h
    cases hr : p.m_rootNode with
    | none =>
      rw [hr] at h
      simp only [Option.some.injEq, Prod.mk.injEq] at h
      obtain ⟨-, rfl⟩ := h
      exact ⟨⟨_, rfl⟩, fun r hr' => by simp at hr'⟩
    | some r0 =>
      rw [hr] at h
      cases hp : p.m_parentNode with
      | none => rw [hp] at h; simp at h
      | some q =>
        rw [hp] at h
        simp only [Option.some.injEq, Prod.mk.injEq] at h
        obtain ⟨-, rfl⟩ := h
        exact ⟨⟨_, rfl⟩, fun r hr' => by simpa [hr] using hr'⟩
  | end_element name =>
    simp only [XmlEventParser.handle, XmlEventParser.end_element, Option.some.injEq] at h
    cases hp : p.m_parentNode with
    | none =>
      rw [hp] at h
      simp only [Prod.mk.injEq] at h
      obtain ⟨-, rfl⟩ := h
      exact ⟨⟨[], by simp⟩, fun r hr => hr⟩
    | some q =>
      rw [hp] at h
      simp only at h
      split at h
      · split at h
        · split at h <;>
          · simp only [Prod.mk.injEq] at h
            obtain ⟨-, rfl⟩ := h
            exact ⟨⟨[], by simp⟩, fun r hr => hr⟩
        · simp only [Prod.mk.injEq] at h
          obtain ⟨-, rfl⟩ := h
          exact ⟨⟨_, rfl⟩, fun r hr => hr⟩
      · simp only [Prod.mk.injEq] at h
        obtain ⟨-, rfl⟩ := h
        exact ⟨⟨_, rfl⟩, fun r hr => hr⟩
  | warning message =>
    simp only [XmlEventParser.handle, XmlEventParser.warning, Option.some.injEq,
      Prod.mk.injEq] at h
    obtain ⟨-, rfl⟩ := h
    exact ⟨⟨[], by simp⟩, fun r hr => hr⟩
  | text _ | cdata _ | comment _ | processing_instruction _ _ =>
    simp only [XmlEventParser.handle, XmlEventParser.text, XmlEventParser.cdata,
      XmlEventParser.comment, XmlEventParser.processing_instruction,
      XmlEventParser.addLeaf, Option.some.injEq] at h
    split at h <;>
    · simp only [Prod.mk.injEq] at h
      obtain ⟨-, rfl⟩ := h
      exact ⟨⟨_, rfl⟩, fun r hr => hr⟩

theorem runEvents_retains : ∀ (events : List Event) (p p1 : XmlEventParser) (b : Bool),
    p.runEvents events = some (b, p1) →
    (∃ suf, p1.m_nodes = p.m_nodes ++ suf) ∧
      ∀ r, p.m_rootNode = some r → p1.m_rootNode = some r := by
  intro events
  induction events with
  | nil =>
    intro p p1 b h
    simp only [XmlEventParser.runEvents, Option.some.injEq, Prod.mk.injEq] at h
    obtain ⟨-, rfl⟩ := h
    exact ⟨⟨[], by simp⟩, fun r hr => hr⟩
  | cons e rest ih =>
    intro p p1 b h
    rw [XmlEventParser.runEvents] at h
    cases hh : p.handle e with
    | none => rw [hh] at h; simp at h
    | some r =>
      obtain ⟨b0, p0⟩ := r
      rw [hh] at h
      obtain ⟨⟨s0, hs0⟩, hr0⟩ := handle_retains p p0 e b0 hh
      cases b0 with
      | true =>
        simp only at h
        obtain ⟨⟨s1, hs1⟩, hr1⟩ := ih p0 p1 b h
        exact ⟨⟨s0 ++ s1, by rw [hs1, hs0, List.append_assoc]⟩, fun r hr => hr1 r (hr0 r hr)⟩
      | false =>
        simp only [Option.some.injEq, Prod.mk.injEq] at h
        obtain ⟨-, rfl⟩ := h
        exact ⟨⟨s0, hs0⟩, hr0⟩

theorem parseString_retains (p : XmlEventParser) (text : QString) (events : List Event)
    (finishOk : Bool) (b : Bool) (p1 : XmlEventParser)
    (h : p.parseString text events finishOk = some (b, p1)) :
    (∃ pre suf, p1.m_nodes = pre ++ p.m_nodes ++ suf) ∧
      ∀ r, p.m_rootNode = some r → p1.m_rootNode = some r := by
  unfold XmlEventParser.parseString at h
  cases hrun : p.runEvents events with
  | none => rw [hrun] at h; simp at h
  | some r0 =>
    obtain ⟨b0, p0⟩ := r0
    rw [hrun] at h
    obtain ⟨⟨s0, hs0⟩, hr0⟩ := runEvents_retains events p p0 b0 hrun
    simp only at h
    split at h
    · simp only [Option.some.injEq, Prod.mk.injEq] at h
      obtain ⟨-, rfl⟩ := h
      exact ⟨⟨[], s0, by simpa using hs0⟩, hr0⟩
    · simp only [Option.some.injEq, Prod.mk.injEq] at h
      obtain ⟨-, rfl⟩ := h
      have hn : ((p0.getXmlDeclaration text).calculateNodePositions text).m_nodes =
          (p0.getXmlDeclaration text).m_nodes := by
        unfold XmlEventParser.calculateNodePositions
        split <;> rfl
      have hroot : ((p0.getXmlDeclaration text).calculateNodePositions text).m_rootNode =
          p0.m_rootNode := by
        unfold XmlEventParser.calculateNodePositions XmlEventParser.getXmlDeclaration
        split <;> split <;> rfl
      refine ⟨?_, fun r hr => by rw [hroot]; exact hr0 r hr⟩
      rw [hn]
      unfold XmlEventParser.getXmlDeclaration
      split
      · exact ⟨[p0.heap.length], s0, by simp [hs0]⟩
      · exact ⟨[], s0, by simpa using hs0⟩


/-! ## Lemmas on the declaration pattern -/

theorem declarationNode_frame (p : XmlEventParser) (xmltext : QString) (pos : Int) :
    (declarationNode p xmltext pos).type = NodeType.XmlDeclaration ∧
    (declarationNode p xmltext pos).parent = none ∧
    (declarationNode p xmltext pos).children = [] ∧
    (declarationNode p xmltext pos).startCursor = p.createCursor pos ∧
    (declarationNode p xmltext pos).endCursor = p.createCursor (pos + xmltext.length) := by
  unfold declarationNode
  lift_lets
  intro x0 x1 x2 x3 x4 x5 x6 x7 x8 x9 x10 x11
  have h1 : x1.type = NodeType.XmlDeclaration ∧ x1.parent = none ∧ x1.children = [] := by
    simp only [x1]; split <;> exact ⟨rfl, rfl, rfl⟩
  have h3 : x3.type = NodeType.XmlDeclaration ∧ x3.parent = none ∧ x3.children = [] ∧
      x3.startCursor = p.createCursor pos ∧
      x3.endCursor = p.createCursor (pos + xmltext.length) := by
    obtain ⟨a, b, c⟩ := h1
    exact ⟨a, b, c, rfl, rfl⟩
  have step : ∀ (x y : Node), y.type = x.type → y.parent = x.parent → y.children = x.children →
      y.startCursor = x.startCursor → y.endCursor = x.endCursor →
      (x.type = NodeType.XmlDeclaration ∧ x.parent = none ∧ x.children = [] ∧
        x.startCursor = p.createCursor pos ∧
        x.endCursor = p.createCursor (pos + xmltext.length)) →
      (y.type = NodeType.XmlDeclaration ∧ y.parent = none ∧ y.children = [] ∧
        y.startCursor = p.createCursor pos ∧
        y.endCursor = p.createCursor (pos + xmltext.length)) := by
    intro x y e1 e2 e3 e4 e5 h
    rw [e1, e2, e3, e4, e5]
    exact h
  have h4 := step x3 x4 (by simp only [x4]; split <;> rfl) (by simp only [x4]; split <;> rfl)
    (by simp only [x4]; split <;> rfl) (by simp only [x4]; split <;> rfl)
    (by simp only [x4]; split <;> rfl) h3
  have h5 := step x4 x5 (by simp only [x5]; split <;> rfl) (by simp only [x5]; split <;> rfl)
    (by simp only [x5]; split <;> rfl) (by simp only [x5]; split <;> rfl)
    (by simp only [x5]; split <;> rfl) h4
  have h6 := step x5 x6 (by simp only [x6]; split <;> rfl) (by simp only [x6]; split <;> rfl)
    (by simp only [x6]; split <;> rfl) (by simp only [x6]; split <;> rfl)
    (by simp only [x6]; split <;> rfl) h5
  have h7 := step x6 x7 (by simp only [x7]; split <;> rfl) (by simp only [x7]; split <;> rfl)
    (by simp only [x7]; split <;> rfl) (by simp only [x7]; split <;> rfl)
    (by simp only [x7]; split <;> rfl) h6
  have h8 := step x7 x8 (by simp only [x8]; split <;> rfl) (by simp only [x8]; split <;> rfl)
    (by simp only [x8]; split <;> rfl) (by simp only [x8]; split <;> rfl)
    (by simp only [x8]; split <;> rfl) h7
  have h9 := step x8 x9 (by simp only [x9]; split <;> rfl) (by simp only [x9]; split <;> rfl)
    (by simp only [x9]; split <;> rfl) (by simp only [x9]; split <;> rfl)
    (by simp only [x9]; split <;> rfl) h8
  have h10 := step x9 x10 (by simp only [x10]; split <;> rfl) (by simp only [x10]; split <;> rfl)
    (by simp only [x10]; split <;> rfl) (by simp only [x10]; split <;> rfl)
    (by simp only [x10]; split <;> rfl) h9
  have h11 := step x10 x11 (by simp only [x11]; split <;> rfl) (by simp only [x11]; split <;> rfl)
    (by simp only [x11]; split <;> rfl) (by simp only [x11]; split <;> rfl)
    (by simp only [x11]; split <;> rfl) h10
  exact step x11 _ (by split <;> rfl) (by split <;> rfl) (by split <;> rfl)
    (by split <;> rfl) (by split <;> rfl) h11


theorem createCursor_eq (p : XmlEventParser) (k : Int) (h0 : 0 ≤ k) (h1 : k ≤ p.m_document) :
    p.createCursor k = k := by
  unfold XmlEventParser.createCursor
  split
  · omega
  · exact min_eq_left h1

theorem searchPieces_bound (ps : List Piece) (subject : QString) :
    ∀ (fuel i : Nat) (m : Nat × Nat), searchPieces ps subject i fuel = some m →
      m.1 < i + fuel ∧ matchPieces ps (subject.drop m.1) = some m.2 := by
  intro fuel
  induction fuel with
  | zero => intro i m h; simp [searchPieces] at h
  | succ fuel ih =>
    intro i m h
    unfold searchPieces at h
    cases hm : matchPieces ps (subject.drop i) with
    | some len =>
      rw [hm] at h
      simp only [Option.some.injEq] at h
      subst h
      exact ⟨by simp, hm⟩
    | none =>
      rw [hm] at h
      obtain ⟨h1, h2⟩ := ih (i + 1) m h
      exact ⟨by omega, h2⟩

theorem event_comment (n : Node) (c : QString) (h : n.event = some (Event.comment c)) :
    n.type = NodeType.Comment ∧ n.comment = c := by
  unfold Node.event at h
  cases ht : n.type <;> rw [ht] at h <;> simp at h
  exact ⟨rfl, h⟩

theorem event_of_start (n : Node) (h : n.type = NodeType.Start) :
    ∃ e, n.event = some e ∧ e.isStart = true := by
  unfold Node.event
  rw [h]
  exact ⟨_, rfl, rfl⟩


/-! ## Lemmas on the error registry -/

theorem keepsErrors_append (h : List Node) (nd : Node) : KeepsErrors h (h ++ [nd]) := by
  intro i a ha
  have hi : i < h.length := (List.getElem?_eq_some.mp ha).1
  exact ⟨a, by rw [List.getElem?_append_left hi, ha], rfl⟩

theorem keepsErrors_step (h : List Node) (nd : Node) (i : Nat) (f : Node → Node)
    (hf : ∀ a, (f a).errorView = a.errorView) : KeepsErrors h (update (h ++ [nd]) i f) := by
  intro j a ha
  refine ⟨_, step_old h nd i f j a ha, ?_⟩
  split
  · exact hf a
  · rfl

theorem registered_valid {acc : List QString} {h : List Node} {errs : List (QString × Nat)}
    (hr : Registered acc h errs) : ∀ e ∈ errs, ∃ nd : Node, h[e.2]? = some nd := by
  intro e he
  have h1 : (e.1, (h[e.2]?).map Node.errorView) ∈
      errs.map (fun e => (e.1, (h[e.2]?).map Node.errorView)) :=
    List.mem_map.mpr ⟨e, he, rfl⟩
  rw [hr.1] at h1
  obtain ⟨nm, -, hnm⟩ := List.mem_map.mp h1
  have h2 : (h[e.2]?).map Node.errorView = some (NodeType.End, nm, true) :=
    (congrArg Prod.snd hnm).symm
  cases hx : h[e.2]? with
  | none => rw [hx] at h2; simp at h2
  | some nd => exact ⟨nd, rfl⟩

theorem registered_fresh {acc : List QString} {h : List Node} {errs : List (QString × Nat)}
    (hr : Registered acc h errs) : h.length ∉ errs.map Prod.snd := by
  intro hmem
  obtain ⟨e, he, hlen⟩ := List.mem_map.mp hmem
  obtain ⟨nd, hnd⟩ := registered_valid hr e he
  have := (List.getElem?_eq_some.mp hnd).1
  omega

theorem registered_map_keeps {acc : List QString} {h h' : List Node}
    {errs : List (QString × Nat)} (hr : Registered acc h errs) (hk : KeepsErrors h h') :
    errs.map (fun e => (e.1, (h'[e.2]?).map Node.errorView)) =
      acc.map (fun nm => (mismatchMessage, some (NodeType.End, nm, true))) := by
  rw [← hr.1]
  apply List.map_congr_left
  intro e he
  obtain ⟨nd, hnd⟩ := registered_valid hr e he
  obtain ⟨nd', hnd', hv⟩ := hk e.2 nd hnd
  rw [hnd, hnd']
  simp [hv]

theorem get_cases_of_length {h h' : List Node} (hk : KeepsErrors h h')
    (hlen : h'.length = h.length + 1) (i : Nat) (x : Node) (hx : h'[i]? = some x) :
    (∃ a : Node, h[i]? = some a ∧ x.errorView = a.errorView) ∨ i = h.length := by
  have hi : i < h.length + 1 := by
    have := (List.getElem?_eq_some.mp hx).1
    omega
  rcases Nat.lt_succ_iff_lt_or_eq.mp hi with hlt | heq
  · left
    obtain ⟨nd', hnd', hv⟩ := hk i h[i] (List.getElem?_eq_getElem hlt)
    rw [hx] at hnd'
    obtain rfl := Option.some.inj hnd'
    exact ⟨h[i], List.getElem?_eq_getElem hlt, hv⟩
  · exact Or.inr heq

theorem flag_of_view {a b : Node} (h : a.errorView = b.errorView) :
    testFlag a.errors MismatchedNodes = testFlag b.errors MismatchedNodes :=
  congrArg (fun v => v.2.2) h

theorem registered_plain {acc : List QString} {h h' : List Node}
    {errs : List (QString × Nat)} (hr : Registered acc h errs) (hk : KeepsErrors h h')
    (hlen : h'.length = h.length + 1) (nd : Node) (hnew : h'[h.length]? = some nd)
    (hflag : testFlag nd.errors MismatchedNodes = false) : Registered acc h' errs := by
  refine ⟨registered_map_keeps hr hk, hr.2.1, ?_⟩
  intro i x hx
  rcases get_cases_of_length hk hlen i x hx with ⟨a, ha, hv⟩ | heq
  · rw [flag_of_view hv]
    exact hr.2.2 i a ha
  · subst heq
    rw [hnew] at hx
    obtain rfl := Option.some.inj hx
    rw [hflag]
    constructor
    · intro hc; exact absurd hc (by simp)
    · intro hm; exact absurd hm (registered_fresh hr)

theorem registered_error {acc : List QString} {h h' : List Node}
    {errs : List (QString × Nat)} (hr : Registered acc h errs) (hk : KeepsErrors h h')
    (hlen : h'.length = h.length + 1) (nd : Node) (nm : QString)
    (hnew : h'[h.length]? = some nd) (hview : nd.errorView = (NodeType.End, nm, true)) :
    Registered (nm :: acc) h' ((mismatchMessage, h.length) :: errs) := by
  refine ⟨?_, ?_, ?_⟩
  · simp only [List.map_cons, hnew, Option.map_some', hview]
    rw [registered_map_keeps hr hk]
  · simp only [List.map_cons]
    exact List.nodup_cons.mpr ⟨registered_fresh hr, hr.2.1⟩
  · intro i x hx
    simp only [List.map_cons, List.mem_cons]
    rcases get_cases_of_length hk hlen i x hx with ⟨a, ha, hv⟩ | heq
    · rw [flag_of_view hv, hr.2.2 i a ha]
      have hi : i < h.length := (List.getElem?_eq_some.mp ha).1
      constructor
      · intro hm; exact Or.inr hm
      · rintro (heq | hm)
        · omega
        · exact hm
    · subst heq
      rw [hnew] at hx
      obtain rfl := Option.some.inj hx
      have : testFlag nd.errors MismatchedNodes = true := congrArg (fun v => v.2.2) hview
      simp [this]


theorem testFlag_clear : testFlag 0 MismatchedNodes = false := by decide

theorem testFlag_set : testFlag ((0 : Nat) ||| MismatchedNodes) MismatchedNodes = true := by
  decide

theorem chain_none {h : List Node} {st : List (Nat × QString)} (hc : Chain h none st) :
    st = [] := by
  cases st with
  | nil => rfl
  | cons e rest =>
    obtain ⟨i, nm⟩ := e
    exact absurd hc.1 (by simp)

theorem chain_some {h : List Node} {st : List (Nat × QString)} {q : Nat}
    (hc : Chain h (some q) st) :
    ∃ (nm : QString) (rest : List (Nat × QString)) (nd : Node), st = (q, nm) :: rest ∧
      h[q]? = some nd ∧ nd.type = NodeType.Start ∧ nd.name = nm ∧ Chain h nd.parent rest := by
  cases st with
  | nil => exact absurd hc (by simp [Chain])
  | cons e rest =>
    obtain ⟨i, nm⟩ := e
    obtain ⟨hcur, nd, hnd, hty, hnm, hrest⟩ := hc
    obtain rfl : q = i := Option.some.inj hcur
    exact ⟨nm, rest, nd, rfl, hnd, hty, hnm, hrest⟩

theorem errInv_addLeaf {st : List (Nat × QString)} {acc : List QString} {p : XmlEventParser}
    (hE : ErrInv st acc p) (node : Node) (herr : node.errors = 0) :
    (p.addLeaf node).1 = true ∧ ErrInv st acc (p.addLeaf node).2 := by
  have hflag : ∀ par : Option Nat,
      testFlag ({ node with parent := par } : Node).errors MismatchedNodes = false := by
    intro par
    show testFlag node.errors MismatchedNodes = false
    rw [herr]
    decide
  cases hpn : p.m_parentNode with
  | none =>
    have hc := hE.chain
    rw [hpn] at hc
    simp only [XmlEventParser.addLeaf, hpn]
    refine ⟨trivial, hE.halt, hE.rootStack, ?_, ?_⟩
    · exact chain_keeps (keeps_append _ _) _ _ hc
    · exact registered_plain hE.reg (keepsErrors_append _ _) (by simp)
        { node with parent := none } (by simp) (hflag none)
  | some q =>
    have hc := hE.chain
    rw [hpn] at hc
    obtain ⟨nm, rest, ndq, hst, hndq, -, -, -⟩ := chain_some hc
    have hi : q < p.heap.length := (List.getElem?_eq_some.mp hndq).1
    simp only [XmlEventParser.addLeaf, hpn]
    refine ⟨trivial, hE.halt, hE.rootStack, ?_, ?_⟩
    · exact chain_keeps (keeps_step p.heap { node with parent := some q } q
        (fun n => { n with children := n.children ++ [p.heap.length] })
        (fun a => ⟨rfl, rfl, rfl, fun x hx => List.mem_append_left _ hx⟩)) _ _ hc
    · exact registered_plain hE.reg (keepsErrors_step _ _ _ _ (fun a => rfl))
        (by simp [length_update]) { node with parent := some q } (step_new _ _ _ _ hi)
        (hflag (some q))

theorem run_registers : ∀ (events : List Event) (st : List (Nat × QString))
    (acc : List QString) (p : XmlEventParser) (b : Bool) (p1 : XmlEventParser),
    ErrInv st acc p → p.runEvents events = some (b, p1) →
    b = true ∧ ∃ st1, ErrInv st1 ((mismatchedEnds (st.map Prod.snd) events).reverse ++ acc) p1 := by
  intro events
  induction events with
  | nil =>
    intro st acc p b p1 hE hrun
    simp only [XmlEventParser.runEvents, Option.some.injEq, Prod.mk.injEq] at hrun
    obtain ⟨rfl, rfl⟩ := hrun
    exact ⟨rfl, st, by simpa [mismatchedEnds] using hE⟩
  | cons e rest ih =>
    intro st acc p b p1 hE hrun
    have hleaf : ∀ node : Node, node.errors = 0 → p.handle e = some (p.addLeaf node) →
        mismatchedEnds (st.map Prod.snd) (e :: rest) = mismatchedEnds (st.map Prod.snd) rest →
        b = true ∧ ∃ st1,
          ErrInv st1 ((mismatchedEnds (st.map Prod.snd) (e :: rest)).reverse ++ acc) p1 := by
      intro node herr hh hm
      obtain ⟨hb, hE1⟩ := errInv_addLeaf hE node herr
      rw [XmlEventParser.runEvents, hh] at hrun
      have : p.addLeaf node = (true, (p.addLeaf node).2) := by rw [← hb]
      rw [this] at hrun
      rw [hm]
      exact ih st acc _ b p1 hE1 hrun
    cases e with
    | start_element name attrs =>
      rw [XmlEventParser.runEvents, XmlEventParser.handle] at hrun
      simp only [XmlEventParser.start_element] at hrun
      cases hroot : p.m_rootNode with
      | none =>
        rw [hroot] at hrun
        simp only at hrun
        have hst : st = [] := hE.rootStack hroot
        subst hst
        have hE1 : ErrInv [(p.heap.length, name)] acc
            { p with
              heap := p.heap ++
                [{ type := NodeType.Start, name := name, attributes := makeAttributes attrs }]
              m_rootNode := some p.heap.length
              m_parentNode := some p.heap.length
              m_nodes := p.m_nodes ++ [p.heap.length] } := by
          refine ⟨hE.halt, fun h => absurd h (by simp), ?_, ?_⟩
          · exact ⟨rfl,
              { type := NodeType.Start, name := name, attributes := makeAttributes attrs },
              by simp, rfl, rfl, rfl⟩
          · exact registered_plain hE.reg (keepsErrors_append _ _) (by simp)
              { type := NodeType.Start, name := name, attributes := makeAttributes attrs }
              (by simp) testFlag_clear
        exact ih _ acc _ b p1 hE1 hrun
      | some r =>
        rw [hroot] at hrun
        cases hpn : p.m_parentNode with
        | none => rw [hpn] at hrun; simp at hrun
        | some q =>
          rw [hpn] at hrun
          simp only at hrun
          have hc := hE.chain
          rw [hpn] at hc
          obtain ⟨nm, st0, ndq, hst, hndq, -, -, -⟩ := chain_some hc
          have hi : q < p.heap.length := (List.getElem?_eq_some.mp hndq).1
          have hk := keeps_step p.heap
            { type := NodeType.Start, name := name, attributes := makeAttributes attrs,
              parent := some q } q
            (fun n => { n with children := n.children ++ [p.heap.length] })
            (fun a => ⟨rfl, rfl, rfl, fun x hx => List.mem_append_left _ hx⟩)
          have hE1 : ErrInv ((p.heap.length, name) :: st) acc
              { p with
                heap := update (p.heap ++
                  [{ type := NodeType.Start, name := name, attributes := makeAttributes attrs,
                     parent := some q }]) q
                  (fun n => { n with children := n.children ++ [p.heap.length] })
                m_rootNode := some r
                m_parentNode := some p.heap.length
                m_nodes := p.m_nodes ++ [p.heap.length] } := by
            refine ⟨hE.halt, fun h => absurd h (by simp), ?_, ?_⟩
            · exact ⟨rfl, _, step_new _ _ _ _ hi, rfl, rfl, chain_keeps hk _ _ hc⟩
            · exact registered_plain hE.reg (keepsErrors_step _ _ _ _ (fun a => rfl))
                (by simp [length_update])
                { type := NodeType.Start, name := name, parent := some q,
                  attributes := makeAttributes attrs }
                (step_new _ _ _ _ hi) testFlag_clear
          exact ih _ acc _ b p1 hE1 hrun
    | end_element name =>
      rw [XmlEventParser.runEvents, XmlEventParser.handle] at hrun
      cases hpn : p.m_parentNode with
      | none =>
        have hc := hE.chain
        rw [hpn] at hc
        have hst : st = [] := chain_none hc
        subst hst
        simp only [XmlEventParser.end_element, hpn] at hrun
        exact ih [] acc p b p1 hE hrun
      | some q =>
        have hc := hE.chain
        rw [hpn] at hc
        obtain ⟨nm, st0, ndq, hst, hndq, htyq, hnmq, hrest⟩ := chain_some hc
        subst hst
        have hi : q < p.heap.length := (List.getElem?_eq_some.mp hndq).1
        simp only [XmlEventParser.end_element, hpn, XmlEventParser.node, deref_of_get hndq,
          htyq, if_true, hnmq] at hrun
        by_cases hname : name = nm
        · subst hname
          simp only [ne_eq, not_true_eq_false, if_false] at hrun
          have hk := keeps_step p.heap { type := NodeType.End, name := name } q
            (fun n => { n with closer := some p.heap.length })
            (fun a => ⟨rfl, rfl, rfl, fun x hx => hx⟩)
          have hE1 : ErrInv st0 acc
              { p with
                heap := update (p.heap ++ [{ type := NodeType.End, name := name }]) q
                  (fun n => { n with closer := some p.heap.length })
                m_parentNode := ndq.parent
                m_nodes := p.m_nodes ++ [p.heap.length] } := by
            refine ⟨hE.halt, fun h => ?_, chain_keeps hk _ _ hrest, ?_⟩
            · exact absurd (hE.rootStack h) (by simp)
            · exact registered_plain hE.reg (keepsErrors_step _ _ _ _ (fun a => rfl))
                (by simp [length_update]) { type := NodeType.End, name := name }
                (step_new _ _ _ _ hi) testFlag_clear
          have := ih st0 acc _ b p1 hE1 hrun
          simpa [mismatchedEnds] using this
        · simp only [ne_eq, hname, not_false_eq_true, if_true, hE.halt, Bool.false_eq_true,
            if_false] at hrun
          have hE1 : ErrInv ((q, nm) :: st0) (name :: acc)
              { p with
                heap := p.heap ++
                  [{ type := NodeType.End, name := name,
                     errors := (0 : Nat) ||| MismatchedNodes }]
                m_errors := (mismatchMessage, p.heap.length) :: p.m_errors
                m_parentNode := some q
                m_haltOnError := false
                emitted := p.emitted ++ [Signal.sendError mismatchMessage] } := by
            refine ⟨rfl, hE.rootStack, chain_keeps (keeps_append _ _) _ _ hc, ?_⟩
            exact registered_error hE.reg (keepsErrors_append _ _) (by simp)
              { type := NodeType.End, name := name, errors := (0 : Nat) ||| MismatchedNodes }
              name (by simp) (by
                show (NodeType.End, name, testFlag ((0 : Nat) ||| MismatchedNodes)
                  MismatchedNodes) = _
                rw [testFlag_set])
          have := ih _ (name :: acc) _ b p1 hE1 hrun
          simpa [mismatchedEnds, hname] using this
    | text contents =>
      exact hleaf { type := NodeType.Text, text := contents } rfl rfl rfl
    | cdata contents =>
      exact hleaf { type := NodeType.CData, data := contents } rfl rfl rfl
    | processing_instruction target data =>
      exact hleaf { type := NodeType.Instruction, target := target, data := data } rfl rfl rfl
    | comment contents =>
      exact hleaf { type := NodeType.Comment, comment := contents } rfl rfl rfl
    | warning message =>
      rw [XmlEventParser.runEvents, XmlEventParser.handle] at hrun
      have hE1 : ErrInv st acc (p.warning message).2 :=
        ⟨hE.halt, hE.rootStack, hE.chain, hE.reg⟩
      have := ih st acc _ b p1 hE1 hrun
      simpa [mismatchedEnds] using this

/-! ## Lemmas on the classification of an offset -/

theorem declarationNode_name (p : XmlEventParser) (xmltext : QString) (pos : Int) :
    (declarationNode p xmltext pos).name = [] ∧
    (declarationNode p xmltext pos).newLines = [] := by
  unfold declarationNode
  lift_lets
  intro x0 x1 x2 x3 x4 x5 x6 x7 x8 x9 x10 x11
  have h1 : x1.name = [] ∧ x1.newLines = [] := by
    simp only [x1]; split <;> exact ⟨rfl, rfl⟩
  have h3 : x3.name = [] ∧ x3.newLines = [] := h1
  have step : ∀ (x y : Node), y.name = x.name → y.newLines = x.newLines →
      (x.name = [] ∧ x.newLines = []) → (y.name = [] ∧ y.newLines = []) := by
    intro x y e1 e2 h
    rw [e1, e2]
    exact h
  have h4 := step x3 x4 (by simp only [x4]; split <;> rfl) (by simp only [x4]; split <;> rfl) h3
  have h5 := step x4 x5 (by simp only [x5]; split <;> rfl) (by simp only [x5]; split <;> rfl) h4
  have h6 := step x5 x6 (by simp only [x6]; split <;> rfl) (by simp only [x6]; split <;> rfl) h5
  have h7 := step x6 x7 (by simp only [x7]; split <;> rfl) (by simp only [x7]; split <;> rfl) h6
  have h8 := step x7 x8 (by simp only [x8]; split <;> rfl) (by simp only [x8]; split <;> rfl) h7
  have h9 := step x8 x9 (by simp only [x9]; split <;> rfl) (by simp only [x9]; split <;> rfl) h8
  have h10 := step x9 x10 (by simp only [x10]; split <;> rfl)
    (by simp only [x10]; split <;> rfl) h9
  have h11 := step x10 x11 (by simp only [x11]; split <;> rfl)
    (by simp only [x11]; split <;> rfl) h10
  exact step x11 _ (by split <;> rfl) (by split <;> rfl) h11

theorem attributeHit_some (cursorPos : Int) : ∀ (l : List XmlAttribute) (k r : Int),
    attributeHit cursorPos l k = some r →
    ∃ (i : Nat) (a : XmlAttribute), r = k + i ∧ l[i]? = some a ∧
      a.spansContain cursorPos = true ∧
      ∀ (j : Nat) (b : XmlAttribute), j < i → l[j]? = some b →
        b.spansContain cursorPos = false := by
  intro l
  induction l with
  | nil => intro k r h; simp [attributeHit] at h
  | cons d rest ih =>
    intro k r h
    simp only [attributeHit] at h
    by_cases hd : d.spansContain cursorPos = true
    · have hhit : d.isIn cursorPos = IsInNodeType.IsInAttributeName ∨
          d.isIn cursorPos = IsInNodeType.IsInAttributeValue := by
        simp only [XmlAttribute.spansContain, XmlAttribute.nameLength,
          XmlAttribute.valueLength, Bool.or_eq_true, decide_eq_true_eq] at hd
        unfold XmlAttribute.isIn
        by_cases hn : cursorPos ≥ d.nameStart ∧ cursorPos < d.nameStart + d.name.length
        · left; simp [hn]
        · right
          rcases hd with hd | hd
          · exact absurd ⟨hd.1, hd.2⟩ hn
          · rw [if_neg hn, if_pos ⟨hd.1, hd.2⟩]
      rw [if_pos hhit] at h
      refine ⟨0, d, ?_, by simp, hd, ?_⟩
      · simpa using (Option.some.inj h).symm
      · intro j b hj; omega
    · have hmiss : ¬ (d.isIn cursorPos = IsInNodeType.IsInAttributeName ∨
          d.isIn cursorPos = IsInNodeType.IsInAttributeValue) := by
        simp only [XmlAttribute.spansContain, XmlAttribute.nameLength,
          XmlAttribute.valueLength, Bool.or_eq_true, decide_eq_true_eq, not_or] at hd
        unfold XmlAttribute.isIn
        rw [if_neg (fun hh => hd.1 ⟨hh.1, hh.2⟩), if_neg (fun hh => hd.2 ⟨hh.1, hh.2⟩)]
        simp
      rw [if_neg hmiss] at h
      obtain ⟨i, a, hr, hget, ha, hmin⟩ := ih (k + 1) r h
      refine ⟨i + 1, a, ?_, by simpa using hget, ha, ?_⟩
      · rw [hr]; push_cast; ring
      · intro j b hj hb
        cases j with
        | zero =>
          simp only [List.getElem?_cons_zero, Option.some.injEq] at hb
          subst hb
          simpa using hd
        | succ j =>
          exact hmin j b (by omega) (by simpa using hb)

theorem attributeHit_none (cursorPos : Int) : ∀ (l : List XmlAttribute) (k : Int),
    attributeHit cursorPos l k = none → ∀ a ∈ l, a.spansContain cursorPos = false := by
  intro l
  induction l with
  | nil => intro k _ a ha; simp at ha
  | cons d rest ih =>
    intro k h a ha
    simp only [attributeHit] at h
    by_cases hhit : d.isIn cursorPos = IsInNodeType.IsInAttributeName ∨
        d.isIn cursorPos = IsInNodeType.IsInAttributeValue
    · rw [if_pos hhit] at h; cases h
    · rw [if_neg hhit] at h
      rcases List.mem_cons.mp ha with rfl | ha
      · unfold XmlAttribute.isIn at hhit
        simp only [XmlAttribute.spansContain, XmlAttribute.nameLength,
          XmlAttribute.valueLength, Bool.or_eq_false_iff, decide_eq_false_iff_not]
        constructor
        · intro hn
          exact hhit (Or.inl (by rw [if_pos ⟨hn.1, hn.2⟩]))
        · intro hv
          by_cases hn : cursorPos ≥ a.nameStart ∧ cursorPos < a.nameStart + a.name.length
          · exact hhit (Or.inl (by rw [if_pos hn]))
          · exact hhit (Or.inr (by rw [if_neg hn, if_pos ⟨hv.1, hv.2⟩]))
      · exact ih (k + 1) h a ha

/-! ## Lemmas on position recovery -/

theorem freshHeap_append {h : List Node} {ns : List Nat} (hF : FreshHeap h ns) (nd : Node)
    (hnd : nd.newLines = []) : FreshHeap (h ++ [nd]) ns :=
  ⟨by
      intro x hx
      simp only [List.map_append, List.map_cons, List.map_nil, List.mem_append,
        List.mem_singleton] at hx
      rcases hx with hx | hx
      · exact hF.1 x hx
      · rw [hx, hnd],
    hF.2.1, fun ptr hp => by
      have := hF.2.2 ptr hp
      simp only [List.length_append, List.length_singleton]
      omega⟩

theorem freshHeap_push {h : List Node} {ns : List Nat} (hF : FreshHeap h ns) (nd : Node)
    (hnd : nd.newLines = []) : FreshHeap (h ++ [nd]) (ns ++ [h.length]) := by
  obtain ⟨h1, h2, h3⟩ := freshHeap_append hF nd hnd
  refine ⟨h1, ?_, ?_⟩
  · rw [List.nodup_append]
    refine ⟨hF.2.1, List.nodup_singleton _, ?_⟩
    intro a ha hb
    have := hF.2.2 a ha
    simp only [List.mem_singleton] at hb
    omega
  · intro ptr hp
    rcases List.mem_append.mp hp with hp | hp
    · exact h3 ptr hp
    · simp only [List.mem_singleton] at hp
      simp only [List.length_append, List.length_singleton]
      omega

theorem freshHeap_update {h : List Node} {ns : List Nat} (hF : FreshHeap h ns) (i : Nat)
    (f : Node → Node) (hf : ∀ n, (f n).newLines = n.newLines) : FreshHeap (update h i f) ns :=
  ⟨by rw [map_update _ _ _ _ hf]; exact hF.1, hF.2.1, fun ptr hp => by
      rw [length_update]; exact hF.2.2 ptr hp⟩

theorem handle_fresh (p p1 : XmlEventParser) (e : Event) (b : Bool)
    (h : p.handle e = some (b, p1)) (hF : FreshHeap p.heap p.m_nodes) :
    FreshHeap p1.heap p1.m_nodes := by
  cases e with
  | start_element name attrs =>
    simp only [XmlEventParser.handle, XmlEventParser.start_element] at h
    cases hr : p.m_rootNode with
    | none =>
      rw [hr] at h
      simp only [Option.some.injEq, Prod.mk.injEq] at h
      obtain ⟨-, rfl⟩ := h
      exact freshHeap_push hF _ rfl
    | some r0 =>
      rw [hr] at h
      cases hp : p.m_parentNode with
      | none => rw [hp] at h; simp at h
      | some q =>
        rw [hp] at h
        simp only [Option.some.injEq, Prod.mk.injEq] at h
        obtain ⟨-, rfl⟩ := h
        exact freshHeap_update (freshHeap_push hF _ rfl) _ _ (fun _ => rfl)
  | end_element name =>
    simp only [XmlEventParser.handle, XmlEventParser.end_element, Option.some.injEq] at h
    cases hp : p.m_parentNode with
    | none =>
      rw [hp] at h
      simp only [Prod.mk.injEq] at h
      obtain ⟨-, rfl⟩ := h
      exact hF
    | some q =>
      rw [hp] at h
      simp only at h
      split at h
      · split at h
        · split at h <;>
          · simp only [Prod.mk.injEq] at h
            obtain ⟨-, rfl⟩ := h
            exact freshHeap_append hF _ rfl
        · simp only [Prod.mk.injEq] at h
          obtain ⟨-, rfl⟩ := h
          exact freshHeap_update (freshHeap_push hF _ rfl) _ _ (fun _ => rfl)
      · simp only [Prod.mk.injEq] at h
        obtain ⟨-, rfl⟩ := h
        exact freshHeap_push hF _ rfl
  | warning message =>
    simp only [XmlEventParser.handle, XmlEventParser.warning, Option.some.injEq,
      Prod.mk.injEq] at h
    obtain ⟨-, rfl⟩ := h
    exact hF
  | text _ | cdata _ | comment _ | processing_instruction _ _ =>
    simp only [XmlEventParser.handle, XmlEventParser.text, XmlEventParser.cdata,
      XmlEventParser.comment, XmlEventParser.processing_instruction,
      XmlEventParser.addLeaf, Option.some.injEq] at h
    split at h
    · simp only [Prod.mk.injEq] at h
      obtain ⟨-, rfl⟩ := h
      exact freshHeap_update (freshHeap_push hF _ rfl) _ _ (fun _ => rfl)
    · simp only [Prod.mk.injEq] at h
      obtain ⟨-, rfl⟩ := h
      exact freshHeap_push hF _ rfl

theorem runEvents_fresh : ∀ (events : List Event) (p p1 : XmlEventParser) (b : Bool),
    p.runEvents events = some (b, p1) → FreshHeap p.heap p.m_nodes →
    FreshHeap p1.heap p1.m_nodes := by
  intro events
  induction events with
  | nil =>
    intro p p1 b h hF
    simp only [XmlEventParser.runEvents, Option.some.injEq, Prod.mk.injEq] at h
    obtain ⟨-, rfl⟩ := h
    exact hF
  | cons e rest ih =>
    intro p p1 b h hF
    rw [XmlEventParser.runEvents] at h
    cases hh : p.handle e with
    | none => rw [hh] at h; simp at h
    | some r =>
      obtain ⟨b0, p0⟩ := r
      rw [hh] at h
      have hF0 := handle_fresh p p0 e b0 hh hF
      cases b0 with
      | true =>
        simp only at h
        exact ih p0 p1 b h hF0
      | false =>
        simp only [Option.some.injEq, Prod.mk.injEq] at h
        obtain ⟨-, rfl⟩ := h
        exact hF0

theorem getXmlDeclaration_fresh (p : XmlEventParser) (text : QString)
    (hF : FreshHeap p.heap p.m_nodes) :
    FreshHeap (p.getXmlDeclaration text).heap (p.getXmlDeclaration text).m_nodes := by
  unfold XmlEventParser.getXmlDeclaration
  split
  · rename_i m hm
    obtain ⟨h1, h2, h3⟩ := freshHeap_append hF (declarationNode p (captured text m) m.1)
      (declarationNode_name p _ _).2
    refine ⟨h1, ?_, ?_⟩
    · rw [List.nodup_cons]
      refine ⟨fun hmem => ?_, hF.2.1⟩
      have := hF.2.2 _ hmem
      omega
    · intro ptr hp
      rcases List.mem_cons.mp hp with hp | hp
      · subst hp
        simp
      · exact h3 ptr hp
  · exact hF

theorem positionNode_newLines (p : XmlEventParser) (text : QString) (node : Node) (pos : Int) :
    (positionNode p text node pos).1.type = node.type ∧
    (node.type ∈ [NodeType.Start, NodeType.End, NodeType.Text, NodeType.Comment,
        NodeType.CData, NodeType.Instruction] →
      (positionNode p text node pos).1.newLines =
        node.newLines ++ scanNewLines text (positionNode p text node pos).1.start
          (positionNode p text node pos).1.end) := by
  cases hty : node.type <;>
    simp only [positionNode, hty, List.mem_cons, List.mem_singleton, reduceCtorEq, or_self,
      or_false, or_true, false_or, true_or, List.not_mem_nil, false_implies, true_implies,
      implies_true, and_true, true_and] <;>
    first
      | exact hty
      | exact ⟨rfl, rfl⟩
      | rfl

theorem positionNodes_get (p : XmlEventParser) (text : QString) :
    ∀ (nodes : List Nat) (heap : List Node) (pos : Int),
    nodes.Nodup → (∀ ptr ∈ nodes, ptr < heap.length) →
    ∀ (ptr : Nat) (nd : Node), heap[ptr]? = some nd →
      (ptr ∈ nodes → ∃ pos1 : Int,
        (positionNodes p text nodes heap pos).1[ptr]? = some (positionNode p text nd pos1).1) ∧
      (ptr ∉ nodes → (positionNodes p text nodes heap pos).1[ptr]? = some nd) := by
  intro nodes
  induction nodes with
  | nil =>
    intro heap pos _ _ ptr nd hnd
    exact ⟨fun h => by simp at h, fun _ => hnd⟩
  | cons q rest ih =>
    intro heap pos hnodup hlive ptr nd hnd
    rw [List.nodup_cons] at hnodup
    have hlive1 : ∀ x ∈ rest, x < (update heap q fun _ =>
        (positionNode p text (deref heap q) pos).1).length := by
      intro x hx
      rw [length_update]
      exact hlive x (List.mem_cons_of_mem _ hx)
    simp only [positionNodes]
    by_cases hq : ptr = q
    · subst hq
      have hget : (update heap ptr fun _ => (positionNode p text (deref heap ptr) pos).1)[ptr]? =
          some (positionNode p text nd pos).1 := by
        rw [getElem?_update, if_pos rfl, hnd, deref_of_get hnd]
        rfl
      have := (ih _ (positionNode p text (deref heap ptr) pos).2 hnodup.2 hlive1 ptr _ hget).2
        hnodup.1
      exact ⟨fun _ => ⟨pos, this⟩, fun h => absurd (List.mem_cons_self _ _) h⟩
    · have hget : (update heap q fun _ => (positionNode p text (deref heap q) pos).1)[ptr]? =
          some nd := by
        rw [getElem?_update, if_neg hq, hnd]
      have := ih _ (positionNode p text (deref heap q) pos).2 hnodup.2 hlive1 ptr _ hget
      refine ⟨fun hmem => ?_, fun hmem => ?_⟩
      · rcases List.mem_cons.mp hmem with h | h
        · exact absurd h hq
        · exact this.1 h
      · exact this.2 (fun h => hmem (List.mem_cons_of_mem _ h))

theorem scanNewLines_eq (text : QString) (start stop : Int) :
    scanNewLines text start stop =
      ((List.range (stop - start).toNat).map fun k : Nat => start + (k : Int)).filter
        fun i => charAt text i chars.NEWLINE := by
  have key : ∀ l : List Nat, List.flatMap l (fun a : Nat => List.singleton (a : Int)) =
      List.map (fun a : Nat => (a : Int)) l := by
    intro l
    induction l with
    | nil => rfl
    | cons a l ih => rw [List.flatMap_cons, ih]; rfl
  unfold scanNewLines
  congr 1
  simp only [Functor.map, List.bind_eq_flatMap, pure, key, List.map_map]
  rfl

theorem scanNewLines_sorted (text : QString) (start stop : Int) :
    List.Sorted (fun a b => a < b) (scanNewLines text start stop) := by
  rw [scanNewLines_eq]
  apply List.Pairwise.filter
  rw [List.pairwise_map]
  exact (List.pairwise_lt_range _).imp (fun h => by omega)

theorem mem_scanNewLines (text : QString) (start stop : Int) (h0 : 0 ≤ start) (i : Int) :
    i ∈ scanNewLines text start stop ↔
      start ≤ i ∧ i < stop ∧ text[i.toNat]? = some chars.NEWLINE := by
  rw [scanNewLines_eq]
  simp only [List.mem_filter, List.mem_map, List.mem_range, charAt]
  constructor
  · rintro ⟨⟨k, hk, rfl⟩, hc⟩
    rw [if_neg (by omega)] at hc
    exact ⟨by omega, by omega, by simpa using hc⟩
  · rintro ⟨h1, h2, h3⟩
    refine ⟨⟨(i - start).toNat, by omega, by omega⟩, ?_⟩
    rw [if_neg (by omega)]
    simpa using h3

/-! ## Lemmas on the values of the search cursor -/

theorem getLastD_append (l1 l2 : List Int) (d : Int) :
    (l1 ++ l2).getLastD d = l2.getLastD (l1.getLastD d) := by
  rw [List.getLastD_eq_getLast?, List.getLastD_eq_getLast?, List.getLastD_eq_getLast?,
    List.getLast?_append]
  cases l2.getLast? <;> simp

theorem positionAttributes_snd (p : XmlEventParser) (text : QString) (attr : XmlAttribute)
    (rest : List XmlAttribute) (pos : Int) :
    (positionAttributes p text (attr :: rest) pos).2 =
      if attr.hasValue = true then
        (positionAttributes p text rest (indexOf text attr.value 0 + attr.valueLength)).2
      else
        (positionAttributes p text rest
          (indexOfChar text '=' (indexOf text attr.name pos + attr.nameLength))).2 := by
  conv_lhs => unfold positionAttributes
  simp only []
  split
  · rename_i h
    have hv : attr.hasValue = true := h
    rw [if_pos hv]
    rfl
  · rename_i h
    have hv : ¬ attr.hasValue = true := h
    rw [if_neg hv]
    rfl

theorem attributeCursorValues_last (p : XmlEventParser) (text : QString) :
    ∀ (attrs : List XmlAttribute) (pos : Int),
    (attributeCursorValues text attrs pos).getLastD pos =
      (positionAttributes p text attrs pos).2 := by
  intro attrs
  induction attrs with
  | nil => intro pos; rfl
  | cons attr rest ih =>
    intro pos
    rw [positionAttributes_snd]
    conv_lhs => unfold attributeCursorValues
    simp only []
    by_cases hv : attr.hasValue = true
    · rw [if_pos hv, if_pos hv, getLastD_append, ← ih]
      rfl
    · rw [if_neg hv, if_neg hv, getLastD_append, ← ih]
      rfl

theorem nodeCursorValues_last (p : XmlEventParser) (text : QString) (node : Node) (pos : Int) :
    (nodeCursorValues text node pos).getLastD pos = (positionNode p text node pos).2 := by
  cases hty : node.type <;> simp only [nodeCursorValues, positionNode, hty] <;>
    first
      | rfl
      | (rw [getLastD_append]
         show indexOfChar text '>' ((attributeCursorValues text node.attributes
           (indexOf text node.name pos + node.nameLength)).getLastD _) + 1 = _
         rw [attributeCursorValues_last p]
         rfl)

/-! ## Lemmas on the reverse search -/

theorem charAt_natCast (text : QString) (n : Nat) (c : Char) :
    charAt text (n : Int) c = (text[n]? == some c) := by
  unfold charAt
  rw [if_neg (by omega)]
  simp

/-! ## Lemmas on the serialised end tag -/

theorem flatMap_singleton_cast (l : List Nat) :
    List.flatMap l (fun a : Nat => List.singleton (a : Int)) =
      List.map (fun a : Nat => (a : Int)) l := by
  induction l with
  | nil => rfl
  | cons a l ih => rw [List.flatMap_cons, ih]; rfl

theorem endToString_eq (n : Node) :
    n.endToString =
      ((List.range (n.end - 1 - (n.start + 2)).toNat).foldl
        (fun (s : QString) (k : Nat) => endToStringStep n s (n.start + 2 + (k : Int))) "</".toList) ++
        ">".toList := by
  unfold Node.endToString
  simp only [Functor.map, List.bind_eq_flatMap, pure, flatMap_singleton_cast, List.map_map,
    List.foldl_map]
  rfl

theorem endToString_fold (n : Node) (s0 : Nat) (hs : n.startCursor = s0)
    (hn : n.nameStartCursor = (s0 : Int) + 2) (hl : n.newLines = []) :
    ∀ k : Nat, 1 ≤ k →
      (List.range k).foldl
          (fun (s : QString) (j : Nat) => endToStringStep n s (n.start + 2 + (j : Int)))
          "</".toList =
        "</".toList ++ n.name ++
          List.replicate (k - max 1 (n.name.length - s0)) chars.SPACE := by
  intro k hk
  induction k with
  | zero => omega
  | succ k ih =>
    rw [List.range_succ, List.foldl_append, List.foldl_cons, List.foldl_nil]
    rcases Nat.eq_zero_or_pos k with h0 | hpos
    · subst h0
      simp only [List.range_zero, List.foldl_nil, endToStringStep, Node.start, Node.nameStart,
        hs, hn, hl]
      have hlen : ("</".toList : QString).length = 2 := rfl
      rw [hlen, if_neg (by push_cast; omega)]
      simp only [Nat.cast_zero, add_zero, if_true]
      have : 0 + 1 - max 1 (n.name.length - s0) = 0 := by omega
      rw [this]
      simp
    · rw [ih hpos]
      simp only [endToStringStep, Node.start, Node.nameStart, hs, hn, hl]
      have hlen : ("</".toList ++ n.name ++
          List.replicate (k - max 1 (n.name.length - s0)) chars.SPACE : QString).length =
          2 + n.name.length + (k - max 1 (n.name.length - s0)) := by
        simp only [List.length_append, List.length_replicate]
        rfl
      rw [hlen]
      by_cases hskip : k < max 1 (n.name.length - s0)
      · rw [if_pos (by push_cast; omega)]
        have e1 : k - max 1 (n.name.length - s0) = 0 := by omega
        have e2 : k + 1 - max 1 (n.name.length - s0) = 0 := by omega
        rw [e1, e2]
      · rw [if_neg (by push_cast; omega), if_neg (by omega)]
        simp only [List.contains_nil, Bool.false_eq_true, if_false]
        have e2 : k + 1 - max 1 (n.name.length - s0) =
            (k - max 1 (n.name.length - s0)) + 1 := by omega
        rw [e2, List.replicate_succ', List.append_assoc, List.append_assoc]

theorem endToString_true_offsets (n : Node) (s0 : Nat) (hs : n.startCursor = s0)
    (hn : n.nameStartCursor = (s0 : Int) + 2) (he : n.endCursor = (s0 : Int) + n.name.length + 3)
    (hl : n.newLines = []) (h1 : 1 ≤ n.name.length) :
    n.endToString =
      "</".toList ++ n.name ++ List.replicate (min s0 (n.name.length - 1)) chars.SPACE ++
        ">".toList := by
  rw [endToString_eq]
  have hr : (n.end - 1 - (n.start + 2)).toNat = n.name.length := by
    simp only [Node.end, Node.start, hs, he]
    omega
  rw [hr, endToString_fold n s0 hs hn hl _ h1]
  have : n.name.length - max 1 (n.name.length - s0) = min s0 (n.name.length - 1) := by omega
  rw [this]

/-! ## Lemmas on what the handlers append -/

theorem handle_appends (p p1 : XmlEventParser) (e : Event) (b : Bool)
    (h : p.handle e = some (b, p1)) :
    p.heap.length ≤ p1.heap.length ∧
      ∃ suf, p1.m_nodes = p.m_nodes ++ suf ∧ ∀ x ∈ suf, p.heap.length ≤ x := by
  cases e with
  | start_element name attrs =>
    simp only [XmlEventParser.handle, XmlEventParser.start_element] at h
    cases hr : p.m_rootNode with
    | none =>
      rw [hr] at h
      simp only [Option.some.injEq, Prod.mk.injEq] at h
      obtain ⟨-, rfl⟩ := h
      exact ⟨by simp, _, rfl, by simp⟩
    | some r0 =>
      rw [hr] at h
      cases hp : p.m_parentNode with
      | none => rw [hp] at h; simp at h
      | some q =>
        rw [hp] at h
        simp only [Option.some.injEq, Prod.mk.injEq] at h
        obtain ⟨-, rfl⟩ := h
        exact ⟨by simp [length_update], _, rfl, by simp⟩
  | end_element name =>
    simp only [XmlEventParser.handle, XmlEventParser.end_element, Option.some.injEq] at h
    cases hp : p.m_parentNode with
    | none =>
      rw [hp] at h
      simp only [Prod.mk.injEq] at h
      obtain ⟨-, rfl⟩ := h
      exact ⟨le_refl _, [], by simp, by simp⟩
    | some q =>
      rw [hp] at h
      simp only at h
      split at h
      · split at h
        · split at h <;>
          · simp only [Prod.mk.injEq] at h
            obtain ⟨-, rfl⟩ := h
            exact ⟨by simp, [], by simp, by simp⟩
        · simp only [Prod.mk.injEq] at h
          obtain ⟨-, rfl⟩ := h
          exact ⟨by simp [length_update], _, rfl, by simp⟩
      · simp only [Prod.mk.injEq] at h
        obtain ⟨-, rfl⟩ := h
        exact ⟨by simp, _, rfl, by simp⟩
  | warning message =>
    simp only [XmlEventParser.handle, XmlEventParser.warning, Option.some.injEq,
      Prod.mk.injEq] at h
    obtain ⟨-, rfl⟩ := h
    exact ⟨le_refl _, [], by simp, by simp⟩
  | text _ | cdata _ | comment _ | processing_instruction _ _ =>
    simp only [XmlEventParser.handle, XmlEventParser.text, XmlEventParser.cdata,
      XmlEventParser.comment, XmlEventParser.processing_instruction,
      XmlEventParser.addLeaf, Option.some.injEq] at h
    split at h
    · simp only [Prod.mk.injEq] at h
      obtain ⟨-, rfl⟩ := h
      exact ⟨by simp [length_update], _, rfl, by simp⟩
    · simp only [Prod.mk.injEq] at h
      obtain ⟨-, rfl⟩ := h
      exact ⟨by simp, _, rfl, by simp⟩

theorem runEvents_appends : ∀ (events : List Event) (p p1 : XmlEventParser) (b : Bool),
    p.runEvents events = some (b, p1) →
    p.heap.length ≤ p1.heap.length ∧
      ∃ suf, p1.m_nodes = p.m_nodes ++ suf ∧ ∀ x ∈ suf, p.heap.length ≤ x := by
  intro events
  induction events with
  | nil =>
    intro p p1 b h
    simp only [XmlEventParser.runEvents, Option.some.injEq, Prod.mk.injEq] at h
    obtain ⟨-, rfl⟩ := h
    exact ⟨le_refl _, [], by simp, by simp⟩
  | cons e rest ih =>
    intro p p1 b h
    rw [XmlEventParser.runEvents] at h
    cases hh : p.handle e with
    | none => rw [hh] at h; simp at h
    | some r =>
      obtain ⟨b0, p0⟩ := r
      rw [hh] at h
      obtain ⟨hl0, s0, hs0, hx0⟩ := handle_appends p p0 e b0 hh
      cases b0 with
      | true =>
        simp only at h
        obtain ⟨hl1, s1, hs1, hx1⟩ := ih p0 p1 b h
        refine ⟨le_trans hl0 hl1, s0 ++ s1, by rw [hs1, hs0, List.append_assoc], ?_⟩
        intro x hx
        rcases List.mem_append.mp hx with hx | hx
        · exact hx0 x hx
        · exact le_trans hl0 (hx1 x hx)
      | false =>
        simp only [Option.some.injEq, Prod.mk.injEq] at h
        obtain ⟨-, rfl⟩ := h
        exact ⟨hl0, s0, hs0, hx0⟩

/-! ## Lemmas on nodes without offsets -/

theorem heapAll_append {g : Node → Bool} {h : List Node} (hA : HeapAll g h) (nd : Node)
    (hnd : g nd = true) : HeapAll g (h ++ [nd]) := by
  intro x hx
  simp only [List.map_append, List.map_cons, List.map_nil, List.mem_append,
    List.mem_singleton] at hx
  rcases hx with hx | hx
  · exact hA x hx
  · rw [hx, hnd]

theorem heapAll_update {g : Node → Bool} {h : List Node} (hA : HeapAll g h) (i : Nat)
    (f : Node → Node) (hf : ∀ n, g (f n) = g n) : HeapAll g (update h i f) := by
  unfold HeapAll
  rw [map_update _ _ _ _ hf]
  exact hA

theorem makeAttributes_unpositioned (attrs : List (QString × QString)) :
    (makeAttributes attrs).all XmlAttribute.unpositioned = true := by
  induction attrs with
  | nil => rfl
  | cons kv rest ih =>
    simp only [makeAttributes, List.map_cons, List.all_cons, Bool.and_eq_true] at ih ⊢
    refine ⟨?_, ih⟩
    split <;> rfl

theorem handle_unpositioned (p p1 : XmlEventParser) (e : Event) (b : Bool)
    (h : p.handle e = some (b, p1)) (hA : HeapAll Node.unpositioned p.heap) :
    HeapAll Node.unpositioned p1.heap := by
  have hstart : ∀ (name : QString) (attrs : List (QString × QString)) (q : Option Nat),
      Node.unpositioned
        { type := NodeType.Start, name := name,
          attributes := makeAttributes attrs, parent := q } = true := by
    intro name attrs q
    simp [Node.unpositioned, makeAttributes_unpositioned]
  cases e with
  | start_element name attrs =>
    simp only [XmlEventParser.handle, XmlEventParser.start_element] at h
    cases hr : p.m_rootNode with
    | none =>
      rw [hr] at h
      simp only [Option.some.injEq, Prod.mk.injEq] at h
      obtain ⟨-, rfl⟩ := h
      exact heapAll_append hA _ (hstart name attrs none)
    | some r0 =>
      rw [hr] at h
      cases hp : p.m_parentNode with
      | none => rw [hp] at h; simp at h
      | some q =>
        rw [hp] at h
        simp only [Option.some.injEq, Prod.mk.injEq] at h
        obtain ⟨-, rfl⟩ := h
        exact heapAll_update (heapAll_append hA _ (hstart name attrs (some q))) _ _
          (fun _ => rfl)
  | end_element name =>
    simp only [XmlEventParser.handle, XmlEventParser.end_element, Option.some.injEq] at h
    cases hp : p.m_parentNode with
    | none =>
      rw [hp] at h
      simp only [Prod.mk.injEq] at h
      obtain ⟨-, rfl⟩ := h
      exact hA
    | some q =>
      rw [hp] at h
      simp only at h
      split at h
      · split at h
        · split at h <;>
          · simp only [Prod.mk.injEq] at h
            obtain ⟨-, rfl⟩ := h
            exact heapAll_append hA _ (by rfl)
        · simp only [Prod.mk.injEq] at h
          obtain ⟨-, rfl⟩ := h
          exact heapAll_update (heapAll_append hA _ (by rfl)) _ _ (fun _ => rfl)
      · simp only [Prod.mk.injEq] at h
        obtain ⟨-, rfl⟩ := h
        exact heapAll_append hA _ (by rfl)
  | warning message =>
    simp only [XmlEventParser.handle, XmlEventParser.warning, Option.some.injEq,
      Prod.mk.injEq] at h
    obtain ⟨-, rfl⟩ := h
    exact hA
  | text _ | cdata _ | comment _ | processing_instruction _ _ =>
    simp only [XmlEventParser.handle, XmlEventParser.text, XmlEventParser.cdata,
      XmlEventParser.comment, XmlEventParser.processing_instruction,
      XmlEventParser.addLeaf, Option.some.injEq] at h
    split at h
    · simp only [Prod.mk.injEq] at h
      obtain ⟨-, rfl⟩ := h
      exact heapAll_update (heapAll_append hA _ (by rfl)) _ _ (fun _ => rfl)
    · simp only [Prod.mk.injEq] at h
      obtain ⟨-, rfl⟩ := h
      exact heapAll_append hA _ (by rfl)

theorem runEvents_unpositioned : ∀ (events : List Event) (p p1 : XmlEventParser) (b : Bool),
    p.runEvents events = some (b, p1) → HeapAll Node.unpositioned p.heap →
    HeapAll Node.unpositioned p1.heap := by
  intro events
  induction events with
  | nil =>
    intro p p1 b h hA
    simp only [XmlEventParser.runEvents, Option.some.injEq, Prod.mk.injEq] at h
    obtain ⟨-, rfl⟩ := h
    exact hA
  | cons e rest ih =>
    intro p p1 b h hA
    rw [XmlEventParser.runEvents] at h
    cases hh : p.handle e with
    | none => rw [hh] at h; simp at h
    | some r =>
      obtain ⟨b0, p0⟩ := r
      rw [hh] at h
      have hA0 := handle_unpositioned p p0 e b0 hh hA
      cases b0 with
      | true =>
        simp only at h
        exact ih p0 p1 b h hA0
      | false =>
        simp only [Option.some.injEq, Prod.mk.injEq] at h
        obtain ⟨-, rfl⟩ := h
        exact hA0

theorem unpositioned_fields (n : Node) (h : n.unpositioned = true) :
    n.type ≠ NodeType.XmlDeclaration ∧ n.start = -1 ∧ n.end = -1 ∧ n.newLines = [] := by
  simp only [Node.unpositioned, Bool.and_eq_true, beq_iff_eq, List.isEmpty_iff,
    bne_iff_ne, ne_eq] at h
  obtain ⟨⟨⟨⟨⟨⟨⟨⟨⟨h1, h2⟩, -⟩, -⟩, -⟩, -⟩, -⟩, h8⟩, -⟩, h10⟩ := h
  exact ⟨h10, h1, h2, h8⟩

/-! ## Lemmas on the encoding value -/

theorem reMatch_matchPieces (ps : List Piece) (subject : QString) (offset : Int) (m : Nat × Nat)
    (h : reMatch ps subject offset = some m) : matchPieces ps (subject.drop m.1) = some m.2 := by
  unfold reMatch at h
  simp only at h
  by_cases hc : (if offset < 0 then offset + (subject.length : Int) else offset) < 0 ∨
      (if offset < 0 then offset + (subject.length : Int) else offset) > subject.length
  · rw [if_pos hc] at h
    cases h
  · rw [if_neg hc] at h
    exact (searchPieces_bound ps subject _ _ m h).2

theorem matchPieces_encodingValue (t : QString) (n : Nat)
    (h : matchPieces ENCODING_VALUE_REGEX t = some n) :
    n = 7 ∧ encodingValueForm (t.take 7) = true := by
  have hre : ENCODING_VALUE_REGEX =
      [Piece.cls [Char.ofNat 34, Char.ofNat 39], Piece.lit 'u', Piece.lit 't', Piece.lit 'f',
        Piece.lit '-', Piece.cls ['8', '|', '1', '6'],
        Piece.cls [Char.ofNat 34, Char.ofNat 39]] := rfl
  rw [hre] at h
  match t, h with
  | [], h => simp [matchPieces] at h
  | [_], h => simp [matchPieces] at h
  | [_, _], h => simp [matchPieces] at h
  | [_, _, _], h => simp [matchPieces] at h
  | [_, _, _, _], h => simp [matchPieces] at h
  | [_, _, _, _, _], h => simp [matchPieces] at h
  | [_, _, _, _, _, _], h => simp [matchPieces] at h
  | x0 :: x1 :: x2 :: x3 :: x4 :: x5 :: x6 :: rest, h =>
    simp only [matchPieces] at h
    by_cases h0 : ([Char.ofNat 34, Char.ofNat 39].any (ciEq · x0)) = true
    · by_cases h1 : ciEq 'u' x1 = true
      · by_cases h2 : ciEq 't' x2 = true
        · by_cases h3 : ciEq 'f' x3 = true
          · by_cases h4 : ciEq '-' x4 = true
            · by_cases h5 : (['8', '|', '1', '6'].any (ciEq · x5)) = true
              · by_cases h6 : ([Char.ofNat 34, Char.ofNat 39].any (ciEq · x6)) = true
                · simp only [h0, h1, h2, h3, h4, h5, h6, if_true, Option.map_some',
                    Option.some.injEq] at h
                  refine ⟨by omega, ?_⟩
                  simp only [List.take_succ_cons, List.take_zero, encodingValueForm, h0, h1, h2,
                    h3, h4, h5, h6, Bool.and_self]
                · simp [h0, h1, h2, h3, h4, h5, h6] at h
              · simp [h0, h1, h2, h3, h4, h5] at h
            · simp [h0, h1, h2, h3, h4] at h
          · simp [h0, h1, h2, h3] at h
        · simp [h0, h1, h2] at h
      · simp [h0, h1] at h
    · simp [h0] at h

theorem declarationNode_encoding (p : XmlEventParser) (xmltext : QString) (pos : Int) :
    (declarationNode p xmltext pos).encoding = [] ∨
      ∃ (offset : Int) (m : Nat × Nat), reMatch ENCODING_VALUE_REGEX xmltext offset = some m ∧
        (declarationNode p xmltext pos).encoding = captured xmltext m := by
  unfold declarationNode
  lift_lets
  intro x0 x1 x2 x3 x4 x5 x6 x7 x8 x9 x10 x11
  have h1 : x1.encoding = [] := by simp only [x1]; split <;> rfl
  have h3 : x3.encoding = [] := h1
  have h4 : x4.encoding = [] := by simp only [x4]; split <;> exact h3
  have h5 : x5.encoding = [] := by simp only [x5]; split <;> exact h4
  have h6 : x6.encoding = [] := by simp only [x6]; split <;> exact h5
  have h7 : x7.encoding = [] := by simp only [x7]; split <;> exact h6
  have h8 : x8.encoding = [] := by simp only [x8]; split <;> exact h7
  have h9 : x9.encoding = [] ∨
      ∃ (offset : Int) (m : Nat × Nat), reMatch ENCODING_VALUE_REGEX xmltext offset = some m ∧
        x9.encoding = captured xmltext m := by
    simp only [x9]
    split
    · rename_i m hm
      exact Or.inr ⟨_, m, hm, rfl⟩
    · exact Or.inl h8
  have step : ∀ (x y : Node), y.encoding = x.encoding →
      (x.encoding = [] ∨
        ∃ (offset : Int) (m : Nat × Nat), reMatch ENCODING_VALUE_REGEX xmltext offset = some m ∧
          x.encoding = captured xmltext m) →
      (y.encoding = [] ∨
        ∃ (offset : Int) (m : Nat × Nat), reMatch ENCODING_VALUE_REGEX xmltext offset = some m ∧
          y.encoding = captured xmltext m) := by
    intro x y e h
    rw [e]
    exact h
  have h10 := step x9 x10 (by simp only [x10]; split <;> rfl) h9
  have h11 := step x10 x11 (by simp only [x11]; split <;> rfl) h10
  exact step x11 _ (by split <;> rfl) h11

/-! ## Lemmas on the links of the tree -/

theorem linkedHeap_mono {h : List Node} {ms ms' : List Nat} {root : Option Nat}
    (hL : LinkedHeap h ms root) (hsub : ∀ x ∈ ms, x ∈ ms') : LinkedHeap h ms' root := by
  obtain ⟨hA, hB, hR⟩ := hL
  refine ⟨fun i nd hnd => ?_, hB, hR⟩
  obtain ⟨a1, a2, a3, a4⟩ := hA i nd hnd
  exact ⟨a1, fun c hc => ⟨(a2 c hc).1, (a2 c hc).2.1, hsub c (a2 c hc).2.2⟩, a3, a4⟩

theorem linkedHeap_root {h : List Node} {ms : List Nat} {root : Option Nat}
    (hL : LinkedHeap h ms root) (r : Nat) (nd : Node) (hr : h[r]? = some nd)
    (hp : nd.parent = none) (hty : nd.type = NodeType.Start) : LinkedHeap h ms (some r) := by
  obtain ⟨hA, hB, -⟩ := hL
  refine ⟨hA, hB, fun r1 hr1 => ?_⟩
  obtain rfl : r = r1 := Option.some.inj hr1
  exact ⟨nd, hr, hp, hty⟩

theorem linkedHeap_append {h : List Node} {ms : List Nat} {root : Option Nat}
    (hL : LinkedHeap h ms root) (nd0 : Node) (hp : nd0.parent = none)
    (hc : nd0.children = []) : LinkedHeap (h ++ [nd0]) ms root := by
  obtain ⟨hA, hB, hR⟩ := hL
  have hlen : (h ++ [nd0]).length = h.length + 1 := by simp
  refine ⟨?_, ?_, ?_⟩
  · intro i x hx
    rcases append_cases h nd0 i x hx with hold | ⟨-, hxe⟩
    · obtain ⟨a1, a2, a3, a4⟩ := hA i x hold
      refine ⟨a1, fun c hcm => ?_, a3, a4⟩
      obtain ⟨b1, b2, b3⟩ := a2 c hcm
      exact ⟨b1, by omega, b3⟩
    · rw [hxe]
      refine ⟨fun q hq => ?_, fun c hcm => ?_, ?_, fun _ => hp⟩
      · rw [hp] at hq; cases hq
      · rw [hc] at hcm; cases hcm
      · rw [hc]; exact List.Pairwise.nil
  · intro i q x pa hx hpa
    rcases append_cases h nd0 i x hx with hold | ⟨hi, hxe⟩
    · have hilt : i < h.length := (List.getElem?_eq_some.mp hold).1
      rcases append_cases h nd0 q pa hpa with hqold | ⟨hq, hpe⟩
      · exact hB i q x pa hold hqold
      · rw [hpe]
        constructor
        · intro hpar
          have := (hA i x hold).1 q hpar
          omega
        · intro hmem
          rw [hc] at hmem; cases hmem
    · rw [hxe]
      rcases append_cases h nd0 q pa hpa with hqold | ⟨hq, hpe⟩
      · constructor
        · intro hpar
          rw [hp] at hpar; cases hpar
        · intro hmem
          have := ((hA q pa hqold).2.1 i hmem).2.1
          omega
      · rw [hpe]
        constructor
        · intro hpar
          rw [hp] at hpar; cases hpar
        · intro hmem
          rw [hc] at hmem; cases hmem
  · intro r hr
    obtain ⟨nd, hnd, h1, h2⟩ := hR r hr
    have hrlt : r < h.length := (List.getElem?_eq_some.mp hnd).1
    exact ⟨nd, by rw [List.getElem?_append_left hrlt]; exact hnd, h1, h2⟩

theorem update_view (h : List Node) (q : Nat) (f : Node → Node)
    (hf : ∀ n, (f n).parent = n.parent ∧ (f n).children = n.children ∧ (f n).type = n.type)
    (i : Nat) :
    (∀ x, (update h q f)[i]? = some x →
      ∃ a, h[i]? = some a ∧ x.parent = a.parent ∧ x.children = a.children ∧ x.type = a.type) ∧
    (∀ a, h[i]? = some a →
      ∃ x, (update h q f)[i]? = some x ∧ x.parent = a.parent ∧ x.children = a.children ∧
        x.type = a.type) := by
  constructor
  · intro x hx
    rw [getElem?_update] at hx
    by_cases hi : i = q
    · rw [if_pos hi] at hx
      cases ha : h[i]? with
      | none => rw [ha] at hx; cases hx
      | some a =>
        rw [ha] at hx
        simp only [Option.map_some', Option.some.injEq] at hx
        subst hx
        exact ⟨a, rfl, (hf a).1, (hf a).2.1, (hf a).2.2⟩
    · rw [if_neg hi] at hx
      exact ⟨x, hx, rfl, rfl, rfl⟩
  · intro a ha
    rw [getElem?_update]
    by_cases hi : i = q
    · rw [if_pos hi, ha]
      exact ⟨f a, rfl, (hf a).1, (hf a).2.1, (hf a).2.2⟩
    · rw [if_neg hi]
      exact ⟨a, ha, rfl, rfl, rfl⟩

theorem linkedHeap_update {h : List Node} {ms : List Nat} {root : Option Nat}
    (hL : LinkedHeap h ms root) (q : Nat) (f : Node → Node)
    (hf : ∀ n, (f n).parent = n.parent ∧ (f n).children = n.children ∧ (f n).type = n.type) :
    LinkedHeap (update h q f) ms root := by
  obtain ⟨hA, hB, hR⟩ := hL
  refine ⟨?_, ?_, ?_⟩
  · intro i x hx
    obtain ⟨a, ha, e1, e2, e3⟩ := (update_view h q f hf i).1 x hx
    rw [e1, e2, e3, length_update]
    exact hA i a ha
  · intro i q1 x pa hx hpa
    obtain ⟨a, ha, e1, -, -⟩ := (update_view h q f hf i).1 x hx
    obtain ⟨b, hb, -, e2, -⟩ := (update_view h q f hf q1).1 pa hpa
    rw [e1, e2]
    exact hB i q1 a b ha hb
  · intro r hr
    obtain ⟨nd, hnd, h1, h2⟩ := hR r hr
    obtain ⟨x, hx, e1, -, e3⟩ := (update_view h q f hf r).2 nd hnd
    exact ⟨x, hx, by rw [e1, h1], by rw [e3, h2]⟩

theorem child_view (h : List Node) (nd0 : Node) (q0 : Nat) (hq0 : q0 < h.length) (j : Nat)
    (x : Node)
    (hx : (update (h ++ [nd0]) q0
      (fun n => { n with children := n.children ++ [h.length] }))[j]? = some x) :
    (∃ a, h[j]? = some a ∧ j < h.length ∧ x.parent = a.parent ∧ x.type = a.type ∧
      x.children = if j = q0 then a.children ++ [h.length] else a.children) ∨
    (j = h.length ∧ x = nd0) := by
  rcases step_cases h nd0 q0 _ hq0 j x hx with ⟨a, ha, hxa⟩ | hnew
  · left
    refine ⟨a, ha, (List.getElem?_eq_some.mp ha).1, ?_, ?_, ?_⟩
    · rw [hxa]; split <;> rfl
    · rw [hxa]; split <;> rfl
    · rw [hxa]; split <;> rfl
  · exact Or.inr hnew

theorem linkedHeap_child {h : List Node} {ms : List Nat} {root : Option Nat}
    (hL : LinkedHeap h ms root) (nd0 : Node) (q0 : Nat) (hq0 : q0 < h.length)
    (hp : nd0.parent = some q0) (hc : nd0.children = []) (hty : nd0.type ≠ NodeType.End) :
    LinkedHeap (update (h ++ [nd0]) q0
      (fun n => { n with children := n.children ++ [h.length] })) (ms ++ [h.length]) root := by
  obtain ⟨hA, hB, hR⟩ := hL
  have hlen : (update (h ++ [nd0]) q0
      (fun n => { n with children := n.children ++ [h.length] })).length = h.length + 1 := by
    rw [length_update]; simp
  refine ⟨?_, ?_, ?_⟩
  · intro i x hx
    rw [hlen]
    rcases child_view h nd0 q0 hq0 i x hx with ⟨a, ha, hi, e1, e2, e3⟩ | ⟨hin, hxe⟩
    · obtain ⟨a1, a2, a3, a4⟩ := hA i a ha
      rw [e1, e2, e3]
      refine ⟨a1, ?_, ?_, a4⟩
      · intro c hcm
        by_cases hiq : i = q0
        · rw [if_pos hiq] at hcm
          rcases List.mem_append.mp hcm with hcm | hcm
          · obtain ⟨b1, b2, b3⟩ := a2 c hcm
            exact ⟨b1, by omega, List.mem_append_left _ b3⟩
          · simp only [List.mem_singleton] at hcm
            subst hcm
            exact ⟨hi, by omega, by simp⟩
        · rw [if_neg hiq] at hcm
          obtain ⟨b1, b2, b3⟩ := a2 c hcm
          exact ⟨b1, by omega, List.mem_append_left _ b3⟩
      · by_cases hiq : i = q0
        · rw [if_pos hiq, List.pairwise_append]
          refine ⟨a3, List.pairwise_singleton _ _, fun c hcm d hd => ?_⟩
          simp only [List.mem_singleton] at hd
          subst hd
          exact (a2 c hcm).2.1
        · rw [if_neg hiq]
          exact a3
    · rw [hxe, hin]
      refine ⟨fun q hq => ?_, fun c hcm => ?_, ?_, fun hE => absurd hE hty⟩
      · rw [hp] at hq
        obtain rfl := Option.some.inj hq
        exact hq0
      · rw [hc] at hcm; cases hcm
      · rw [hc]; exact List.Pairwise.nil
  · intro i q x pa hx hpa
    rcases child_view h nd0 q0 hq0 i x hx with ⟨a, ha, hi, e1, -, -⟩ | ⟨hin, hxe⟩
    · rcases child_view h nd0 q0 hq0 q pa hpa with ⟨b, hb, hq, -, -, f3⟩ | ⟨hqn, hpe⟩
      · rw [e1, f3]
        have hold := hB i q a b ha hb
        by_cases hqq : q = q0
        · rw [if_pos hqq, List.mem_append]
          constructor
          · intro hpar; exact Or.inl (hold.mp hpar)
          · rintro (hmem | hmem)
            · exact hold.mpr hmem
            · simp only [List.mem_singleton] at hmem
              omega
        · rw [if_neg hqq]
          exact hold
      · rw [e1, hpe, hc]
        constructor
        · intro hpar
          have := (hA i a ha).1 _ hpar
          omega
        · intro hmem; cases hmem
    · rw [hxe]
      rcases child_view h nd0 q0 hq0 q pa hpa with ⟨b, hb, hq, -, -, f3⟩ | ⟨hqn, hpe⟩
      · rw [hp, f3]
        by_cases hqq : q = q0
        · rw [if_pos hqq, hqq]
          exact ⟨fun _ => List.mem_append_right _ (by simp [hin]), fun _ => rfl⟩
        · rw [if_neg hqq]
          constructor
          · intro hpar
            exact absurd (Option.some.inj hpar).symm hqq
          · intro hmem
            have := ((hA q b hb).2.1 _ hmem).2.1
            omega
      · rw [hp, hpe, hc]
        constructor
        · intro hpar
          have := Option.some.inj hpar
          omega
        · intro hmem; cases hmem
  · intro r hr
    obtain ⟨nd, hnd, h1, h2⟩ := hR r hr
    have hget := step_old h nd0 q0 (fun n => { n with children := n.children ++ [h.length] })
      r nd hnd
    refine ⟨_, hget, ?_, ?_⟩
    · split <;> exact h1
    · split <;> exact h2

theorem nodes_push {ms : List Nat} {n m : Nat}
    (h : ms.Pairwise (fun a b => a < b) ∧ ∀ x ∈ ms, x < n) (hm : m = n + 1) :
    (ms ++ [n]).Pairwise (fun a b => a < b) ∧ ∀ x ∈ ms ++ [n], x < m := by
  subst hm
  refine ⟨List.pairwise_append.mpr ⟨h.1, List.pairwise_singleton _ _, fun a ha b hb => ?_⟩,
    fun x hx => ?_⟩
  · simp only [List.mem_singleton] at hb
    subst hb
    exact h.2 a ha
  · rcases List.mem_append.mp hx with hx | hx
    · have := h.2 x hx
      omega
    · simp only [List.mem_singleton] at hx
      omega

theorem nodes_keep {ms : List Nat} {n m : Nat}
    (h : ms.Pairwise (fun a b => a < b) ∧ ∀ x ∈ ms, x < n) (hm : n ≤ m) :
    ms.Pairwise (fun a b => a < b) ∧ ∀ x ∈ ms, x < m :=
  ⟨h.1, fun x hx => lt_of_lt_of_le (h.2 x hx) hm⟩

theorem node_of_lt (p : XmlEventParser) (q : Nat) (hq : q < p.heap.length) :
    p.heap[q]? = some (p.node q) := by
  have hget : p.heap[q]? = some p.heap[q] := List.getElem?_eq_getElem hq
  rw [XmlEventParser.node, deref_of_get hget]
  exact hget

theorem node_of_ge (p : XmlEventParser) (q : Nat) (hq : p.heap.length ≤ q) :
    p.node q = default := by
  rw [XmlEventParser.node, deref, List.getD_eq_getElem?_getD, List.getElem?_eq_none hq]
  rfl

theorem linked_new (document : Nat) : Linked (XmlEventParser.new document) :=
  ⟨⟨fun i nd h => by simp [XmlEventParser.new] at h,
      fun i q nd pa h => by simp [XmlEventParser.new] at h,
      fun r h => by simp [XmlEventParser.new] at h⟩,
    fun q h => by simp [XmlEventParser.new] at h,
    List.Pairwise.nil, fun x h => by simp [XmlEventParser.new] at h⟩

theorem linked_orphan {p : XmlEventParser} (hL : Linked p) (nd0 : Node)
    (hp : nd0.parent = none) (hc : nd0.children = []) :
    LinkedHeap (p.heap ++ [nd0]) (p.m_nodes ++ [p.heap.length]) p.m_rootNode :=
  linkedHeap_mono (linkedHeap_append hL.heap nd0 hp hc) (fun _ hx => List.mem_append_left _ hx)

theorem handle_linked (p p1 : XmlEventParser) (e : Event) (b : Bool)
    (h : p.handle e = some (b, p1)) (hL : Linked p) : Linked p1 := by
  have hlen1 : ∀ nd : Node, (p.heap ++ [nd]).length = p.heap.length + 1 := by
    intro nd; simp
  have hlen2 : ∀ (nd : Node) (q : Nat) (f : Node → Node),
      (update (p.heap ++ [nd]) q f).length = p.heap.length + 1 := by
    intro nd q f; rw [length_update]; simp
  have hup : ∀ (q : Nat) (q1 : Nat), q < p.heap.length → (p.node q).parent = some q1 →
      q1 < p.heap.length := by
    intro q q1 hq hpar
    have := (hL.heap.1 q _ (node_of_lt p q hq)).1 q1 hpar
    omega
  cases e with
  | start_element name attrs =>
    simp only [XmlEventParser.handle, XmlEventParser.start_element] at h
    cases hr : p.m_rootNode with
    | none =>
      rw [hr] at h
      simp only [Option.some.injEq, Prod.mk.injEq] at h
      obtain ⟨-, rfl⟩ := h
      refine ⟨?_, ?_, nodes_push hL.nodes (hlen1 _)⟩
      · refine linkedHeap_root (linked_orphan hL _ ?_ ?_) _ _
          (List.getElem?_concat_length _ _) ?_ ?_ <;> rfl
      · intro q hq
        obtain rfl := Option.some.inj hq
        simp
    | some r0 =>
      rw [hr] at h
      cases hp : p.m_parentNode with
      | none => rw [hp] at h; simp at h
      | some q =>
        rw [hp] at h
        simp only [Option.some.injEq, Prod.mk.injEq] at h
        obtain ⟨-, rfl⟩ := h
        refine ⟨?_, ?_, nodes_push hL.nodes (hlen2 _ _ _)⟩
        · have hheap : LinkedHeap p.heap p.m_nodes (some r0) := hr ▸ hL.heap
          refine linkedHeap_child hheap _ q (hL.parentLive q hp) ?_ ?_ ?_
          · rfl
          · rfl
          · simp
        · intro q1 hq1
          obtain rfl := Option.some.inj hq1
          show p.heap.length < _
          rw [hlen2]
          omega
  | end_element name =>
    simp only [XmlEventParser.handle, XmlEventParser.end_element, Option.some.injEq] at h
    cases hp : p.m_parentNode with
    | none =>
      rw [hp] at h
      simp only [Prod.mk.injEq] at h
      obtain ⟨-, rfl⟩ := h
      exact hL
    | some q =>
      have hq : q < p.heap.length := hL.parentLive q hp
      rw [hp] at h
      simp only at h
      split at h
      · split at h
        · split at h <;>
          · simp only [Prod.mk.injEq] at h
            obtain ⟨-, rfl⟩ := h
            refine ⟨linkedHeap_append hL.heap _ (by rfl) (by rfl), ?_,
              nodes_keep hL.nodes (by simp)⟩
            intro q1 hq1
            obtain rfl := Option.some.inj hq1
            show q < (p.heap ++ _).length
            rw [hlen1]
            omega
        · simp only [Prod.mk.injEq] at h
          obtain ⟨-, rfl⟩ := h
          refine ⟨?_, ?_, nodes_push hL.nodes (hlen2 _ _ _)⟩
          · exact linkedHeap_update (linked_orphan hL _ (by rfl) (by rfl)) _ _
              (fun _ => ⟨rfl, rfl, rfl⟩)
          · intro q1 hq1
            have := hup q q1 hq hq1
            show q1 < (update _ _ _).length
            rw [hlen2]
            omega
      · simp only [Prod.mk.injEq] at h
        obtain ⟨-, rfl⟩ := h
        refine ⟨linked_orphan hL _ (by rfl) (by rfl), ?_, nodes_push hL.nodes (hlen1 _)⟩
        intro q1 hq1
        have := hup q q1 hq hq1
        show q1 < (p.heap ++ _).length
        rw [hlen1]
        omega
  | warning message =>
    simp only [XmlEventParser.handle, XmlEventParser.warning, Option.some.injEq,
      Prod.mk.injEq] at h
    obtain ⟨-, rfl⟩ := h
    exact ⟨hL.heap, hL.parentLive, hL.nodes⟩
  | text _ | cdata _ | comment _ | processing_instruction _ _ =>
    simp only [XmlEventParser.handle, XmlEventParser.text, XmlEventParser.cdata,
      XmlEventParser.comment, XmlEventParser.processing_instruction,
      XmlEventParser.addLeaf, Option.some.injEq] at h
    split at h
    · rename_i q heq
      simp only [Prod.mk.injEq] at h
      obtain ⟨-, rfl⟩ := h
      refine ⟨?_, ?_, nodes_push hL.nodes (hlen2 _ _ _)⟩
      · refine linkedHeap_child hL.heap _ q (hL.parentLive q heq) ?_ ?_ ?_
        · exact heq
        · rfl
        · simp
      · intro q1 hq1
        have := hL.parentLive q1 hq1
        show q1 < (update _ _ _).length
        rw [hlen2]
        omega
    · rename_i heq
      simp only [Prod.mk.injEq] at h
      obtain ⟨-, rfl⟩ := h
      refine ⟨linked_orphan hL _ heq (by rfl), ?_, nodes_push hL.nodes (hlen1 _)⟩
      intro q1 hq1
      have := hL.parentLive q1 hq1
      show q1 < (p.heap ++ _).length
      rw [hlen1]
      omega

theorem runEvents_linked : ∀ (events : List Event) (p p1 : XmlEventParser) (b : Bool),
    p.runEvents events = some (b, p1) → Linked p → Linked p1 := by
  intro events
  induction events with
  | nil =>
    intro p p1 b h hL
    simp only [XmlEventParser.runEvents, Option.some.injEq, Prod.mk.injEq] at h
    obtain ⟨-, rfl⟩ := h
    exact hL
  | cons e rest ih =>
    intro p p1 b h hL
    rw [XmlEventParser.runEvents] at h
    cases hh : p.handle e with
    | none => rw [hh] at h; simp at h
    | some r =>
      obtain ⟨b0, p0⟩ := r
      rw [hh] at h
      have hL0 := handle_linked p p0 e b0 hh hL
      cases b0 with
      | true =>
        simp only at h
        exact ih p0 p1 b h hL0
      | false =>
        simp only [Option.some.injEq, Prod.mk.injEq] at h
        obtain ⟨-, rfl⟩ := h
        exact hL0

/-! ## Lemmas on the states inside a well-formed sequence -/

theorem run_prefix : ∀ (pre rest : List Event) (st : List (Nat × QString)) (rs : Bool)
    (p : XmlEventParser), Inv st rs p →
    wellFormedFrom (st.map Prod.snd) rs (pre ++ rest) = true →
    ∃ (p1 : XmlEventParser) (st1 : List (Nat × QString)) (rs1 : Bool),
      p.runEvents pre = some (true, p1) ∧ Inv st1 rs1 p1 ∧
      wellFormedFrom (st1.map Prod.snd) rs1 rest = true := by
  intro pre
  induction pre with
  | nil =>
    intro rest st rs p hinv hwf
    exact ⟨p, st, rs, rfl, hinv, hwf⟩
  | cons e pre ih =>
    intro rest st rs p hinv hwf
    rw [List.cons_append] at hwf
    have hleaf : ∀ node : Node, node.type ≠ NodeType.Start →
        p.handle e = some (p.addLeaf node) →
        wellFormedFrom (st.map Prod.snd) rs (pre ++ rest) = true →
        ∃ (p1 : XmlEventParser) (st1 : List (Nat × QString)) (rs1 : Bool),
          p.runEvents (e :: pre) = some (true, p1) ∧ Inv st1 rs1 p1 ∧
          wellFormedFrom (st1.map Prod.snd) rs1 rest = true := by
      intro node hty hh hwf1
      obtain ⟨hb, hinv1, -⟩ := inv_addLeaf hinv node hty
      obtain ⟨p1, st1, rs1, hrun, hinv2, hwf2⟩ := ih rest st rs _ hinv1 hwf1
      refine ⟨p1, st1, rs1, ?_, hinv2, hwf2⟩
      rw [XmlEventParser.runEvents, hh]
      have : p.addLeaf node = (true, (p.addLeaf node).2) := by rw [← hb]
      rw [this]
      exact hrun
    cases e with
    | start_element name attrs =>
      simp only [wellFormedFrom] at hwf
      have hok : ¬ (st = [] ∧ rs = true) := by
        rintro ⟨h1, h2⟩
        subst h1 h2
        simp at hwf
      have hwf1 : wellFormedFrom (name :: st.map Prod.snd) true (pre ++ rest) = true := by
        split at hwf
        · exact absurd hwf (by simp)
        · exact hwf
      obtain ⟨p1, hstep, hinv1, -⟩ := inv_start hinv name attrs hok
      obtain ⟨p2, st2, rs2, hrun, hinv2, hwf2⟩ := ih rest _ true p1 hinv1 (by simpa using hwf1)
      refine ⟨p2, st2, rs2, ?_, hinv2, hwf2⟩
      rw [XmlEventParser.runEvents, XmlEventParser.handle, hstep]
      exact hrun
    | end_element name =>
      cases st with
      | nil => simp [wellFormedFrom] at hwf
      | cons top st1 =>
        obtain ⟨i, nm⟩ := top
        simp only [List.map_cons, wellFormedFrom, Bool.and_eq_true, beq_iff_eq] at hwf
        obtain ⟨hname, hwf1⟩ := hwf
        subst hname
        obtain ⟨p1, hstep, hinv1, -⟩ := inv_end hinv
        obtain ⟨p2, st2, rs2, hrun, hinv2, hwf2⟩ := ih rest _ rs p1 hinv1 hwf1
        refine ⟨p2, st2, rs2, ?_, hinv2, hwf2⟩
        rw [XmlEventParser.runEvents, XmlEventParser.handle, hstep]
        exact hrun
    | text contents =>
      exact hleaf { type := NodeType.Text, text := contents } (by simp) rfl
        (by simpa [wellFormedFrom] using hwf)
    | cdata contents =>
      exact hleaf { type := NodeType.CData, data := contents } (by simp) rfl
        (by simpa [wellFormedFrom] using hwf)
    | processing_instruction target data =>
      exact hleaf { type := NodeType.Instruction, target := target, data := data } (by simp)
        rfl (by simpa [wellFormedFrom] using hwf)
    | comment contents =>
      exact hleaf { type := NodeType.Comment, comment := contents } (by simp) rfl
        (by simpa [wellFormedFrom] using hwf)
    | warning message =>
      obtain ⟨p1, st1, rs1, hrun, hinv1, hwf1⟩ := ih rest st rs _ (inv_warning hinv message)
        (by simpa [wellFormedFrom] using hwf)
      refine ⟨p1, st1, rs1, ?_, hinv1, hwf1⟩
      rw [XmlEventParser.runEvents, XmlEventParser.handle]
      exact hrun

theorem wellFormed_closed_no_start : ∀ (rest : List Event),
    wellFormedFrom [] true rest = true → ∀ e ∈ rest, e.isStart = false := by
  intro rest
  induction rest with
  | nil => intro _ e he; cases he
  | cons x rest ih =>
    intro hwf e he
    cases x with
    | start_element name attrs => simp [wellFormedFrom] at hwf
    | end_element name => simp [wellFormedFrom] at hwf
    | text _ | cdata _ | comment _ | processing_instruction _ _ | warning _ =>
      simp only [wellFormedFrom] at hwf
      rcases List.mem_cons.mp he with rfl | he
      · rfl
      · exact ih hwf e he

/-! ## Lemmas on searching a pattern -/

theorem map_range_getElem? {α : Type} (l : List α) :
    (List.range l.length).map (fun i => l[i]?) = l.map some := by
  apply List.ext_getElem?
  intro i
  by_cases hi : i < l.length
  · simp [List.getElem?_map, List.getElem?_range hi, List.getElem?_eq_getElem hi]
  · have h1 : l.length ≤ i := Nat.le_of_not_lt hi
    simp [List.getElem?_eq_none, h1]

theorem parse_eq_of_get (o : Option (Bool × XmlEventParser)) (h : o.isSome = true)
    (h1 : (o.get h).1 = true) : o = some (true, (o.get h).2) := by
  cases o with
  | none => simp at h
  | some r =>
    obtain ⟨b, p⟩ := r
    simp only [Option.get_some] at h1
    subst h1
    rfl

/-- C1: a position in the name span or the value span of an attribute of a
Start node is not classified IsInAttributeName or IsInAttributeValue by
`StartNode::isIn`: the call never returns either value, and for
`<a x="1">hi<b/></a>` the node found at the offset of `x` (3) and at the
offset of `1` (6) is Start(a), whose attribute classifies the offsets as
name and value while the node itself answers IsInNode. -/
theorem C1_start_isIn_answers_IsInNode_on_attributes :
    (∀ (n : Node) (cursorPos : Int),
      (n.startIsIn cursorPos).1 ≠ IsInNodeType.IsInAttributeName ∧
      (n.startIsIn cursorPos).1 ≠ IsInNodeType.IsInAttributeValue) ∧
    scenarioParse.map (fun r =>
      (r.1, r.2.nodeForPosition 3, (r.2.node 0).attributes.map (fun a => a.isIn 3),
        (r.2.node 0).isIn 3)) =
      some (true, some 0, [IsInNodeType.IsInAttributeName], IsInNodeType.IsInNode) ∧
    scenarioParse.map (fun r =>
      (r.1, r.2.nodeForPosition 6, (r.2.node 0).attributes.map (fun a => a.isIn 6),
        (r.2.node 0).isIn 6)) =
      some (true, some 0, [IsInNodeType.IsInAttributeValue], IsInNodeType.IsInNode) := by
  refine ⟨?_, by decide, by decide⟩
  intro n cursorPos
  unfold Node.startIsIn
  by_cases h1 : n.nameIsIn cursorPos = IsInNodeType.IsInNode
  · simp only [h1, if_true]
    cases attributeHit cursorPos n.attributes 0 <;> simp
  · by_cases h2 : n.nameIsIn cursorPos = IsInNodeType.IsInName
    · simp [h2]
    · simp [h1, h2]

/-- C2: for every well-formed (balanced, single-rooted) event sequence
processed by a fresh parser, every handler returns true and every Start node
of the flat list ends up with a closer that is an End node of the flat list
with the same name. -/
theorem C2_every_start_has_matching_closer (document : Nat) (events : List Event)
    (hwf : wellFormed events = true) :
    ∃ p : XmlEventParser, (XmlEventParser.new document).runEvents events = some (true, p) ∧
      ∀ ptr ∈ p.m_nodes, ∃ nd : Node, p.heap[ptr]? = some nd ∧
        (nd.type = NodeType.Start →
          ∃ (k : Nat) (nk : Node), nd.closer = some k ∧ k ∈ p.m_nodes ∧
            p.heap[k]? = some nk ∧ nk.type = NodeType.End ∧ nk.name = nd.name) := by
  obtain ⟨p, hrun, hinv, -⟩ := run_wellFormed events [] false _ (inv_new document) hwf
  refine ⟨p, hrun, ?_⟩
  intro ptr hptr
  rw [hinv.nodes, List.mem_range] at hptr
  refine ⟨p.heap[ptr], List.getElem?_eq_getElem hptr, ?_⟩
  intro hs
  rcases hinv.closed ptr _ (List.getElem?_eq_getElem hptr) hs with ⟨nm, hm⟩ | ⟨k, nk, hc, hk, hty, hnm⟩
  · simp at hm
  · refine ⟨k, nk, hc, ?_, hk, hty, hnm⟩
    rw [hinv.nodes, List.mem_range]
    exact (List.getElem?_eq_some.mp hk).1

/-- C2 at the events of `<a x="1">hi<b/></a>`, where Start(a) is node 0 with
closer 4 and Start(b) is node 2 with closer 3. -/
theorem C2_every_start_has_matching_closer_witness :
    wellFormed scenarioEvents = true ∧
    (∃ p : XmlEventParser,
      (XmlEventParser.new 19).runEvents scenarioEvents = some (true, p) ∧
      ∀ ptr ∈ p.m_nodes, ∃ nd : Node, p.heap[ptr]? = some nd ∧
        (nd.type = NodeType.Start →
          ∃ (k : Nat) (nk : Node), nd.closer = some k ∧ k ∈ p.m_nodes ∧
            p.heap[k]? = some nk ∧ nk.type = NodeType.End ∧ nk.name = nd.name)) ∧
    ((XmlEventParser.new 19).runEvents scenarioEvents).map (fun r =>
      (r.1, r.2.m_nodes.map fun ptr => ((r.2.node ptr).type, (r.2.node ptr).closer))) =
      some (true, [(NodeType.Start, some 4), (NodeType.Text, none), (NodeType.Start, some 3),
        (NodeType.End, none), (NodeType.End, none)]) :=
  ⟨by decide, C2_every_start_has_matching_closer 19 scenarioEvents (by decide), by decide⟩

/-- C3: for every well-formed event sequence processed by a fresh parser,
the flat node list holds one newly created node per structural event
(element start, element end, text, comment, CDATA, processing instruction)
and nothing else, in event order, and each node has the type and the
content of its event. -/
theorem C3_one_node_per_event_in_order (document : Nat) (events : List Event)
    (hwf : wellFormed events = true) :
    ∃ p : XmlEventParser, (XmlEventParser.new document).runEvents events = some (true, p) ∧
      p.m_nodes = List.range (events.filter Event.isStructural).length ∧
      p.m_nodes.map (fun ptr => (p.heap[ptr]?).bind Node.event) =
        (events.filter Event.isStructural).map some := by
  obtain ⟨p, hrun, hinv, hev⟩ := run_wellFormed events [] false _ (inv_new document) hwf
  have hev' : p.heap.map Node.event = (events.filter Event.isStructural).map some := by
    simpa [XmlEventParser.new] using hev
  have hlen : p.heap.length = (events.filter Event.isStructural).length := by
    have := congrArg List.length hev'
    simpa using this
  refine ⟨p, hrun, by rw [hinv.nodes, hlen], ?_⟩
  rw [hinv.nodes, ← hev']
  have := congrArg (List.map fun o : Option Node => o.bind Node.event)
    (map_range_getElem? p.heap)
  simpa [List.map_map, Function.comp_def] using this

/-- C3 at the events of `<a x="1">hi<b/></a>`: the flat list is Start(a,
[(x,1)]), Text(hi), Start(b), End(b), End(a), with End(b) the closer of
Start(b) and End(a) the closer of Start(a). -/
theorem C3_one_node_per_event_in_order_witness :
    wellFormed scenarioEvents = true ∧
    (∃ p : XmlEventParser,
      (XmlEventParser.new 19).runEvents scenarioEvents = some (true, p) ∧
      p.m_nodes = List.range (scenarioEvents.filter Event.isStructural).length ∧
      p.m_nodes.map (fun ptr => (p.heap[ptr]?).bind Node.event) =
        (scenarioEvents.filter Event.isStructural).map some) ∧
    ((XmlEventParser.new 19).runEvents scenarioEvents).map (fun r =>
      (r.2.m_nodes, r.2.m_nodes.map (fun ptr => (r.2.node ptr).event),
        (r.2.node 2).closer, (r.2.node 0).closer)) =
      some ([0, 1, 2, 3, 4],
        [some (Event.start_element ['a'] [(['x'], ['1'])]), some (Event.text ['h', 'i']),
          some (Event.start_element ['b'] []), some (Event.end_element ['b']),
          some (Event.end_element ['a'])],
        some 3, some 4) :=
  ⟨by decide, C3_one_node_per_event_in_order 19 scenarioEvents (by decide), by decide⟩


/-- C4: the concatenation of `toString()` over the flat node list does not
reproduce the text: the parse of `<a x="1"></a>` succeeds, assigns Start(a)
the span [0,9) and End(a) the span [9,13), and serialises to
`<ax  1  ></a>`; the parse of `<a x="1">hi<b/></a>` serialises to
`<ax  1  >hi<b ></      ></a>`. -/
theorem C4_serialised_nodes_differ_from_text :
    attributeParse.map (fun r => (r.1, r.2.spans)) =
      some (true, [(NodeType.Start, 0, 1, 9), (NodeType.End, 9, 11, 13)]) ∧
    attributeParse.map (fun r => r.2.serialise) = some "<ax  1  ></a>".toList ∧
    "<ax  1  ></a>".toList ≠ attributeText ∧
    scenarioParse.map (fun r => (r.1, r.2.serialise)) =
      some (true, "<ax  1  >hi<b ></      ></a>".toList) ∧
    "<ax  1  >hi<b ></      ></a>".toList ≠ scenarioText := by
  refine ⟨by decide, by decide, by decide, by decide, by decide⟩

/-- C5: a second `parseString` on the same parser does not discard the
tree of the first. After the parse of `<a>hi</a>` the root is node 0 and the
current parent is null, so when the event source reports the events of the
text again `start_element` dereferences the null parent; and whatever a
parse is given, it keeps the root it found and every node of the flat list
it found, in their order. -/
theorem C5_second_parse_keeps_first_tree :
    simpleParse.map (fun r => (r.1, r.2.m_rootNode, r.2.m_parentNode, r.2.m_nodes)) =
      some (true, some 0, none, [0, 1, 2]) ∧
    (simpleParse.bind fun r => r.2.parseString simpleText simpleEvents true).isSome = false ∧
    (simpleParse.bind fun r => r.2.parseString simpleText [] true).map
        (fun r => (r.1, r.2.m_rootNode, r.2.m_nodes)) = some (true, some 0, [0, 1, 2]) ∧
    ∀ (p : XmlEventParser) (text : QString) (events : List Event) (finishOk b : Bool)
      (p1 : XmlEventParser), p.parseString text events finishOk = some (b, p1) →
      (∃ pre suf, p1.m_nodes = pre ++ p.m_nodes ++ suf) ∧
        ∀ r, p.m_rootNode = some r → p1.m_rootNode = some r := by
  refine ⟨by decide, by decide, by decide, ?_⟩
  intro p text events finishOk b p1 h
  exact parseString_retains p text events finishOk b p1 h

/-- C6: the parse of `<a><c></c><b x="a"></b></a>` succeeds and leaves
Start(b), node 3 of the flat list, with start 10 and end 3: the value `a` of
its attribute is searched from the beginning of the text and found at
offset 1, and the `>` that follows is the one of `<a>`. -/
theorem C6_start_after_end :
    repeatParse.map (fun r => (r.1, r.2.spans)) =
      some (true,
        [(NodeType.Start, 0, 1, 3), (NodeType.Start, 3, 4, 6), (NodeType.End, 6, 8, 10),
          (NodeType.Start, 10, 11, 3), (NodeType.End, 10, 11, 19),
          (NodeType.End, 23, 25, 27)]) ∧
    repeatParse.map (fun r => (r.2.node 3).attributes.map fun a => (a.name, a.value, a.valueStart)) =
      some [(['x'], ['a'], 1)] ∧
    repeatParse.map (fun r => decide ((r.2.node 3).start ≤ (r.2.node 3).end)) = some false := by
  refine ⟨by decide, by decide, by decide⟩

/-- C7, as stated, fails: in the parse of `<a>hi</a>` the node Text(hi),
node 1 of the flat list, has Start(a), node 0, for parent and is in its
children list, Start(a) spans [0,3) and Text(hi) spans [3,5), so the child
ends after its parent. -/
theorem C7_child_span_outside_parent_span :
    ∃ p : XmlEventParser, simpleParse = some (true, p) ∧ 1 ∈ p.m_nodes ∧
      (p.node 1).parent = some 0 ∧ 1 ∈ (p.node 0).children ∧
      ((p.node 0).start, (p.node 0).end) = (0, 3) ∧
      ((p.node 1).start, (p.node 1).end) = (3, 5) ∧
      ¬ ((p.node 0).start ≤ (p.node 1).start ∧ (p.node 1).end ≤ (p.node 0).end) :=
  ⟨_, parse_eq_of_get simpleParse (by decide) (by decide), by decide, by decide, by decide,
    by decide, by decide, by decide⟩

/-- C7, amended: for every well-formed event sequence processed by a fresh
parser, every node of the flat list that has a parent has for parent a Start
node of the flat list that comes before it, and that node's children list
contains it. -/
theorem C7_parent_is_earlier_start_listing_child (document : Nat) (events : List Event)
    (hwf : wellFormed events = true) :
    ∃ p : XmlEventParser, (XmlEventParser.new document).runEvents events = some (true, p) ∧
      ∀ child ∈ p.m_nodes, ∃ nd : Node, p.heap[child]? = some nd ∧
        ∀ parent : Nat, nd.parent = some parent →
          parent ∈ p.m_nodes ∧ parent < child ∧
          ∃ np : Node, p.heap[parent]? = some np ∧ np.type = NodeType.Start ∧
            child ∈ np.children := by
  obtain ⟨p, hrun, hinv, -⟩ := run_wellFormed events [] false _ (inv_new document) hwf
  refine ⟨p, hrun, ?_⟩
  intro child hchild
  rw [hinv.nodes, List.mem_range] at hchild
  refine ⟨p.heap[child], List.getElem?_eq_getElem hchild, ?_⟩
  intro parent hpar
  obtain ⟨hlt, np, hnp, hty, hmem⟩ :=
    hinv.parents child _ parent (List.getElem?_eq_getElem hchild) hpar
  refine ⟨?_, hlt, np, hnp, hty, hmem⟩
  rw [hinv.nodes, List.mem_range]
  exact (List.getElem?_eq_some.mp hnp).1

/-- C7, amended, at the events of `<a x="1">hi<b/></a>`: Text(hi) and
Start(b) have Start(a) for parent, and after the parse of the text their
spans [9,11) and [11,15) lie behind the span [0,9) of Start(a). -/
theorem C7_parent_is_earlier_start_listing_child_witness :
    wellFormed scenarioEvents = true ∧
    (∃ p : XmlEventParser, (XmlEventParser.new 19).runEvents scenarioEvents = some (true, p) ∧
      ∀ child ∈ p.m_nodes, ∃ nd : Node, p.heap[child]? = some nd ∧
        ∀ parent : Nat, nd.parent = some parent →
          parent ∈ p.m_nodes ∧ parent < child ∧
          ∃ np : Node, p.heap[parent]? = some np ∧ np.type = NodeType.Start ∧
            child ∈ np.children) ∧
    scenarioParse.map (fun r => (r.2.m_nodes.map (fun ptr => (r.2.node ptr).parent),
        (r.2.node 0).children)) = some ([none, some 0, some 0, none, none], [1, 2]) ∧
    scenarioParse.map (fun r => r.2.spans) =
      some [(NodeType.Start, 0, 1, 9), (NodeType.Text, 9, -1, 11), (NodeType.Start, 11, 12, 15),
        (NodeType.End, 0, 0, 9), (NodeType.End, 15, 17, 19)] :=
  ⟨by decide, C7_parent_is_earlier_start_listing_child 19 scenarioEvents (by decide),
    by decide, by decide⟩

/-- C8: position recovery misplaces tags. In
`<?xml version="1.0" encoding="UTF-8"?><r/>` the tag `<r/>` opens at offset
38, its name is at 39 and its `>` at 41, yet Start(r) gets start 0, name
start 8 (the `r` of `version`) and end 38, the span of the declaration, and
End(r) gets the offsets of the tag itself. In `<a x="1">hi<b/></a>` End(b)
gets start 0, name start 0 and end 9. -/
theorem C8_tag_offsets_misplaced :
    declarationParse.map (fun r => (r.1, r.2.spans)) =
      some (true, [(NodeType.XmlDeclaration, 0, 1, 38), (NodeType.Start, 0, 8, 38),
        (NodeType.End, 38, 39, 42)]) ∧
    (declarationText[38]?, declarationText[39]?, declarationText[41]?, declarationText[8]?) =
      (some '<', some 'r', some '>', some 'r') ∧
    scenarioParse.map (fun r => (r.1, r.2.spans)) =
      some (true, [(NodeType.Start, 0, 1, 9), (NodeType.Text, 9, -1, 11),
        (NodeType.Start, 11, 12, 15), (NodeType.End, 0, 0, 9), (NodeType.End, 15, 17, 19)]) := by
  refine ⟨by decide, by decide, by decide⟩

/-- C9: `nodeForPosition(p)` returns the first node of the flat list, in list
order, whose half-open span [start, end) contains `p`; it returns none
exactly when no node of the flat list contains `p`, in particular when `p`
is at or beyond the end of every node. -/
theorem C9_nodeForPosition_first_containing (p : XmlEventParser) (position : Int) :
    (∀ n : Nat, p.nodeForPosition position = some n ↔
      ∃ i : Nat, p.m_nodes[i]? = some n ∧
        ((p.node n).start ≤ position ∧ position < (p.node n).end) ∧
        ∀ (j : Nat) (m : Nat), j < i → p.m_nodes[j]? = some m →
          ¬ ((p.node m).start ≤ position ∧ position < (p.node m).end)) ∧
    (p.nodeForPosition position = none ↔
      ∀ n ∈ p.m_nodes, ¬ ((p.node n).start ≤ position ∧ position < (p.node n).end)) ∧
    ((∀ n ∈ p.m_nodes, (p.node n).end ≤ position) → p.nodeForPosition position = none) := by
  have hnone : p.nodeForPosition position = none ↔
      ∀ n ∈ p.m_nodes, ¬ ((p.node n).start ≤ position ∧ position < (p.node n).end) := by
    unfold XmlEventParser.nodeForPosition
    rw [loop_none]
    constructor
    · intro h n hn hc
      have := h n hn
      have hc2 : (deref p.heap n).contains position = true := (contains_iff _ _).mpr hc
      rw [hc2] at this
      exact absurd this (by simp)
    · intro h n hn
      have := h n hn
      rw [← contains_iff] at this
      simpa using this
  refine ⟨?_, hnone, ?_⟩
  · intro n
    unfold XmlEventParser.nodeForPosition
    rw [loop_some]
    constructor
    · rintro ⟨i, hi, hc, hfirst⟩
      refine ⟨i, hi, (contains_iff _ _).mp hc, ?_⟩
      intro j m hj hm hcm
      have := hfirst j m hj hm
      have hc2 : (deref p.heap m).contains position = true := (contains_iff _ _).mpr hcm
      rw [hc2] at this
      exact absurd this (by simp)
    · rintro ⟨i, hi, hc, hfirst⟩
      refine ⟨i, hi, (contains_iff _ _).mpr hc, ?_⟩
      intro j m hj hm
      have := hfirst j m hj hm
      rw [← contains_iff] at this
      simpa using this
  · intro h
    rw [hnone]
    intro n hn hc
    have := h n hn
    omega

/-- C10: after the parse of `<a x="1">hi<b/></a>` the node End(b), node 3
of the flat list, has the span [0,9), and for every offset of that span
`nodeForPosition` returns Start(a), node 0, not End(b). -/
theorem C10_contained_offset_returns_other_node :
    scenarioParse.map (fun r => (r.1, r.2.m_nodes, (r.2.node 3).type, (r.2.node 3).start,
        (r.2.node 3).end)) = some (true, [0, 1, 2, 3, 4], NodeType.End, 0, 9) ∧
    scenarioParse.map (fun r => (List.range 9).map fun i => r.2.nodeForPosition i) =
      some (List.replicate 9 (some 0)) := by
  refine ⟨by decide, by decide⟩

/-- C11: `end_element` returns false if and only if there is a current
parent Start node, the end tag's name differs from its name, and
halt-on-error is enabled; a freshly constructed parser has halt-on-error
enabled; with halt-on-error disabled the handler returns true on a mismatch
and leaves the current parent where it was. -/
theorem C11_end_element_halts_iff_mismatch_and_halt (p : XmlEventParser) (name : QString) :
    ((p.end_element name).1 = false ↔
      (∃ q : Nat, p.m_parentNode = some q ∧ (p.node q).type = NodeType.Start ∧
        name ≠ (p.node q).name) ∧ p.isHaltOnError = true) ∧
    (∀ document : Nat, (XmlEventParser.new document).isHaltOnError = true) ∧
    (∀ q : Nat, p.m_parentNode = some q → (p.node q).type = NodeType.Start →
      name ≠ (p.node q).name → p.isHaltOnError = false →
      (p.end_element name).1 = true ∧
        (p.end_element name).2.m_parentNode = p.m_parentNode) := by
  refine ⟨?_, fun _ => rfl, ?_⟩
  · unfold XmlEventParser.end_element XmlEventParser.isHaltOnError
    cases hp : p.m_parentNode with
    | none => simp
    | some q =>
      simp only [Option.some.injEq, exists_eq_left']
      by_cases hty : (p.node q).type = NodeType.Start
      · by_cases hn : name = (p.node q).name
        · simp [hty, hn]
        · cases hh : p.m_haltOnError <;> simp [hty, hn]
      · simp [hty]
  · intro q hq hty hn hh
    unfold XmlEventParser.isHaltOnError at hh
    unfold XmlEventParser.end_element
    simp [hq, hty, hn, hh]

/-- C12: for every event sequence that a fresh parser with halt-on-error
disabled runs through, every handler returns true; the error registry holds,
newest first, exactly one entry per end-element event that does not match
the innermost open element, each under the mismatch message and pointing to
an End node of its own that carries the name of that event and the
MismatchedNodes flag; and a node carries the flag if and only if the
registry points to it. -/
theorem C12_registry_mirrors_mismatches (document : Nat) (events : List Event) (b : Bool)
    (p : XmlEventParser)
    (hrun : ((XmlEventParser.new document).setHaltOnError false).runEvents events =
      some (b, p)) :
    b = true ∧
    p.errors.map (fun e => (e.1, (p.heap[e.2]?).map fun n =>
        (n.type, n.name, testFlag n.errors MismatchedNodes))) =
      (mismatchedEnds [] events).reverse.map
        (fun nm => (mismatchMessage, some (NodeType.End, nm, true))) ∧
    (p.errors.map Prod.snd).Nodup ∧
    ∀ (i : Nat) (nd : Node), p.heap[i]? = some nd →
      (testFlag nd.errors MismatchedNodes = true ↔ i ∈ p.errors.map Prod.snd) := by
  have h0 : ErrInv [] [] ((XmlEventParser.new document).setHaltOnError false) := by
    refine ⟨rfl, fun _ => rfl, rfl, ?_, ?_, ?_⟩
    · rfl
    · exact List.nodup_nil
    · intro i nd h
      simp [XmlEventParser.setHaltOnError, XmlEventParser.new] at h
  obtain ⟨hb, st1, hE⟩ := run_registers events [] [] _ b p h0 hrun
  simp only [List.map_nil, List.append_nil] at hE
  exact ⟨hb, hE.reg.1, hE.reg.2.1, hE.reg.2.2⟩

/-- C12 at the events of `<a><b></c></a>`: end c and end a both meet the
open Start(b), and the registry holds End(a), node 3, then End(c), node 2. -/
theorem C12_registry_mirrors_mismatches_witness :
    mismatchContinuing = some (true, (mismatchContinuing.get (by decide)).2) ∧
    (true = true ∧
    (mismatchContinuing.get (by decide)).2.errors.map (fun e => (e.1,
        ((mismatchContinuing.get (by decide)).2.heap[e.2]?).map fun n =>
          (n.type, n.name, testFlag n.errors MismatchedNodes))) =
      (mismatchedEnds [] mismatchEvents).reverse.map
        (fun nm => (mismatchMessage, some (NodeType.End, nm, true))) ∧
    ((mismatchContinuing.get (by decide)).2.errors.map Prod.snd).Nodup ∧
    ∀ (i : Nat) (nd : Node), (mismatchContinuing.get (by decide)).2.heap[i]? = some nd →
      (testFlag nd.errors MismatchedNodes = true ↔
        i ∈ (mismatchContinuing.get (by decide)).2.errors.map Prod.snd)) ∧
    mismatchedEnds [] mismatchEvents = [['c'], ['a']] ∧
    mismatchContinuing.map (fun r => r.2.errors) =
      some [(mismatchMessage, 3), (mismatchMessage, 2)] :=
  ⟨parse_eq_of_get mismatchContinuing (by decide) (by decide),
    C12_registry_mirrors_mismatches 14 mismatchEvents true _
      (parse_eq_of_get mismatchContinuing (by decide) (by decide)),
    by decide, by decide⟩

/-- C13, as stated, fails: when the events of `<a><b></c></a>` are run with
halt-on-error disabled, every handler returns true, but End(a) meets the
still open Start(b), is flagged MismatchedNodes like End(c) and stays out of
the flat list, and Start(a) is left without a closer. -/
theorem C13_start_a_gets_no_closer :
    mismatchContinuing.map (fun r => (r.1, r.2.m_nodes, r.2.m_parentNode, (r.2.node 0).closer)) =
      some (true, [0, 1], some 1, none) ∧
    mismatchContinuing.map (fun r => ((r.2.node 3).type, (r.2.node 3).name,
        testFlag (r.2.node 3).errors MismatchedNodes)) =
      some (NodeType.End, ['a'], true) := by
  refine ⟨by decide, by decide⟩

/-- C13, amended: for the events of `<a><b></c></a>` End(c) is flagged
MismatchedNodes against the open Start(b) and registered; with halt-on-error
enabled the end-c handler returns false and the pass stops there; with
halt-on-error disabled processing continues without ascending, so End(a) is
compared with Start(b), flagged and registered as well, and neither Start(a)
nor Start(b) receives a closer. -/
theorem C13_mismatch_scenario :
    mismatchHalting.map (fun r => (r.1, r.2.m_nodes, r.2.m_parentNode)) =
      some (false, [0, 1], some 1) ∧
    mismatchHalting.map (fun r => r.2.errors) = some [(mismatchMessage, 2)] ∧
    mismatchHalting.map (fun r => ((r.2.node 1).type, (r.2.node 1).name, (r.2.node 2).type,
        (r.2.node 2).name, testFlag (r.2.node 2).errors MismatchedNodes)) =
      some (NodeType.Start, ['b'], NodeType.End, ['c'], true) ∧
    mismatchHalting.map (fun r => (r.2.heap.length, r.2.emitted)) =
      some (3, [Signal.sendError mismatchMessage]) ∧
    mismatchContinuing.map (fun r => (r.1, r.2.m_nodes, r.2.m_parentNode)) =
      some (true, [0, 1], some 1) ∧
    mismatchContinuing.map (fun r => r.2.errors) =
      some [(mismatchMessage, 3), (mismatchMessage, 2)] ∧
    mismatchContinuing.map (fun r => (r.2.heap.map fun n =>
        (n.type, n.name, testFlag n.errors MismatchedNodes, n.closer))) =
      some [(NodeType.Start, ['a'], false, none), (NodeType.Start, ['b'], false, none),
        (NodeType.End, ['c'], true, none), (NodeType.End, ['a'], true, none)] := by
  refine ⟨by decide, by decide, by decide, by decide, by decide, by decide, by decide⟩

/-- C15: `getXmlDeclaration` takes the processing instruction of
`<?xml-stylesheet href="s.xsl"?><r/>` for a declaration: after the parse an
XmlDeclaration node with the span [0,31) of the instruction stands at the
front of the flat list. Only a text in which the pattern `<?xml…?>` occurs
nowhere leaves the parser as it was. -/
theorem C15_stylesheet_taken_for_declaration :
    stylesheetParse.map (fun r => (r.1, r.2.m_nodes)) = some (true, [3, 0, 1, 2]) ∧
    stylesheetParse.map (fun r => r.2.spans) =
      some (
        [(NodeType.XmlDeclaration, 0, 1, 31), (NodeType.Instruction, 0, -1, 31),
          (NodeType.Start, 31, 32, 35), (NodeType.End, 0, 0, 31)]) ∧
    ((XmlEventParser.new 35).getXmlDeclaration stylesheetText).m_nodes = [0] ∧
    (∀ (p : XmlEventParser) (text : QString), reMatch XMLDECL_REGEX text 0 = none →
      p.getXmlDeclaration text = p) := by
  refine ⟨by decide, by decide, by decide, ?_⟩
  intro p text h
  unfold XmlEventParser.getXmlDeclaration
  rw [h]

/-- C17, as stated, fails: the Comment node of `<!-- note --><r/>` holds the
content ` note ` with its blanks, which is not the trimmed content `note`. -/
theorem C17_comment_is_not_trimmed :
    commentParse.map (fun r => (r.1, r.2.m_nodes, (r.2.node 0).type, (r.2.node 0).comment)) =
      some (true, [0, 1, 2], NodeType.Comment, " note ".toList) ∧
    trimmed " note ".toList = "note".toList ∧
    " note ".toList ≠ trimmed " note ".toList := by
  refine ⟨by decide, by decide, by decide⟩

/-- C17, amended: in a well-formed event sequence, a comment event that
arrives before any element produces a Comment node with no parent whose
comment field is the content of the event as reported, untrimmed, and every
Start node, the root included, comes after it in the flat list (the flat
list holds the nodes in the order of their pointers). -/
theorem C17_comment_before_root (document : Nat) (pre : List Event) (contents : QString)
    (rest : List Event) (hpre : ∀ e ∈ pre, e.isStart = false)
    (hwf : wellFormed (pre ++ Event.comment contents :: rest) = true) :
    ∃ p : XmlEventParser,
      (XmlEventParser.new document).runEvents (pre ++ Event.comment contents :: rest) =
        some (true, p) ∧
      p.m_nodes = List.range p.heap.length ∧
      ∃ nd : Node, p.heap[(pre.filter Event.isStructural).length]? = some nd ∧
        nd.type = NodeType.Comment ∧ nd.comment = contents ∧ nd.parent = none ∧
        ∀ (j : Nat) (nj : Node), p.heap[j]? = some nj → nj.type = NodeType.Start →
          (pre.filter Event.isStructural).length < j := by
  obtain ⟨p, hrun, hinv, hev⟩ := run_wellFormed _ [] false _ (inv_new document) hwf
  have hev' : p.heap.map Node.event =
      ((pre.filter Event.isStructural) ++
        Event.comment contents :: rest.filter Event.isStructural).map some := by
    simpa [XmlEventParser.new, Event.isStructural] using hev
  generalize hfp : pre.filter Event.isStructural = fp at hev'
  have hfpre : ∀ e ∈ fp, e.isStart = false := by
    intro e he
    rw [← hfp] at he
    exact hpre e (List.mem_filter.mp he).1
  -- the events of the nodes before the comment are events of `pre`
  have hbefore : ∀ (j : Nat) (nj : Node), j < fp.length → p.heap[j]? = some nj →
      nj.type ≠ NodeType.Start := by
    intro j nj hj hnj hty
    obtain ⟨e, he, hs⟩ := event_of_start nj hty
    have h1 : (p.heap.map Node.event)[j]? = some (some e) := by
      rw [List.getElem?_map, hnj]; simp [he]
    rw [hev', List.getElem?_map, List.getElem?_append_left hj] at h1
    have h2 : fp[j]? = some e := by
      cases hx : fp[j]? with
      | none => rw [hx] at h1; simp at h1
      | some x => rw [hx] at h1; simp at h1; rw [h1]
    have := hfpre e (List.mem_iff_getElem?.mpr ⟨j, h2⟩)
    rw [hs] at this
    exact absurd this (by simp)
  have hat : (p.heap.map Node.event)[fp.length]? = some (some (Event.comment contents)) := by
    rw [hev', List.getElem?_map, List.getElem?_append_right (le_refl _)]
    simp
  rw [List.getElem?_map] at hat
  cases hnd : p.heap[fp.length]? with
  | none => rw [hnd] at hat; simp at hat
  | some nd =>
    rw [hnd] at hat
    simp only [Option.map_some', Option.some.injEq] at hat
    obtain ⟨hty, hc⟩ := event_comment nd contents hat
    refine ⟨p, hrun, hinv.nodes, nd, ?_, hty, hc, ?_, ?_⟩
    · exact hnd
    · cases hpar : nd.parent with
      | none => rfl
      | some q =>
        obtain ⟨hlt, nq, hnq, htq, -⟩ := hinv.parents _ nd q hnd hpar
        exact absurd htq (hbefore q nq hlt hnq)
    · intro j nj hnj htj
      by_contra hle
      rcases Nat.lt_or_eq_of_le (Nat.le_of_not_lt hle) with hlt | heq
      · exact hbefore j nj hlt hnj htj
      · subst heq
        rw [hnd] at hnj
        obtain rfl := Option.some.inj hnj
        rw [hty] at htj
        exact absurd htj (by simp)

/-- C17, amended, at the events of `<!-- note --><r/>`: the Comment node is
node 0 with the content ` note ` and no parent, Start(r) is node 1. -/
theorem C17_comment_before_root_witness :
    (∀ e ∈ ([] : List Event), e.isStart = false) ∧
    wellFormed ([] ++ Event.comment " note ".toList ::
      [Event.start_element "r".toList [], Event.end_element "r".toList]) = true ∧
    (∃ p : XmlEventParser,
      (XmlEventParser.new 17).runEvents ([] ++ Event.comment " note ".toList ::
        [Event.start_element "r".toList [], Event.end_element "r".toList]) = some (true, p) ∧
      p.m_nodes = List.range p.heap.length ∧
      ∃ nd : Node, p.heap[(([] : List Event).filter Event.isStructural).length]? = some nd ∧
        nd.type = NodeType.Comment ∧ nd.comment = " note ".toList ∧ nd.parent = none ∧
        ∀ (j : Nat) (nj : Node), p.heap[j]? = some nj → nj.type = NodeType.Start →
          (([] : List Event).filter Event.isStructural).length < j) ∧
    commentParse.map (fun r => (r.2.m_nodes, r.2.m_rootNode, (r.2.node 0).parent)) =
      some ([0, 1, 2], some 1, none) :=
  ⟨by simp, by decide,
    C17_comment_before_root 17 [] " note ".toList
      [Event.start_element "r".toList [], Event.end_element "r".toList] (by simp) (by decide),
    by decide⟩

/-- C18: `start_element` creates a Start node with the event's name and
appends it to the flat list. If no root exists the node becomes the root and
the current parent and has no parent. If a root exists and the current
parent is a live node, the new node is appended as the last child of the
current parent, has it for parent, and becomes the current parent; the root
and every other object stay as they were. -/
theorem C18_start_element_links (p : XmlEventParser) (name : QString)
    (attrs : List (QString × QString)) :
    (p.m_rootNode = none →
      ∃ (p1 : XmlEventParser) (node : Node),
        p.start_element name attrs = some (true, p1) ∧ p1.heap = p.heap ++ [node] ∧
        node.type = NodeType.Start ∧ node.name = name ∧ node.parent = none ∧
        p1.m_nodes = p.m_nodes ++ [p.heap.length] ∧
        p1.m_rootNode = some p.heap.length ∧ p1.m_parentNode = some p.heap.length) ∧
    (∀ (root parent : Nat) (par : Node), p.m_rootNode = some root →
      p.m_parentNode = some parent → p.heap[parent]? = some par →
      ∃ (p1 : XmlEventParser) (node par1 : Node),
        p.start_element name attrs = some (true, p1) ∧
        p1.heap.length = p.heap.length + 1 ∧ p1.heap[p.heap.length]? = some node ∧
        node.type = NodeType.Start ∧ node.name = name ∧ node.parent = some parent ∧
        p1.m_nodes = p.m_nodes ++ [p.heap.length] ∧
        p1.m_rootNode = some root ∧ p1.m_parentNode = some p.heap.length ∧
        p1.heap[parent]? = some par1 ∧ par1.children = par.children ++ [p.heap.length] ∧
        par1.parent = par.parent ∧ par1.type = par.type ∧ par1.name = par.name ∧
        ∀ i : Nat, i < p.heap.length → i ≠ parent → p1.heap[i]? = p.heap[i]?) := by
  constructor
  · intro hroot
    simp only [XmlEventParser.start_element, hroot]
    exact ⟨_, _, rfl, rfl, rfl, rfl, rfl, rfl, rfl, rfl⟩
  · intro root parent par hroot hparent hpar
    have hi : parent < p.heap.length := (List.getElem?_eq_some.mp hpar).1
    simp only [XmlEventParser.start_element, hroot, hparent]
    refine ⟨_, _, { par with children := par.children ++ [p.heap.length] }, rfl, ?_,
      step_new _ _ _ _ hi, rfl, rfl, rfl, rfl, rfl, rfl, ?_, rfl, rfl, rfl, rfl, ?_⟩
    · simp [length_update]
    · rw [step_old _ _ _ _ _ _ hpar, if_pos rfl]
    · intro i hi1 hne
      have hg : p.heap[i]? = some p.heap[i] := List.getElem?_eq_getElem hi1
      rw [step_old _ _ _ _ _ _ hg, if_neg hne, hg]

/-- C18 at a fresh parser, where the node becomes the root, and at a parser
in which `a` is open, where it becomes the child of Start(a). -/
theorem C18_start_element_links_witness :
    (∃ (p1 : XmlEventParser) (node : Node),
        (XmlEventParser.new 0).start_element "a".toList [] = some (true, p1) ∧
        p1.heap = (XmlEventParser.new 0).heap ++ [node] ∧
        node.type = NodeType.Start ∧ node.name = "a".toList ∧ node.parent = none ∧
        p1.m_nodes = (XmlEventParser.new 0).m_nodes ++ [(XmlEventParser.new 0).heap.length] ∧
        p1.m_rootNode = some (XmlEventParser.new 0).heap.length ∧
        p1.m_parentNode = some (XmlEventParser.new 0).heap.length) ∧
    (openedParser.m_rootNode, openedParser.m_parentNode, openedParser.heap.length) =
      (some 0, some 0, 1) ∧
    ((openedParser.start_element "b".toList []).map fun r =>
        (r.1, r.2.m_nodes, r.2.m_rootNode, r.2.m_parentNode)) =
      some (true, [0, 1], some 0, some 1) ∧
    ((openedParser.start_element "b".toList []).map fun r =>
        ((r.2.node 0).children, (r.2.node 1).parent)) = some ([1], some 0) :=
  ⟨(C18_start_element_links (XmlEventParser.new 0) "a".toList []).1 rfl, by decide, by decide,
    by decide⟩

/-- C19: each text, CDATA, processing-instruction and comment handler
returns true and creates one node of the type and with the content of its
event, appended to the end of the flat list, with the current parent for
parent. When the current parent is a live node, the new node is appended as
its last child and no other children list changes; when there is no current
parent, no children list changes and the new node is in none. The current
parent and the root stay as they were. -/
theorem C19_leaf_handlers (p : XmlEventParser) (e : Event) (he : e.isLeaf = true)
    (hlive : ∀ parent : Nat, p.m_parentNode = some parent → parent < p.heap.length)
    (hchildren : ∀ nd ∈ p.heap, ∀ c ∈ nd.children, c < p.heap.length) :
    ∃ (p1 : XmlEventParser) (node : Node),
      p.handle e = some (true, p1) ∧
      p1.heap.length = p.heap.length + 1 ∧ p1.heap[p.heap.length]? = some node ∧
      node.event = some e ∧ node.parent = p.m_parentNode ∧
      p1.m_nodes = p.m_nodes ++ [p.heap.length] ∧
      p1.m_parentNode = p.m_parentNode ∧ p1.m_rootNode = p.m_rootNode ∧
      (∀ (i : Nat) (nd : Node), p.heap[i]? = some nd →
        ∃ nd1 : Node, p1.heap[i]? = some nd1 ∧ nd1.parent = nd.parent ∧
          nd1.children =
            if p.m_parentNode = some i then nd.children ++ [p.heap.length] else nd.children) ∧
      (p.m_parentNode = none →
        ∀ (i : Nat) (nd : Node), p1.heap[i]? = some nd → p.heap.length ∉ nd.children) := by
  have key : ∀ node : Node, node.children = [] →
      ∃ (p1 : XmlEventParser) (node1 : Node),
        some (p.addLeaf node) = some (true, p1) ∧
        p1.heap.length = p.heap.length + 1 ∧ p1.heap[p.heap.length]? = some node1 ∧
        node1.event = node.event ∧ node1.parent = p.m_parentNode ∧
        p1.m_nodes = p.m_nodes ++ [p.heap.length] ∧
        p1.m_parentNode = p.m_parentNode ∧ p1.m_rootNode = p.m_rootNode ∧
        (∀ (i : Nat) (nd : Node), p.heap[i]? = some nd →
          ∃ nd1 : Node, p1.heap[i]? = some nd1 ∧ nd1.parent = nd.parent ∧
            nd1.children =
              if p.m_parentNode = some i then nd.children ++ [p.heap.length]
              else nd.children) ∧
        (p.m_parentNode = none →
          ∀ (i : Nat) (nd : Node), p1.heap[i]? = some nd → p.heap.length ∉ nd.children) := by
    intro node hnc
    cases hpn : p.m_parentNode with
    | none =>
      simp only [XmlEventParser.addLeaf, hpn]
      refine ⟨_, { node with parent := none }, rfl, by simp, by simp, rfl, rfl, rfl, rfl, rfl,
        ?_, ?_⟩
      · intro i nd hnd
        have hi : i < p.heap.length := (List.getElem?_eq_some.mp hnd).1
        exact ⟨nd, by rw [List.getElem?_append_left hi, hnd], rfl, by simp⟩
      · intro _ i nd hnd hmem
        rcases append_cases _ _ _ _ hnd with hold | ⟨-, hnew⟩
        · have := hchildren nd (List.getElem?_mem hold) _ hmem
          omega
        · subst hnew
          simp [hnc] at hmem
    | some parent =>
      have hi : parent < p.heap.length := hlive parent hpn
      simp only [XmlEventParser.addLeaf, hpn]
      refine ⟨_, { node with parent := some parent }, rfl, by simp [length_update],
        step_new _ _ _ _ hi, rfl, rfl, rfl, rfl, rfl, ?_, ?_⟩
      · intro i nd hnd
        refine ⟨_, step_old _ _ _ _ _ _ hnd, ?_, ?_⟩
        · split <;> rfl
        · by_cases hip : i = parent
          · subst hip; simp
          · have : ¬ (some parent = some i) := fun h => hip (Option.some.inj h).symm
            simp [hip, this]
      · intro h; simp at h
  cases e with
  | text contents => exact key { type := NodeType.Text, text := contents } rfl
  | cdata contents => exact key { type := NodeType.CData, data := contents } rfl
  | processing_instruction target data =>
    exact key { type := NodeType.Instruction, target := target, data := data } rfl
  | comment contents => exact key { type := NodeType.Comment, comment := contents } rfl
  | start_element _ _ => simp [Event.isLeaf] at he
  | end_element _ => simp [Event.isLeaf] at he
  | warning _ => simp [Event.isLeaf] at he

/-- C19 at a text event in a parser in which `a` is open, and at a comment
event in a fresh parser. -/
theorem C19_leaf_handlers_witness :
    (Event.text "hi".toList).isLeaf = true ∧
    (∀ parent : Nat, openedParser.m_parentNode = some parent →
      parent < openedParser.heap.length) ∧
    (∀ nd ∈ openedParser.heap, ∀ c ∈ nd.children, c < openedParser.heap.length) ∧
    (∃ (p1 : XmlEventParser) (node : Node),
      openedParser.handle (Event.text "hi".toList) = some (true, p1) ∧
      p1.heap.length = openedParser.heap.length + 1 ∧
      p1.heap[openedParser.heap.length]? = some node ∧
      node.event = some (Event.text "hi".toList) ∧ node.parent = openedParser.m_parentNode ∧
      p1.m_nodes = openedParser.m_nodes ++ [openedParser.heap.length] ∧
      p1.m_parentNode = openedParser.m_parentNode ∧
      p1.m_rootNode = openedParser.m_rootNode ∧
      (∀ (i : Nat) (nd : Node), openedParser.heap[i]? = some nd →
        ∃ nd1 : Node, p1.heap[i]? = some nd1 ∧ nd1.parent = nd.parent ∧
          nd1.children =
            if openedParser.m_parentNode = some i then
              nd.children ++ [openedParser.heap.length]
            else nd.children) ∧
      (openedParser.m_parentNode = none →
        ∀ (i : Nat) (nd : Node), p1.heap[i]? = some nd →
          openedParser.heap.length ∉ nd.children)) ∧
    ((openedParser.handle (Event.text "hi".toList)).map fun r =>
        (r.1, r.2.m_nodes, (r.2.node 0).children, (r.2.node 1).parent)) =
      some (true, [0, 1], [1], some 0) ∧
    (((XmlEventParser.new 0).handle (Event.comment "c".toList)).map fun r =>
        (r.1, r.2.m_nodes, (r.2.node 0).parent, r.2.m_rootNode)) =
      some (true, [0], none, none) :=
  have hlive : ∀ parent : Nat, openedParser.m_parentNode = some parent →
      parent < openedParser.heap.length := by
    intro parent h
    have h0 : openedParser.m_parentNode = some 0 := by decide
    rw [h0] at h
    obtain rfl := Option.some.inj h
    decide
  ⟨by decide, hlive, by decide,
    C19_leaf_handlers openedParser (Event.text "hi".toList) (by decide) hlive (by decide),
    by decide, by decide⟩

/-- C20: whenever `start_element` runs through (there is no root yet, or
there is a current parent), the Start node it creates has an attribute list
of the same length as the event's list, holding the same (name, value) pairs
in the same order, so that attributes with equal names are all kept. -/
theorem C20_attributes_kept_in_order (p : XmlEventParser) (name : QString)
    (attrs : List (QString × QString))
    (hok : p.m_rootNode = none ∨ p.m_parentNode.isSome = true) :
    ∃ (p1 : XmlEventParser) (node : Node),
      p.start_element name attrs = some (true, p1) ∧
      p1.heap[p.heap.length]? = some node ∧ node.type = NodeType.Start ∧
      node.attributes.length = attrs.length ∧
      node.attributes.map (fun a => (a.name, a.value)) = attrs := by
  have hlen : (makeAttributes attrs).length = attrs.length := by
    simp [makeAttributes]
  cases hroot : p.m_rootNode with
  | none =>
    simp only [XmlEventParser.start_element, hroot]
    exact ⟨_, { type := NodeType.Start, name := name, attributes := makeAttributes attrs },
      rfl, by simp, rfl, hlen, makeAttributes_pairs attrs⟩
  | some root =>
    rcases hok with h | h
    · rw [hroot] at h; simp at h
    · cases hpar : p.m_parentNode with
      | none => rw [hpar] at h; simp at h
      | some parent =>
        simp only [XmlEventParser.start_element, hroot, hpar]
        by_cases hp : p.heap.length = parent
        · refine ⟨_,
            { type := NodeType.Start, name := name, parent := some parent,
              children := [p.heap.length], attributes := makeAttributes attrs },
            rfl, ?_, rfl, hlen, makeAttributes_pairs attrs⟩
          rw [getElem?_update, if_pos hp]
          simp
        · refine ⟨_,
            { type := NodeType.Start, name := name, parent := some parent,
              children := [], attributes := makeAttributes attrs },
            rfl, ?_, rfl, hlen, makeAttributes_pairs attrs⟩
          rw [getElem?_update, if_neg hp]
          simp

/-- C20 at an event with two attributes named `x`, on a fresh parser: both
are kept, in their order. -/
theorem C20_attributes_kept_in_order_witness :
    ((XmlEventParser.new 0).m_rootNode = none ∨
      (XmlEventParser.new 0).m_parentNode.isSome = true) ∧
    (∃ (p1 : XmlEventParser) (node : Node),
      (XmlEventParser.new 0).start_element "a".toList
        [("x".toList, "1".toList), ("x".toList, "2".toList)] = some (true, p1) ∧
      p1.heap[(XmlEventParser.new 0).heap.length]? = some node ∧
      node.type = NodeType.Start ∧
      node.attributes.length = [("x".toList, "1".toList), ("x".toList, "2".toList)].length ∧
      node.attributes.map (fun a => (a.name, a.value)) =
        [("x".toList, "1".toList), ("x".toList, "2".toList)]) :=
  ⟨Or.inl rfl, C20_attributes_kept_in_order (XmlEventParser.new 0) "a".toList
    [("x".toList, "1".toList), ("x".toList, "2".toList)] (Or.inl rfl)⟩

/-- C21: for every node, whatever its type, and every position, `isIn`
returns NotInNode if and only if the position is outside the span
[start, end) of the node. -/
theorem C21_notInNode_iff_outside_span (n : Node) (position : Int) :
    n.isIn position = IsInNodeType.NotInNode ↔ ¬ (n.start ≤ position ∧ position < n.end) := by
  have hbase : ∀ c : Prop, [Decidable c] →
      ((if c then IsInNodeType.IsInNode else IsInNodeType.NotInNode) = IsInNodeType.IsInNode
        ↔ c) := by
    intro c _; by_cases h : c <;> simp [h]
  unfold Node.isIn
  by_cases hin : position ≥ n.start ∧ position < n.end
  · have hb : n.baseIsIn position = IsInNodeType.IsInNode := by
      unfold Node.baseIsIn; rw [if_pos hin]
    have hin2 : n.start ≤ position ∧ position < n.end := ⟨hin.1, hin.2⟩
    cases n.type <;>
      simp only [Node.nameIsIn, Node.textIsIn, Node.startIsIn, Node.cdataIsIn,
        Node.instructionIsIn, Node.commentIsIn, hb, if_true] <;>
      simp only [hin2, and_self, not_true_eq_false, iff_false] <;>
      (repeat' split) <;> simp_all
  · have hb : n.baseIsIn position = IsInNodeType.NotInNode := by
      unfold Node.baseIsIn; rw [if_neg hin]
    have hin2 : ¬ (n.start ≤ position ∧ position < n.end) := fun h => hin ⟨h.1, h.2⟩
    cases n.type <;>
      simp only [Node.nameIsIn, Node.textIsIn, Node.startIsIn, Node.cdataIsIn,
        Node.instructionIsIn, Node.commentIsIn, hb] <;>
      simp [hin2]

/-- C22: neither overload of `parseFile` reports the outcome of the parse.
`parseFile(QFile&)` returns false whatever happens and
`parseFile(const QString&)` returns true whatever happens: for an existing,
readable file that holds `<a>hi</a>`, `parseString` returns true on the text
and `parseFile(QFile&)` returns false; for one that holds `<a><b></c></a>`,
`parseString` returns false and `parseFile(const QString&)` returns true. -/
theorem C22_parseFile_ignores_the_outcome :
    (∀ (p : XmlEventParser) (file : QFile) (events : List Event) (finishOk : Bool)
        (r : Bool × XmlEventParser),
      p.parseFile file events finishOk = some r → r.1 = false) ∧
    (∀ (p : XmlEventParser) (fs : QString → QFile) (filename : QString) (events : List Event)
        (finishOk : Bool) (r : Bool × XmlEventParser),
      p.parseFileName fs filename events finishOk = some r → r.1 = true) ∧
    ((XmlEventParser.new simpleText.length).parseString simpleText simpleEvents true).map
      Prod.fst = some true ∧
    ((XmlEventParser.new simpleText.length).parseFile
      { fileExists := true, opens := true, contents := simpleText } simpleEvents true).map
      Prod.fst = some false ∧
    ((XmlEventParser.new 14).parseString "<a><b></c></a>".toList mismatchEvents false).map
      Prod.fst = some false ∧
    ((XmlEventParser.new 14).parseFileName
      (fun _ => { fileExists := true, opens := true, contents := "<a><b></c></a>".toList })
      "m.xml".toList mismatchEvents false).map Prod.fst = some true := by
  refine ⟨?_, ?_, by decide, by decide, by decide, by decide⟩
  · intro p file events finishOk r h
    unfold XmlEventParser.parseFile at h
    split at h
    · split at h
      · split at h
        · cases h
        · cases h; rfl
      · cases h; rfl
    · cases h; rfl
  · intro p fs filename events finishOk r h
    unfold XmlEventParser.parseFileName at h
    simp only at h
    split at h
    · split at h
      · split at h
        · cases h
        · cases h; rfl
      · cases h; rfl
    · cases h; rfl

/-- C23: position recovery puts the end of a CData node 4 characters after
the end of its data, not 3. In `<a><![CDATA[x]]></a>` the section is
[3,16) with its data at 12, and the node gets the span [3,17), which runs
into the end tag at [16,20). In general, when the data is found at an offset
`d` with 9 ≤ d and d + length + 4 within the document, start is
dataStart - 9 and end is dataStart + dataLength + 4. -/
theorem C23_cdata_end_is_four_after_data :
    cdataParse.map (fun r => (r.1, r.2.m_nodes)) = some (true, [0, 1, 2]) ∧
    cdataParse.map (fun r => ((r.2.node 1).type, (r.2.node 1).start, (r.2.node 1).dataStart,
        (r.2.node 1).dataLength, (r.2.node 1).end)) = some (NodeType.CData, 3, 12, 1, 17) ∧
    cdataParse.map (fun r => ((r.2.node 2).type, (r.2.node 2).start, (r.2.node 2).end)) =
      some (NodeType.End, 16, 20) ∧
    (∀ (p : XmlEventParser) (text : QString) (node : Node) (pos : Int),
      node.type = NodeType.CData → 9 ≤ indexOf text node.data pos →
      indexOf text node.data pos + node.dataLength + 4 ≤ p.m_document →
      (positionNode p text node pos).1.start = (positionNode p text node pos).1.dataStart - 9 ∧
      (positionNode p text node pos).1.end =
        (positionNode p text node pos).1.dataStart +
          (positionNode p text node pos).1.dataLength + 4) := by
  refine ⟨by decide, by decide, by decide, ?_⟩
  intro p text node pos hty h9 hdoc
  have hlen : (0 : Int) ≤ node.dataLength := by simp [Node.dataLength]
  simp only [positionNode, hty, Node.start, Node.end, Node.dataStart, Node.dataLength] at *
  rw [createCursor_eq p _ (by omega) (by omega), createCursor_eq p _ (by omega) (by omega),
    createCursor_eq p _ (by omega) (by omega)]
  constructor <;> ring

/-- C24: the search cursor of `calculateNodePositions` moves backward. In
the position recovery of `<a><c></c><b x="a"></b></a>` the cursor stands at 14
after the `=` of the attribute, and the search for the attribute's value `a`,
which starts at the head of the text, sets it to 1. The list gives every
value of the cursor in order, the initial 0 first; its last value for a node
is the position the loop body leaves. -/
theorem C24_cursor_moves_backward :
    repeatParse = some (true,
      (treeBeforePositions repeatText.length repeatText repeatEvents).calculateNodePositions
        repeatText) ∧
    (treeBeforePositions repeatText.length repeatText repeatEvents).cursorValues repeatText =
      [0, 1, 2, 2, 3, 4, 5, 5, 6, 8, 9, 9, 10, 11, 12, 13, 14, 14, 1, 2, 2, 3, 11, 12, 18, 19,
        25, 26, 26, 27] ∧
    (((treeBeforePositions repeatText.length repeatText repeatEvents).cursorValues
        repeatText).zip
      ((treeBeforePositions repeatText.length repeatText repeatEvents).cursorValues
        repeatText).tail).filter (fun ab => decide (ab.2 < ab.1)) = [(14, 1)] ∧
    (∀ (p : XmlEventParser) (text : QString) (node : Node) (pos : Int),
      (nodeCursorValues text node pos).getLastD pos = (positionNode p text node pos).2) := by
  refine ⟨rfl, by decide, by decide, ?_⟩
  intro p text node pos
  exact nodeCursorValues_last p text node pos

/-- C25: position recovery searches the value of an attribute from the head
of the text, not from the `=`. In `<a1 x="1"></a1>` the attribute `x` has its
name at 4, its `=` at 5 and its value at 2, the `1` of the tag name, which is
before the `=`; the first occurrence of the value at or after the `=` is at
7. For every attribute with a value the value cursor is the cursor at the
first occurrence of the value in the whole text, wherever the search
position is. -/
theorem C25_value_searched_from_head_of_text :
    digitParse.map (fun r => (r.1, r.2.m_nodes)) = some (true, [0, 1]) ∧
    digitParse.map (fun r => (r.2.node 0).attributes.map fun a => (a.name, a.value)) =
      some [("x".toList, "1".toList)] ∧
    digitParse.map (fun r => (r.2.node 0).attributes.map fun a =>
      (a.nameStart, a.nameLength, a.assignCursor, a.valueStart)) = some [(4, 1, 5, 2)] ∧
    indexOf digitText "1".toList 5 = 7 ∧
    (∀ (p : XmlEventParser) (text : QString) (attr : XmlAttribute) (rest : List XmlAttribute)
        (pos : Int), attr.hasValue = true →
      (positionAttributes p text (attr :: rest) pos).1.head?.map XmlAttribute.valueStart =
        some (p.createCursor (indexOf text attr.value 0))) := by
  refine ⟨by decide, by decide, by decide, by decide, ?_⟩
  intro p text attr rest pos hv
  have hv1 : XmlAttribute.hasValue
      { name := attr.name, nameStartCursor := p.createCursor (indexOf text attr.name pos),
        value := attr.value, valueStartCursor := attr.valueStartCursor,
        assignCursor := p.createCursor (indexOfChar text '=' (indexOf text attr.name pos +
          XmlAttribute.nameLength
            { name := attr.name, nameStartCursor := p.createCursor (indexOf text attr.name pos),
              value := attr.value, valueStartCursor := attr.valueStartCursor,
              assignCursor := attr.assignCursor })) } = true := hv
  simp only [positionAttributes, hv1, if_true, List.head?_cons, Option.map_some',
    XmlAttribute.valueStart]

/-- C26: after a parse by a fresh parser that returned true, every Start,
End, Text, Comment, CData and Instruction node of the flat list whose span
satisfies 0 ≤ start ≤ end ≤ length of the text has in `newLines` the offsets
`i` with start ≤ i < end at which the text has a newline, all of them and
nothing else, in strictly ascending order. -/
theorem C26_newLines_are_the_newlines_of_the_span (document : Nat) (text : QString)
    (events : List Event) (finishOk : Bool) (p : XmlEventParser)
    (hparse : (XmlEventParser.new document).parseString text events finishOk = some (true, p))
    (ptr : Nat) (hptr : ptr ∈ p.m_nodes)
    (htype : (p.node ptr).type ∈ [NodeType.Start, NodeType.End, NodeType.Text,
      NodeType.Comment, NodeType.CData, NodeType.Instruction])
    (hspan : 0 ≤ (p.node ptr).start ∧ (p.node ptr).start ≤ (p.node ptr).end ∧
      (p.node ptr).end ≤ text.length) :
    List.Sorted (fun a b => a < b) (p.node ptr).newLines ∧
    ∀ i : Int, i ∈ (p.node ptr).newLines ↔
      (p.node ptr).start ≤ i ∧ i < (p.node ptr).end ∧ text[i.toNat]? = some '\n' := by
  unfold XmlEventParser.parseString at hparse
  cases hrun : (XmlEventParser.new document).runEvents events with
  | none => rw [hrun] at hparse; simp at hparse
  | some r0 =>
    obtain ⟨b0, p0⟩ := r0
    rw [hrun] at hparse
    have hF0 : FreshHeap p0.heap p0.m_nodes :=
      runEvents_fresh events _ p0 b0 hrun
        ⟨by intro x hx; simp [XmlEventParser.new] at hx, List.nodup_nil,
          by intro q hq; simp [XmlEventParser.new] at hq⟩
    have hF := getXmlDeclaration_fresh p0 text hF0
    simp only at hparse
    split at hparse
    · simp at hparse
    · simp only [Option.some.injEq, Prod.mk.injEq, true_and] at hparse
      subst hparse
      unfold XmlEventParser.calculateNodePositions at hptr htype hspan ⊢
      by_cases hempty : text.isEmpty = true
      · simp only [hempty, if_true] at hptr htype hspan ⊢
        have hlive := hF.2.2 ptr hptr
        have hnl : ((p0.getXmlDeclaration text).node ptr).newLines = [] := by
          apply hF.1
          rw [List.mem_map]
          refine ⟨_, List.mem_iff_getElem?.mpr ⟨ptr, List.getElem?_eq_getElem hlive⟩, ?_⟩
          rw [XmlEventParser.node, deref_of_get (List.getElem?_eq_getElem hlive)]
        rw [hnl]
        refine ⟨List.sorted_nil, fun i => ?_⟩
        have ht : text = [] := List.isEmpty_iff.mp hempty
        simp [ht]
      · simp only [hempty] at hptr htype hspan ⊢
        simp only [Bool.false_eq_true, if_false] at hptr htype hspan ⊢
        have hlive := hF.2.2 ptr hptr
        have hget : (p0.getXmlDeclaration text).heap[ptr]? =
            some ((p0.getXmlDeclaration text).heap[ptr]) := List.getElem?_eq_getElem hlive
        obtain ⟨pos1, hpos⟩ := (positionNodes_get (p0.getXmlDeclaration text) text _ _ 0
          hF.2.1 hF.2.2 ptr _ hget).1 hptr
        have hnl : ((p0.getXmlDeclaration text).heap[ptr]).newLines = [] := by
          apply hF.1
          rw [List.mem_map]
          exact ⟨_, List.mem_iff_getElem?.mpr ⟨ptr, hget⟩, rfl⟩
        have hnode := deref_of_get hpos
        simp only [XmlEventParser.node] at htype hspan ⊢
        rw [hnode] at htype hspan ⊢
        obtain ⟨hty, hlines⟩ := positionNode_newLines (p0.getXmlDeclaration text) text
          ((p0.getXmlDeclaration text).heap[ptr]) pos1
        rw [hty] at htype
        rw [hlines htype, hnl, List.nil_append]
        exact ⟨scanNewLines_sorted _ _ _, fun i => mem_scanNewLines _ _ _ hspan.1 i⟩

/-- C26 at the Text node of a document whose start tag and text each hold
one newline: Start(a), with span [0,10), has the newline at 2 and the Text
node, with span [10,13), the one at 10. -/
theorem C26_newLines_are_the_newlines_of_the_span_witness :
    (XmlEventParser.new linesText.length).parseString linesText linesEvents true =
      some (true, (linesParse.get (by decide)).2) ∧
    1 ∈ (linesParse.get (by decide)).2.m_nodes ∧
    ((linesParse.get (by decide)).2.node 1).type ∈ [NodeType.Start, NodeType.End,
      NodeType.Text, NodeType.Comment, NodeType.CData, NodeType.Instruction] ∧
    (0 ≤ ((linesParse.get (by decide)).2.node 1).start ∧
      ((linesParse.get (by decide)).2.node 1).start ≤
        ((linesParse.get (by decide)).2.node 1).end ∧
      ((linesParse.get (by decide)).2.node 1).end ≤ linesText.length) ∧
    (List.Sorted (fun a b => a < b) ((linesParse.get (by decide)).2.node 1).newLines ∧
      ∀ i : Int, i ∈ ((linesParse.get (by decide)).2.node 1).newLines ↔
        ((linesParse.get (by decide)).2.node 1).start ≤ i ∧
          i < ((linesParse.get (by decide)).2.node 1).end ∧
          linesText[i.toNat]? = some '\n') ∧
    linesParse.map (fun r => r.2.m_nodes.map fun q =>
      ((r.2.node q).type, (r.2.node q).start, (r.2.node q).end, (r.2.node q).newLines)) =
      some [(NodeType.Start, 0, 10, [2]), (NodeType.Text, 10, 13, [10]),
        (NodeType.End, 13, 17, [])] :=
  ⟨parse_eq_of_get linesParse (by decide) (by decide), by decide, by decide, by decide,
    C26_newLines_are_the_newlines_of_the_span linesText.length linesText linesEvents true _
      (parse_eq_of_get linesParse (by decide) (by decide)) 1 (by decide) (by decide)
      (by decide),
    by decide⟩

/-- C27: for a CData node and a position inside its span, `isIn` returns
IsInComment when the position is inside the data, dataStart ≤ p <
dataStart + dataLength, and IsInNode otherwise. -/
theorem C27_cdata_isIn_body_or_node (n : Node) (position : Int)
    (htype : n.type = NodeType.CData) (hin : n.start ≤ position ∧ position < n.end) :
    n.isIn position =
      if n.dataStart ≤ position ∧ position < n.dataStart + n.dataLength then
        IsInNodeType.IsInComment
      else IsInNodeType.IsInNode := by
  have hb : n.baseIsIn position = IsInNodeType.IsInNode := by
    unfold Node.baseIsIn; rw [if_pos ⟨hin.1, hin.2⟩]
  unfold Node.isIn
  rw [htype]
  simp only [Node.cdataIsIn, hb, if_true, Node.dataLength, ge_iff_le]

/-- C27 at the CData node of `<a><![CDATA[x]]></a>`, whose data is at 12:
offset 12 is in the data, offset 5, in `<![CDATA[`, is not. -/
theorem C27_cdata_isIn_body_or_node_witness :
    ((cdataParse.get (by decide)).2.node 1).type = NodeType.CData ∧
    (((cdataParse.get (by decide)).2.node 1).start ≤ 12 ∧
      12 < ((cdataParse.get (by decide)).2.node 1).end) ∧
    ((cdataParse.get (by decide)).2.node 1).isIn 12 =
      (if ((cdataParse.get (by decide)).2.node 1).dataStart ≤ 12 ∧
          12 < ((cdataParse.get (by decide)).2.node 1).dataStart +
            ((cdataParse.get (by decide)).2.node 1).dataLength then
        IsInNodeType.IsInComment
      else IsInNodeType.IsInNode) ∧
    ((cdataParse.get (by decide)).2.node 1).isIn 12 = IsInNodeType.IsInComment ∧
    ((cdataParse.get (by decide)).2.node 1).isIn 5 = IsInNodeType.IsInNode :=
  ⟨by decide, by decide,
    C27_cdata_isIn_body_or_node ((cdataParse.get (by decide)).2.node 1) 12 (by decide)
      (by decide),
    by decide, by decide⟩

/-- C28: the declaration node `getXmlDeclaration` makes has an empty name,
so `isIn` never returns IsInName on it: it returns IsInNode for every
position in its span. In the parse of
`<?xml version="1.0" encoding="UTF-8"?><r/>` the declaration node has the span
[0,38) and its name cursor at 1, and `isIn` returns IsInNode at the offsets
2, 3 and 4 of the keyword `xml`. -/
theorem C28_declaration_is_never_in_name :
    (∀ (p : XmlEventParser) (xmltext : QString) (pos position : Int),
      (declarationNode p xmltext pos).isIn position ≠ IsInNodeType.IsInName) ∧
    declarationParse.map (fun r => (r.1, r.2.m_nodes, (r.2.node 2).type, (r.2.node 2).name)) =
      some (true, [2, 0, 1], NodeType.XmlDeclaration, []) ∧
    declarationParse.map (fun r => ((r.2.node 2).start, (r.2.node 2).nameStart,
      (r.2.node 2).end)) = some (0, 1, 38) ∧
    (declarationText.drop 2).take 3 = "xml".toList ∧
    declarationParse.map (fun r => [(r.2.node 2).isIn 2, (r.2.node 2).isIn 3,
      (r.2.node 2).isIn 4]) =
      some [IsInNodeType.IsInNode, IsInNodeType.IsInNode, IsInNodeType.IsInNode] := by
  refine ⟨?_, by decide, by decide, by decide, by decide⟩
  intro p xmltext pos position
  have hty := (declarationNode_frame p xmltext pos).1
  have hname := (declarationNode_name p xmltext pos).1
  unfold Node.isIn
  rw [hty]
  simp only [Node.nameIsIn, hname, List.length_nil, Int.Nat.cast_ofNat_Int, add_zero]
  split
  · rw [if_neg (by omega)]; simp
  · simp

/-- C29: for a Start node and a position inside its span and outside its
tag name, `StartNode::isIn` leaves in `attributeIndex` the smallest index of
an attribute whose name span or value span contains the position, and -1 when
no attribute contains it. -/
theorem C29_attributeIndex_first_match (n : Node) (position : Int)
    (hin : n.start ≤ position ∧ position < n.end)
    (hname : ¬ (n.nameStart ≤ position ∧ position < n.nameStart + n.nameLength)) :
    (∀ (i : Nat) (a : XmlAttribute), n.attributes[i]? = some a →
      a.spansContain position = true →
      (∀ (j : Nat) (b : XmlAttribute), j < i → n.attributes[j]? = some b →
        b.spansContain position = false) →
      (n.startIsIn position).2.attributeIndex = i) ∧
    ((∀ a ∈ n.attributes, a.spansContain position = false) →
      (n.startIsIn position).2.attributeIndex = -1) := by
  have hb : n.baseIsIn position = IsInNodeType.IsInNode := by
    unfold Node.baseIsIn; rw [if_pos ⟨hin.1, hin.2⟩]
  have hres : n.nameIsIn position = IsInNodeType.IsInNode := by
    unfold Node.nameIsIn
    rw [if_pos hb, if_neg (fun h => hname ⟨h.1, h.2⟩)]
  unfold Node.startIsIn
  simp only [hres, if_true]
  constructor
  · intro i a hget ha hmin
    cases hhit : attributeHit position n.attributes 0 with
    | none =>
      have := attributeHit_none position _ _ hhit a (List.mem_iff_getElem?.mpr ⟨i, hget⟩)
      rw [ha] at this; cases this
    | some r =>
      obtain ⟨i1, a1, hr, hget1, ha1, hmin1⟩ := attributeHit_some position _ _ _ hhit
      have hi : i1 = i := by
        rcases Nat.lt_trichotomy i1 i with h | h | h
        · have := hmin i1 a1 h hget1
          rw [ha1] at this; cases this
        · exact h
        · have := hmin1 i a h hget
          rw [ha] at this; cases this
      subst hi
      simp [hr]
  · intro hall
    cases hhit : attributeHit position n.attributes 0 with
    | none => rfl
    | some r =>
      obtain ⟨i1, a1, hr, hget1, ha1, hmin1⟩ := attributeHit_some position _ _ _ hhit
      have := hall a1 (List.mem_iff_getElem?.mpr ⟨i1, hget1⟩)
      rw [ha1] at this; cases this

/-- C29 at Start(a) of `<a b="1" c="b"></a>` as position recovery leaves it:
the name of `b` is at 3 and so is the value of `c`, and at 3 the index is 0;
at 9, the name of `c`, it is 1, and at 2, a blank, it is -1. -/
theorem C29_attributeIndex_first_match_witness :
    (((pairParse.get (by decide)).2.node 0).start ≤ 3 ∧
      3 < ((pairParse.get (by decide)).2.node 0).end) ∧
    ¬ (((pairParse.get (by decide)).2.node 0).nameStart ≤ 3 ∧
      3 < ((pairParse.get (by decide)).2.node 0).nameStart +
        ((pairParse.get (by decide)).2.node 0).nameLength) ∧
    ((∀ (i : Nat) (a : XmlAttribute),
        ((pairParse.get (by decide)).2.node 0).attributes[i]? = some a →
        a.spansContain 3 = true →
        (∀ (j : Nat) (b : XmlAttribute), j < i →
          ((pairParse.get (by decide)).2.node 0).attributes[j]? = some b →
          b.spansContain 3 = false) →
        (((pairParse.get (by decide)).2.node 0).startIsIn 3).2.attributeIndex = i) ∧
      ((∀ a ∈ ((pairParse.get (by decide)).2.node 0).attributes, a.spansContain 3 = false) →
        (((pairParse.get (by decide)).2.node 0).startIsIn 3).2.attributeIndex = -1)) ∧
    ((pairParse.get (by decide)).2.node 0).attributes.map (fun a => a.spansContain 3) =
      [true, true] ∧
    [(((pairParse.get (by decide)).2.node 0).startIsIn 3).2.attributeIndex,
      (((pairParse.get (by decide)).2.node 0).startIsIn 9).2.attributeIndex,
      (((pairParse.get (by decide)).2.node 0).startIsIn 2).2.attributeIndex] = [0, 1, -1] :=
  ⟨by decide, by decide,
    C29_attributeIndex_first_match ((pairParse.get (by decide)).2.node 0) 3 (by decide)
      (by decide),
    by decide, by decide⟩

/-- C30: `isFormatable` does not clip the length of a span to the block.
For the span [0,5) and the block [3,13) it returns true with start 0 and
length 5, where the intersection [3,5) has length 2 in the block; for the
span [2,12) and the block [0,5) it returns true with start 2 and length 7,
which ends at 9, past the 5 characters of the block. Whenever it returns
true for a span with start ≥ 0, the start is max(start, blockStart) -
blockStart, and the length is start + length - textLength when the span ends
after the block and the unclipped length otherwise. -/
theorem C30_isFormatable_length_not_clipped :
    isFormatable 0 5 3 10 {} = (true, { start := 0, length := 5 }) ∧
    (min (0 + 5) (3 + 10) - max 0 3 : Int) = 2 ∧
    isFormatable 2 10 0 5 {} = (true, { start := 2, length := 7 }) ∧
    (min (2 + 10) (0 + 5) - max 2 0 : Int) = 3 ∧
    (∀ (start length blockStart textLength : Int) (result : FormatSize),
      0 ≤ start → (isFormatable start length blockStart textLength result).1 = true →
      (isFormatable start length blockStart textLength result).2.start =
        max start blockStart - blockStart ∧
      (isFormatable start length blockStart textLength result).2.length =
        if start + length > blockStart + textLength then start + length - textLength
        else length) := by
  refine ⟨by decide, by decide, by decide, by decide, ?_⟩
  intro start length blockStart textLength result h0 htrue
  have hc : ¬ (start + length < blockStart ∨ start > blockStart + textLength) := by
    intro hc
    simp [isFormatable, hc] at htrue
  have hs : ¬ start < 0 := by omega
  have hmax : max start blockStart - blockStart =
      if start - blockStart < 0 then 0 else start - blockStart := by
    split
    · rw [max_eq_right (by omega)]; omega
    · rw [max_eq_left (by omega)]
  simp only [isFormatable, hc, hs, if_false, hmax]
  constructor
  · split <;> rfl
  · split <;> rfl

/-- C31: `EndNode::toString` does not return `</name>` for every offset and
every name: it compares the offset `i` in the document with the length of
the string built so far. For the end tag of `<ab></ab>`, with the true
offsets start 4, name at 6 and end 9, it returns `</ab >`. In general, for
true offsets with start `s` and a name of `L ≥ 1` characters, it returns `</`,
the name, min(s, L - 1) blanks and `>`, which is `</name>` only when the tag
is at offset 0 or the name has one character. -/
theorem C31_end_toString_pads_with_blanks :
    twoLetterParse.map (fun r => (r.1, r.2.m_nodes)) = some (true, [0, 1]) ∧
    twoLetterParse.map (fun r => ((r.2.node 1).type, (r.2.node 1).name, (r.2.node 1).start,
      (r.2.node 1).nameStart, (r.2.node 1).end)) = some (NodeType.End, "ab".toList, 4, 6, 9) ∧
    twoLetterParse.map (fun r => (r.2.node 1).toString) = some "</ab >".toList ∧
    (∀ (n : Node) (s : Nat), n.start = s → n.nameStart = (s : Int) + 2 →
      n.end = (s : Int) + n.nameLength + 3 → n.newLines = [] → 1 ≤ n.name.length →
      n.endToString =
        "</".toList ++ n.name ++ List.replicate (min s (n.name.length - 1)) ' ' ++
          ">".toList) := by
  refine ⟨by decide, by decide, by decide, ?_⟩
  intro n s hs hn he hl h1
  exact endToString_true_offsets n s hs hn he hl h1

/-- C32: `CDataNode::toString` does not return the section as it is in the
text. For `<a><![CDATA[x]]></a>` the node of the section `<![CDATA[x]]>`, 13
characters, serialises as `<!CDATA[ x ]]>`: the opening delimiter lacks its
first `[`, and a blank is added on each side of the data. The result has 14
characters, the length of the node, which position recovery ends one
character too late. -/
theorem C32_cdata_toString_differs_from_section :
    cdataParse.map (fun r => (r.1, r.2.m_nodes, (r.2.node 1).type)) =
      some (true, [0, 1, 2], NodeType.CData) ∧
    cdataParse.map (fun r => (r.2.node 1).toString) = some "<!CDATA[ x ]]>".toList ∧
    (cdataText.drop 3).take 13 = "<![CDATA[x]]>".toList ∧
    "<!CDATA[ x ]]>".toList ≠ "<![CDATA[x]]>".toList ∧
    cdataParse.map (fun r => ((r.2.node 1).start, (r.2.node 1).end, (r.2.node 1).length,
      ((r.2.node 1).toString.length : Int))) = some (3, 17, 14, 14) := by
  refine ⟨by decide, by decide, by decide, by decide, by decide⟩

/-- C33: when `end_element` is called with a name that differs from the
name of the current parent, a Start node, the handler returns true exactly
when halt-on-error is disabled, and under either setting it leaves the flat
list, the root and the current parent as they were and every existing object
untouched: the heap gains one End node with the name, the MismatchedNodes
flag and no parent, child or closer link, the registry gains the entry for
it, and `sendError` is emitted. When the pointers of the flat list refer to
existing nodes, the new node is not in the flat list, and no later event
puts it there. -/
theorem C33_mismatched_end_leaves_tree (p : XmlEventParser) (name : QString) (q : Nat)
    (hq : p.m_parentNode = some q) (hty : (p.node q).type = NodeType.Start)
    (hne : name ≠ (p.node q).name) (hlive : ∀ x ∈ p.m_nodes, x < p.heap.length) :
    (p.end_element name).1 = !p.m_haltOnError ∧
    (p.end_element name).2.m_nodes = p.m_nodes ∧
    (p.end_element name).2.m_rootNode = p.m_rootNode ∧
    (p.end_element name).2.m_parentNode = p.m_parentNode ∧
    (p.end_element name).2.heap =
      p.heap ++ [{ type := NodeType.End, name := name, errors := 0 ||| MismatchedNodes }] ∧
    (p.end_element name).2.m_errors = (mismatchMessage, p.heap.length) :: p.m_errors ∧
    (p.end_element name).2.emitted = p.emitted ++ [Signal.sendError mismatchMessage] ∧
    (p.end_element name).2.m_haltOnError = p.m_haltOnError ∧
    p.heap.length ∉ (p.end_element name).2.m_nodes ∧
    (∀ (events : List Event) (b : Bool) (p1 : XmlEventParser),
      (p.end_element name).2.runEvents events = some (b, p1) → p.heap.length ∉ p1.m_nodes) := by
  have hnot : p.heap.length ∉ p.m_nodes := fun h => absurd (hlive _ h) (lt_irrefl _)
  have main : (p.end_element name).1 = !p.m_haltOnError ∧
      (p.end_element name).2.m_nodes = p.m_nodes ∧
      (p.end_element name).2.m_rootNode = p.m_rootNode ∧
      (p.end_element name).2.m_parentNode = p.m_parentNode ∧
      (p.end_element name).2.heap =
        p.heap ++ [{ type := NodeType.End, name := name, errors := 0 ||| MismatchedNodes }] ∧
      (p.end_element name).2.m_errors = (mismatchMessage, p.heap.length) :: p.m_errors ∧
      (p.end_element name).2.emitted = p.emitted ++ [Signal.sendError mismatchMessage] ∧
      (p.end_element name).2.m_haltOnError = p.m_haltOnError := by
    unfold XmlEventParser.end_element
    simp only [hq, hty, if_true, ne_eq, hne, not_false_eq_true]
    cases hh : p.m_haltOnError
    · exact ⟨rfl, rfl, rfl, rfl, rfl, rfl, rfl, rfl⟩
    · exact ⟨rfl, rfl, rfl, rfl, rfl, rfl, rfl, rfl⟩
  obtain ⟨m1, m2, m3, m4, m5, m6, m7, m8⟩ := main
  refine ⟨m1, m2, m3, m4, m5, m6, m7, m8, by rw [m2]; exact hnot, ?_⟩
  intro events b p1 hrun
  obtain ⟨-, suf, hs, hx⟩ := runEvents_appends events _ p1 b hrun
  rw [hs, m2]
  intro hmem
  rcases List.mem_append.mp hmem with h | h
  · exact hnot h
  · have := hx _ h
    rw [m5] at this
    simp at this

/-- C33 at a parser in which `a` and `b` are open, for the end tag `c`. -/
theorem C33_mismatched_end_leaves_tree_witness :
    nestedParser.m_parentNode = some 1 ∧ (nestedParser.node 1).type = NodeType.Start ∧
    "c".toList ≠ (nestedParser.node 1).name ∧
    (∀ x ∈ nestedParser.m_nodes, x < nestedParser.heap.length) ∧
    ((nestedParser.end_element "c".toList).1 = !nestedParser.m_haltOnError ∧
    (nestedParser.end_element "c".toList).2.m_nodes = nestedParser.m_nodes ∧
    (nestedParser.end_element "c".toList).2.m_rootNode = nestedParser.m_rootNode ∧
    (nestedParser.end_element "c".toList).2.m_parentNode = nestedParser.m_parentNode ∧
    (nestedParser.end_element "c".toList).2.heap =
      nestedParser.heap ++
        [{ type := NodeType.End, name := "c".toList, errors := 0 ||| MismatchedNodes }] ∧
    (nestedParser.end_element "c".toList).2.m_errors =
      (mismatchMessage, nestedParser.heap.length) :: nestedParser.m_errors ∧
    (nestedParser.end_element "c".toList).2.emitted =
      nestedParser.emitted ++ [Signal.sendError mismatchMessage] ∧
    (nestedParser.end_element "c".toList).2.m_haltOnError = nestedParser.m_haltOnError ∧
    nestedParser.heap.length ∉ (nestedParser.end_element "c".toList).2.m_nodes ∧
    (∀ (events : List Event) (b : Bool) (p1 : XmlEventParser),
      (nestedParser.end_element "c".toList).2.runEvents events = some (b, p1) →
      nestedParser.heap.length ∉ p1.m_nodes)) ∧
    ((nestedParser.end_element "c".toList).1, (nestedParser.end_element "c".toList).2.m_nodes,
      (nestedParser.end_element "c".toList).2.m_errors) =
      (false, [0, 1], [(mismatchMessage, 2)]) ∧
    (((nestedParser.setHaltOnError false).end_element "c".toList).1,
      ((nestedParser.setHaltOnError false).end_element "c".toList).2.m_nodes,
      ((nestedParser.setHaltOnError false).end_element "c".toList).2.m_errors) =
      (true, [0, 1], [(mismatchMessage, 2)]) :=
  ⟨by decide, by decide, by decide, by decide,
    C33_mismatched_end_leaves_tree nestedParser "c".toList 1 (by decide) (by decide)
      (by decide) (by decide),
    by decide, by decide⟩

/-- C34: after any sequence of events that a fresh parser runs without a
fault, for every node n of the flat list: n names q as parent if and only if
n is in the children of q, and then it is there exactly once; an End node has
no parent; the root has no parent; the children of every node are a
subsequence of the flat list, which is in the order in which the nodes were
created. -/
theorem C34_tree_links_consistent (document : Nat) (events : List Event) (b : Bool)
    (p : XmlEventParser)
    (hrun : (XmlEventParser.new document).runEvents events = some (b, p)) :
    (∀ n ∈ p.m_nodes, ∀ q : Nat,
      ((p.node n).parent = some q ↔ n ∈ (p.node q).children) ∧
      ((p.node n).parent = some q → (p.node q).children.count n = 1)) ∧
    (∀ n ∈ p.m_nodes, (p.node n).type = NodeType.End → (p.node n).parent = none) ∧
    (∀ r : Nat, p.m_rootNode = some r → (p.node r).parent = none) ∧
    (∀ q : Nat, (p.node q).children.Sublist p.m_nodes) ∧
    p.m_nodes.Sorted (fun a b => a < b) := by
  have hL := runEvents_linked events _ p b hrun (linked_new document)
  obtain ⟨⟨hA, hB, hR⟩, -, hsorted, hlive⟩ := hL
  have hnodup : ∀ q : Nat, q < p.heap.length → (p.node q).children.Nodup := by
    intro q hq
    exact ((hA q _ (node_of_lt p q hq)).2.2.1).imp (fun h => Nat.ne_of_lt h)
  have hiff : ∀ n ∈ p.m_nodes, ∀ q : Nat,
      ((p.node n).parent = some q ↔ n ∈ (p.node q).children) := by
    intro n hn q
    have hnlt := hlive n hn
    rcases Nat.lt_or_ge q p.heap.length with hq | hq
    · exact hB n q _ _ (node_of_lt p n hnlt) (node_of_lt p q hq)
    · rw [node_of_ge p q hq]
      constructor
      · intro hpar
        have := (hA n _ (node_of_lt p n hnlt)).1 q hpar
        omega
      · intro hmem
        cases hmem
  refine ⟨fun n hn q => ⟨hiff n hn q, fun hpar => ?_⟩, fun n hn hE => ?_, fun r hr => ?_,
    fun q => ?_, hsorted⟩
  · have hmem := (hiff n hn q).mp hpar
    have hq : q < p.heap.length := by
      have := (hA n _ (node_of_lt p n (hlive n hn))).1 q hpar
      have := hlive n hn
      omega
    exact List.count_eq_one_of_mem (hnodup q hq) hmem
  · exact (hA n _ (node_of_lt p n (hlive n hn))).2.2.2 hE
  · obtain ⟨nd, hnd, hp, -⟩ := hR r hr
    rw [XmlEventParser.node, deref_of_get hnd]
    exact hp
  · rcases Nat.lt_or_ge q p.heap.length with hq | hq
    · have hAq := hA q _ (node_of_lt p q hq)
      exact List.sublist_of_subperm_of_sorted
        (List.Nodup.subperm (hnodup q hq) (fun c hc => (hAq.2.1 c hc).2.2)) hAq.2.2.1 hsorted
    · rw [node_of_ge p q hq]
      exact List.nil_sublist _

/-- C34 at the events of `<a x="1">hi<b/></a>`: the Text node and Start(b),
nodes 1 and 2, are the children of Start(a), node 0, in that order; End(b)
and End(a) have no parent. -/
theorem C34_tree_links_consistent_witness :
    (XmlEventParser.new scenarioText.length).runEvents scenarioEvents =
      some ((scenarioRun.get (by decide)).1, (scenarioRun.get (by decide)).2) ∧
    ((∀ n ∈ (scenarioRun.get (by decide)).2.m_nodes, ∀ q : Nat,
      ((((scenarioRun.get (by decide)).2.node n).parent = some q ↔
          n ∈ ((scenarioRun.get (by decide)).2.node q).children) ∧
        (((scenarioRun.get (by decide)).2.node n).parent = some q →
          ((scenarioRun.get (by decide)).2.node q).children.count n = 1))) ∧
      (∀ n ∈ (scenarioRun.get (by decide)).2.m_nodes,
        ((scenarioRun.get (by decide)).2.node n).type = NodeType.End →
        ((scenarioRun.get (by decide)).2.node n).parent = none) ∧
      (∀ r : Nat, (scenarioRun.get (by decide)).2.m_rootNode = some r →
        ((scenarioRun.get (by decide)).2.node r).parent = none) ∧
      (∀ q : Nat, ((scenarioRun.get (by decide)).2.node q).children.Sublist
        (scenarioRun.get (by decide)).2.m_nodes) ∧
      (scenarioRun.get (by decide)).2.m_nodes.Sorted (fun a b => a < b)) ∧
    scenarioRun.map (fun r => (r.1, r.2.m_nodes, r.2.m_rootNode)) =
      some (true, [0, 1, 2, 3, 4], some 0) ∧
    scenarioRun.map (fun r => r.2.heap.map fun n => (n.type, n.parent, n.children)) =
      some [(NodeType.Start, none, [1, 2]), (NodeType.Text, some 0, []),
        (NodeType.Start, some 0, []), (NodeType.End, none, []), (NodeType.End, none, [])] :=
  ⟨(Option.some_get (by decide)).symm,
    C34_tree_links_consistent scenarioText.length scenarioEvents _ _
      (Option.some_get (by decide)).symm,
    by decide, by decide⟩

/-- C35: in a well-formed, single-rooted event sequence run by a fresh
parser, the events before any point are handled without a fault and leave a
state in which: if the next event is a start-element and a root exists, the
current parent is not null, and `start_element` does not dereference a null
pointer; and if a root exists while the current parent is null, the root
element has been closed (it has its closer, an End node of the same name) and
no start-element event follows. -/
theorem C35_start_element_parent_present (document : Nat) (pre rest : List Event)
    (hwf : wellFormed (pre ++ rest) = true) :
    ∃ p : XmlEventParser, (XmlEventParser.new document).runEvents pre = some (true, p) ∧
      (∀ (name : QString) (attrs : List (QString × QString)) (rest1 : List Event),
        rest = Event.start_element name attrs :: rest1 →
        (p.m_rootNode ≠ none → p.m_parentNode ≠ none) ∧
        (p.start_element name attrs).isSome = true) ∧
      (p.m_rootNode ≠ none → p.m_parentNode = none →
        (∃ (r : Nat) (nd : Node), p.m_rootNode = some r ∧ p.heap[r]? = some nd ∧
          nd.type = NodeType.Start ∧ ClosedBy p.heap nd) ∧
        ∀ e ∈ rest, e.isStart = false) := by
  obtain ⟨p, st, rs, hrun, hinv, hwf1⟩ := run_prefix pre rest [] false _ (inv_new document) hwf
  have hL := runEvents_linked pre _ p true hrun (linked_new document)
  refine ⟨p, hrun, ?_, ?_⟩
  · intro name attrs rest1 hrest
    subst hrest
    have hok : ¬ (st = [] ∧ rs = true) := by
      rintro ⟨h1, h2⟩
      subst h1 h2
      simp [wellFormedFrom] at hwf1
    constructor
    · intro hroot hpar
      have hst : st = [] := chain_none (hpar ▸ hinv.chain)
      have hrs : rs = true := by
        rw [← hinv.root]
        cases hr : p.m_rootNode with
        | none => exact absurd hr hroot
        | some r => rfl
      exact hok ⟨hst, hrs⟩
    · obtain ⟨p1, hstep, -, -⟩ := inv_start hinv name attrs hok
      rw [hstep]
      rfl
  · intro hroot hpar
    have hst : st = [] := chain_none (hpar ▸ hinv.chain)
    subst hst
    have hrs : rs = true := by
      rw [← hinv.root]
      cases hr : p.m_rootNode with
      | none => exact absurd hr hroot
      | some r => rfl
    subst hrs
    constructor
    · cases hr : p.m_rootNode with
      | none => exact absurd hr hroot
      | some r =>
        obtain ⟨nd, hnd, -, hty⟩ := hL.heap.2.2 r hr
        rcases hinv.closed r nd hnd hty with ⟨nm, hmem⟩ | hclosed
        · cases hmem
        · exact ⟨r, nd, rfl, hnd, hty, hclosed⟩
    · exact wellFormed_closed_no_start rest hwf1

/-- C35 at the events of `<a x="1">hi<b/></a>`: before start b, the third
event, the root exists and the current parent is Start(a); after all five
events the root exists, the current parent is null and Start(a) has its
closer, End(a), node 4. -/
theorem C35_start_element_parent_present_witness :
    wellFormed (scenarioEvents.take 2 ++ scenarioEvents.drop 2) = true ∧
    (∃ p : XmlEventParser,
      (XmlEventParser.new scenarioText.length).runEvents (scenarioEvents.take 2) =
        some (true, p) ∧
      (∀ (name : QString) (attrs : List (QString × QString)) (rest1 : List Event),
        scenarioEvents.drop 2 = Event.start_element name attrs :: rest1 →
        (p.m_rootNode ≠ none → p.m_parentNode ≠ none) ∧
        (p.start_element name attrs).isSome = true) ∧
      (p.m_rootNode ≠ none → p.m_parentNode = none →
        (∃ (r : Nat) (nd : Node), p.m_rootNode = some r ∧ p.heap[r]? = some nd ∧
          nd.type = NodeType.Start ∧ ClosedBy p.heap nd) ∧
        ∀ e ∈ scenarioEvents.drop 2, e.isStart = false)) ∧
    scenarioEvents.drop 2 =
      Event.start_element "b".toList [] ::
        [Event.end_element "b".toList, Event.end_element "a".toList] ∧
    ((XmlEventParser.new scenarioText.length).runEvents (scenarioEvents.take 2)).map
      (fun r => (r.1, r.2.m_rootNode, r.2.m_parentNode)) = some (true, some 0, some 0) ∧
    scenarioRun.map (fun r => (r.1, r.2.m_rootNode, r.2.m_parentNode, (r.2.node 0).closer)) =
      some (true, some 0, none, some 4) ∧
    scenarioRun.map (fun r => ((r.2.node 4).type, (r.2.node 4).name)) =
      some (NodeType.End, "a".toList) :=
  ⟨by decide,
    C35_start_element_parent_present scenarioText.length (scenarioEvents.take 2)
      (scenarioEvents.drop 2) (by decide),
    by decide, by decide, by decide, by decide⟩

/-- C36: for a fresh parser whose handlers run the events without a fault.
When the event source reports failure (a handler stopped the pass or the
source rejected the document), `parseString` returns false and leaves the
parser as the handlers left it, without declaration extraction or position
recovery: no node is an XmlDeclaration node, every node has the default
cursors, start and end -1, and no newline recorded, and the flat list points
to such nodes. When the source reports success, `parseString` returns true
with the parser that `getXmlDeclaration` and then `calculateNodePositions`
produce from the one the handlers left. -/
theorem C36_failure_skips_declaration_and_positions (document : Nat) (text : QString)
    (events : List Event) (finishOk : Bool) (handled : Bool) (p : XmlEventParser)
    (hrun : (XmlEventParser.new document).runEvents events = some (handled, p)) :
    ((handled && finishOk) = false →
      (XmlEventParser.new document).parseString text events finishOk = some (false, p) ∧
      (∀ nd ∈ p.heap, nd.unpositioned = true ∧ nd.type ≠ NodeType.XmlDeclaration ∧
        nd.start = -1 ∧ nd.end = -1 ∧ nd.newLines = []) ∧
      (∀ ptr ∈ p.m_nodes, ptr < p.heap.length)) ∧
    ((handled && finishOk) = true →
      (XmlEventParser.new document).parseString text events finishOk =
        some (true, (p.getXmlDeclaration text).calculateNodePositions text)) := by
  constructor
  · intro hfail
    refine ⟨?_, ?_, ?_⟩
    · simp [XmlEventParser.parseString, hrun, hfail]
    · have hA := runEvents_unpositioned events _ p handled hrun
        (by intro x hx; simp [XmlEventParser.new] at hx)
      intro nd hnd
      have hu : nd.unpositioned = true := hA _ (List.mem_map_of_mem _ hnd)
      exact ⟨hu, unpositioned_fields nd hu⟩
    · exact (runEvents_fresh events _ p handled hrun
        ⟨by intro x hx; simp [XmlEventParser.new] at hx, List.nodup_nil,
          by intro q hq; simp [XmlEventParser.new] at hq⟩).2.2
  · intro hok
    simp [XmlEventParser.parseString, hrun, hok]

/-- C36 at the events of `<a><b></c></a>`, where the handler of end c stops
the pass: `parseString` returns false and the three nodes built are without
offsets. -/
theorem C36_failure_skips_declaration_and_positions_witness :
    (XmlEventParser.new 14).runEvents mismatchEvents =
      some ((mismatchHalting.get (by decide)).1, (mismatchHalting.get (by decide)).2) ∧
    (((mismatchHalting.get (by decide)).1 && true) = false →
      (XmlEventParser.new 14).parseString "<a><b></c></a>".toList mismatchEvents true =
        some (false, (mismatchHalting.get (by decide)).2) ∧
      (∀ nd ∈ (mismatchHalting.get (by decide)).2.heap,
        nd.unpositioned = true ∧ nd.type ≠ NodeType.XmlDeclaration ∧
        nd.start = -1 ∧ nd.end = -1 ∧ nd.newLines = []) ∧
      (∀ ptr ∈ (mismatchHalting.get (by decide)).2.m_nodes,
        ptr < (mismatchHalting.get (by decide)).2.heap.length)) ∧
    (mismatchHalting.get (by decide)).1 = false ∧
    ((XmlEventParser.new 14).parseString "<a><b></c></a>".toList mismatchEvents true).map
      (fun r => (r.1, r.2.m_nodes, r.2.heap.map fun n => (n.type, n.start, n.end))) =
      some (false, [0, 1], [(NodeType.Start, -1, -1), (NodeType.Start, -1, -1),
        (NodeType.End, -1, -1)]) ∧
    simpleParse.map (fun r => (r.1, r.2.spans)) =
      some (true, [(NodeType.Start, 0, 1, 3), (NodeType.Text, 3, -1, 5),
        (NodeType.End, 5, 7, 9)]) :=
  ⟨(Option.some_get (by decide)).symm,
    (C36_failure_skips_declaration_and_positions 14 "<a><b></c></a>".toList mismatchEvents
      true _ _ (Option.some_get (by decide)).symm).1,
    by decide, by decide, by decide⟩

/-- C37: whatever the prologue, an encoding the declaration node holds is a
quote character, `utf-` in any case, one character of {8, |, 1, 6} and a
quote character. So for `<?xml version="1.0" encoding="UTF-16"?><r/>` and for
`encoding="ISO-8859-1"` the declaration node is created, first of the flat
list, with hasEncoding() false and an empty encoding (and its version
recognised), while `encoding="utf-|"` is recognised. -/
theorem C37_encoding_value_form :
    (∀ (p : XmlEventParser) (xmltext : QString) (pos : Int),
      (declarationNode p xmltext pos).hasEncoding = true →
      encodingValueForm (declarationNode p xmltext pos).encoding = true) ∧
    utf16Parse.map (fun r => (r.1, r.2.m_nodes, (r.2.node 2).type, (r.2.node 2).start,
      (r.2.node 2).end)) = some (true, [2, 0, 1], NodeType.XmlDeclaration, 0, 39) ∧
    utf16Parse.map (fun r => ((r.2.node 2).hasEncoding, (r.2.node 2).encoding,
      (r.2.node 2).hasVersion)) = some (false, [], true) ∧
    latin1Parse.map (fun r => (r.1, r.2.m_nodes, (r.2.node 2).type, (r.2.node 2).start,
      (r.2.node 2).end)) = some (true, [2, 0, 1], NodeType.XmlDeclaration, 0, 43) ∧
    latin1Parse.map (fun r => ((r.2.node 2).hasEncoding, (r.2.node 2).encoding,
      (r.2.node 2).hasVersion)) = some (false, [], true) ∧
    barParse.map (fun r => ((r.2.node 2).hasEncoding, (r.2.node 2).encoding)) =
      some (true, "\"utf-|\"".toList) ∧
    ["\"utf-8\"", "'UTF-1'", "\"Utf-6\"", "'utf-|'"].map
      (fun s => encodingValueForm s.toList) = [true, true, true, true] ∧
    ["\"utf-16\"", "\"utf-9\"", "\"utf8\"", "utf-8", "\"ISO-8859-1\""].map
      (fun s => encodingValueForm s.toList) = [false, false, false, false, false] := by
  refine ⟨?_, by decide, by decide, by decide, by decide, by decide, by decide, by decide⟩
  intro p xmltext pos henc
  rcases declarationNode_encoding p xmltext pos with h | ⟨offset, m, hm, h⟩
  · rw [Node.hasEncoding, h] at henc
    simp at henc
  · rw [h]
    have hmp := reMatch_matchPieces _ _ _ _ hm
    obtain ⟨h7, hform⟩ := matchPieces_encodingValue _ _ hmp
    rw [captured, h7]
    exact hform

/-- C38: an attribute the event reports with an empty value: `start_element`
leaves the value of the attribute object empty, `hasValue()` is false,
position recovery leaves the value cursor as it was and continues from the
`=`, and `XmlAttribute::isIn` does not answer IsInAttributeValue, whatever
the cursors of the attribute are. -/
theorem C38_empty_value_is_no_value (name : QString) (attrs : List (QString × QString))
    (p : XmlEventParser) (text : QString) (rest : List XmlAttribute) (pos position : Int)
    (nameStartCursor valueStartCursor assignCursor : Int) :
    makeAttributes ((name, []) :: attrs) = { name := name } :: makeAttributes attrs ∧
    ({ name := name } : XmlAttribute).value = [] ∧
    ({ name := name } : XmlAttribute).hasValue = false ∧
    (positionAttributes p text ({ name := name } :: rest) pos).1.head?.map
      XmlAttribute.valueStart = some (-1) ∧
    (positionAttributes p text ({ name := name } :: rest) pos).2 =
      (positionAttributes p text rest
        (indexOfChar text '=' (indexOf text name pos + name.length))).2 ∧
    ({ name := name, nameStartCursor := nameStartCursor, valueStartCursor := valueStartCursor,
       assignCursor := assignCursor } : XmlAttribute).isIn position ≠
      IsInNodeType.IsInAttributeValue := by
  refine ⟨rfl, rfl, rfl, rfl, rfl, ?_⟩
  unfold XmlAttribute.isIn
  simp only [XmlAttribute.nameStart, XmlAttribute.valueStart, List.length_nil,
    Int.Nat.cast_ofNat_Int, add_zero]
  split
  · simp
  · rw [if_neg (by omega)]
    simp

/-- C39: for every text and every `from` with 0 ≤ from < length of the text,
`reverseSearchForChar(c, text, from)` returns the greatest index i ≤ from at
which the text has `c`, or -1 when there is none, and every index it reads is
at most `from`, hence inside the text; for a negative `from` it returns -1
and reads nothing. -/
theorem C39_reverseSearch_nearest_preceding (c : Char) (text : QString) (searchFrom : Int) :
    (searchFrom < 0 →
      reverseSearchForChar c text searchFrom = -1 ∧ reverseSearchReads c text searchFrom = []) ∧
    (0 ≤ searchFrom → searchFrom < text.length →
      ((reverseSearchForChar c text searchFrom = -1 ∧
          ∀ i : Nat, (i : Int) ≤ searchFrom → text[i]? ≠ some c) ∨
        (∃ r : Nat, reverseSearchForChar c text searchFrom = r ∧ (r : Int) ≤ searchFrom ∧
          text[r]? = some c ∧
          ∀ i : Nat, r < i → (i : Int) ≤ searchFrom → text[i]? ≠ some c)) ∧
      (∀ i ∈ reverseSearchReads c text searchFrom, (i : Int) ≤ searchFrom ∧
        i < text.length)) := by
  refine ⟨fun h => by simp [reverseSearchForChar, reverseSearchReads, h], ?_⟩
  intro h0 hlt
  have key : ∀ n : Nat,
      ((reverseSearchLoop c text n = -1 ∧ ∀ i : Nat, i ≤ n → text[i]? ≠ some c) ∨
        (∃ r : Nat, reverseSearchLoop c text n = r ∧ r ≤ n ∧ text[r]? = some c ∧
          ∀ i : Nat, r < i → i ≤ n → text[i]? ≠ some c)) ∧
      (∀ i ∈ reverseSearchReadsLoop c text n, i ≤ n) := by
    intro n
    induction n with
    | zero =>
      by_cases h : text[0]? = some c
      · have hc : charAt text 0 c = true := by
          have := charAt_natCast text 0 c
          simp only [Nat.cast_zero] at this
          rw [this]; simpa using h
        simp only [reverseSearchLoop, reverseSearchReadsLoop, hc, if_true]
        exact ⟨Or.inr ⟨0, rfl, le_refl _, h, fun i hi hi0 => by omega⟩, by simp⟩
      · have hc : charAt text 0 c = false := by
          have := charAt_natCast text 0 c
          simp only [Nat.cast_zero] at this
          rw [this]; simpa using h
        simp only [reverseSearchLoop, reverseSearchReadsLoop, hc, Bool.false_eq_true, if_false]
        refine ⟨Or.inl ⟨trivial, fun i hi => ?_⟩, by simp⟩
        have : i = 0 := by omega
        subst this
        exact h
    | succ n ih =>
      by_cases h : text[n + 1]? = some c
      · have hc : charAt text ((n + 1 : Nat) : Int) c = true := by
          rw [charAt_natCast]; simpa using h
        simp only [reverseSearchLoop, reverseSearchReadsLoop, hc, if_true]
        refine ⟨Or.inr ⟨n + 1, rfl, le_refl _, h, fun i hi hi0 => by omega⟩, ?_⟩
        simp
      · have hc : charAt text ((n + 1 : Nat) : Int) c = false := by
          rw [charAt_natCast]; simpa using h
        simp only [reverseSearchLoop, reverseSearchReadsLoop, hc, Bool.false_eq_true, if_false]
        refine ⟨?_, ?_⟩
        · rcases ih.1 with ⟨hr, hall⟩ | ⟨r, hr, hle, hat, hall⟩
          · left
            refine ⟨hr, fun i hi => ?_⟩
            rcases Nat.lt_or_ge i (n + 1) with hlt | hge
            · exact hall i (by omega)
            · have : i = n + 1 := by omega
              subst this
              exact h
          · right
            refine ⟨r, hr, by omega, hat, fun i hri hi => ?_⟩
            rcases Nat.lt_or_ge i (n + 1) with hlt | hge
            · exact hall i hri (by omega)
            · have : i = n + 1 := by omega
              subst this
              exact h
        · intro i hi
          rcases List.mem_cons.mp hi with rfl | hi
          · exact le_refl _
          · have := ih.2 i hi
            omega
  obtain ⟨hres, hreads⟩ := key searchFrom.toNat
  simp only [reverseSearchForChar, reverseSearchReads, if_neg (not_lt.mpr h0)]
  refine ⟨?_, fun i hi => ?_⟩
  · rcases hres with ⟨hr, hall⟩ | ⟨r, hr, hle, hat, hall⟩
    · exact Or.inl ⟨hr, fun i hi => hall i (by omega)⟩
    · exact Or.inr ⟨r, hr, by omega, hat, fun i hri hi => hall i hri (by omega)⟩
  · have := hreads i hi
    omega

/-- C39 at `<ab></ab>` from index 6, the name of the end tag: the nearest
`<` before it is at 4, and the reads are 6, 5, 4; there is no `x` at or
before 6. -/
theorem C39_reverseSearch_nearest_preceding_witness :
    (0 : Int) ≤ 6 ∧ (6 : Int) < twoLetterText.length ∧
    (((reverseSearchForChar '<' twoLetterText 6 = -1 ∧
        ∀ i : Nat, (i : Int) ≤ 6 → twoLetterText[i]? ≠ some '<') ∨
      (∃ r : Nat, reverseSearchForChar '<' twoLetterText 6 = r ∧ (r : Int) ≤ 6 ∧
        twoLetterText[r]? = some '<' ∧
        ∀ i : Nat, r < i → (i : Int) ≤ 6 → twoLetterText[i]? ≠ some '<')) ∧
      (∀ i ∈ reverseSearchReads '<' twoLetterText 6, (i : Int) ≤ 6 ∧
        i < twoLetterText.length)) ∧
    reverseSearchForChar '<' twoLetterText 6 = 4 ∧
    reverseSearchReads '<' twoLetterText 6 = [6, 5, 4] ∧
    reverseSearchForChar 'x' twoLetterText 6 = -1 ∧
    reverseSearchReads 'x' twoLetterText 6 = [6, 5, 4, 3, 2, 1, 0] ∧
    (reverseSearchForChar '<' twoLetterText (-1), reverseSearchReads '<' twoLetterText (-1)) =
      (-1, []) :=
  ⟨by decide, by decide,
    (C39_reverseSearch_nearest_preceding '<' twoLetterText 6).2 (by decide) (by decide),
    by decide, by decide, by decide, by decide, by decide⟩

end QXml
